import Mathlib

/-!
# Verification of the news-aggregator core

A shallow embedding, in Lean 4, of the algorithmic core of a newsletter
aggregator written in TypeScript:

* the parser registry's sender-based routing (`ParserRegistry`),
* cosine similarity and embedding-based semantic deduplication (`dedup.ts`),
* URL canonicalization, tracking-redirect resolution and canonical-URL
  deduplication (`canonicalize.ts`),
* the TL;DR extraction strategy (section lookup, reading-time parsing,
  body handling).

JavaScript strings are modelled by Lean `String`/`List Char` (code points for
code units; the sources only manipulate ASCII-relevant data), JavaScript
numbers by `ℝ` where genuine real arithmetic occurs (cosine similarity) and by
`Nat`/`Int` elsewhere, thrown exceptions by `Except`/`Option`, and platform
builtins (`URL`, `Date`, regexes, `Map`) by explicit executable functions whose
doc comments state what they model.  Theorems are stated over these
definitions.
-/

namespace NewsAgg

/-! ## JavaScript string primitives

Explicit, executable models of the JavaScript string methods the sources use.
-/

/-- JavaScript `String.prototype.toLowerCase`, modelled per character.
`Char.toLower` lowercases exactly `'A'..'Z'`; the data routed through these
functions is ASCII. -/
def jsToLower (s : String) : String := String.mk (s.data.map Char.toLower)

/-- JavaScript whitespace characters (the `\s`/`trim` class restricted to the
ASCII range: space, tab, line feed, carriage return, vertical tab, form
feed). -/
def isJsWs (c : Char) : Bool :=
  c = ' ' || c = '\t' || c = '\n' || c = '\r' || c = '\x0b' || c = '\x0c'

/-- JavaScript `String.prototype.trim`: drop leading and trailing
whitespace. -/
def jsTrim (s : String) : String :=
  String.mk (((s.data.dropWhile isJsWs).reverse.dropWhile isJsWs).reverse)

/-! ## Parser registry (registry source file)

Model of the `ParserRegistry` class.  The registry's mutable
`registrations` array is threaded explicitly as a `List ParserRegistration`;
`register` is the state-update function and `findParser` a pure query.
-/

/-- Model of a newsletter parser object.  Only the identifying fields matter
to registry routing; the `parse` behaviour is modelled separately for the
TL;DR strategy. -/
structure NewsletterParser where
  source : String
  displayName : String
deriving DecidableEq

/-- `ParserRegistration` from the types file: a parser plus its exact-address
patterns and optional domain patterns (`domainPatterns?` is optional in the
TypeScript interface, hence `Option`). -/
structure ParserRegistration where
  parser : NewsletterParser
  emailPatterns : List String
  domainPatterns : Option (List String)

/-- `matchType` values of `ParserMatchResult`. -/
inductive MatchType where
  | exact_email
  | domain
deriving DecidableEq

/-- `ParserMatchResult` from the types file. -/
structure ParserMatchResult where
  matched : Bool
  parser : Option NewsletterParser
  source : Option String
  matchType : Option MatchType
deriving DecidableEq

namespace ParserRegistry

/-- `ParserRegistry.register`: normalizes email patterns (and, via optional
chaining, domain patterns) to lowercase and appends the registration. -/
def register (regs : List ParserRegistration) (registration : ParserRegistration) :
    List ParserRegistration :=
  regs ++ [{ registration with
    emailPatterns := registration.emailPatterns.map jsToLower,
    domainPatterns := registration.domainPatterns.map (·.map jsToLower) }]

/-- Model of the regex `/<([^>]+)>/` applied by `extractEmailAddress`: the
first match of a `'<'`, followed by one or more non-`'>'` characters (the
captured group), followed by `'>'`.  Scanning candidate start positions left to
right, exactly as the regex engine does. -/
def firstAngleToken : List Char → Option (List Char)
  | [] => none
  | c :: rest =>
    if c = '<' then
      let inner := rest.takeWhile (fun d => d ≠ '>')
      if inner.length ≠ 0 ∧ inner.length < rest.length then some inner
      else firstAngleToken rest
    else firstAngleToken rest

/-- `ParserRegistry.extractEmailAddress`: the angle-bracket capture (trimmed)
when the regex matches, otherwise the whole header trimmed. -/
def extractEmailAddress (fromHeader : String) : String :=
  match firstAngleToken fromHeader.data with
  | some inner => jsTrim (String.mk inner)
  | none => jsTrim fromHeader

/-- `ParserRegistry.extractDomain`: `email.split('@')`, then `parts[1]` when
there are at least two parts, else `""`.  JavaScript's single-character
`String.split` is `List.splitOn` on the character data. -/
def extractDomain (email : String) : String :=
  let parts := email.data.splitOn '@'
  if parts.length > 1 then String.mk parts[1]! else ""

/-- `ParserRegistry.findParser`: extract and lowercase the address, derive the
domain, scan every registration for an exact email match, then (only if none
matched) scan every registration for a domain match. -/
def findParser (regs : List ParserRegistration) (fromHeader : String) :
    ParserMatchResult :=
  let emailAddress := jsToLower (extractEmailAddress fromHeader)
  let dom := extractDomain emailAddress
  match regs.find? (fun r => r.emailPatterns.contains emailAddress) with
  | some r => ⟨true, some r.parser, some r.parser.source, some MatchType.exact_email⟩
  | none =>
    match regs.find? (fun r => (r.domainPatterns.getD []).contains dom) with
    | some r => ⟨true, some r.parser, some r.parser.source, some MatchType.domain⟩
    | none => ⟨false, none, none, none⟩

/-- The specification's wording for the domain of an address: "substring after
the first `'@'`, empty if none".  Stated from the spec only, to compare with
`extractDomain` (which the source computes from `split('@')[1]`). -/
def specDomainAfterFirstAt (email : String) : String :=
  match email.data.dropWhile (fun c => c ≠ '@') with
  | [] => ""
  | _ :: t => String.mk t

end ParserRegistry

/-! ## Cosine similarity (`dedup.ts`) -/

/-- Sum of squares of a vector, as accumulated by the `normA`/`normB` loop in
`cosineSimilarity` before the square root is taken. -/
def sumSq (l : List ℝ) : ℝ := l.foldl (fun acc x => acc + x * x) 0

/-- Dot product as accumulated by the `dotProduct` loop. -/
def dotProd (a b : List ℝ) : ℝ := (a.zip b).foldl (fun acc p => acc + p.1 * p.2) 0

open Classical in
/-- `cosineSimilarity` from `dedup.ts`.  The length guard throws
(`Except.error`); the single index loop over equal-length vectors is the fold
over `zip`; `Math.sqrt` is `Real.sqrt`; the zero-norm guard returns `0` before
the division is reached. -/
noncomputable def cosineSimilarity (a b : List ℝ) : Except String ℝ :=
  if a.length ≠ b.length then .error "Vectors must have same length"
  else
    let dotProduct := dotProd a b
    let normA := Real.sqrt ((a.zip b).foldl (fun acc p => acc + p.1 * p.1) 0)
    let normB := Real.sqrt ((a.zip b).foldl (fun acc p => acc + p.2 * p.2) 0)
    if normA = 0 ∨ normB = 0 then .ok 0
    else .ok (dotProduct / (normA * normB))

/-! ## Generic string-scanning primitives

Executable models of the regex operations the TL;DR strategy uses.  All are
left-to-right, non-overlapping scans, exactly like a JavaScript global-flag
regex loop. -/

/-- Case-insensitive prefix test (both sides compared through
`Char.toLower`), the building block for `i`-flag regex literals. -/
def ciPrefix : List Char → List Char → Bool
  | [], _ => true
  | _ :: _, [] => false
  | p :: ps, c :: cs => p.toLower = c.toLower && ciPrefix ps cs

/-- Index of the first case-insensitive occurrence of `pat`. -/
def firstIndexOfCI (pat : List Char) : List Char → Option Nat
  | [] => if ciPrefix pat [] then some 0 else none
  | s@(_ :: t) =>
    if ciPrefix pat s then some 0 else (firstIndexOfCI pat t).map (· + 1)

/-- Case-insensitive containment (`new RegExp(escapedLiteral, 'i').test`). -/
def containsCI (hay pat : List Char) : Bool := (firstIndexOfCI pat hay).isSome

/-- JavaScript `String.prototype.lastIndexOf` (case-sensitive): the largest
start index at which `needle` occurs in `hay`; `none` models `-1`. -/
def lastIndexOfStr (hay needle : List Char) : Option Nat :=
  ((List.range (hay.length + 1)).filter (fun i => needle.isPrefixOf (hay.drop i))).getLast?

/-- One generic fueled left-to-right rewrite pass: at each position, `step`
either consumes `k ≥ 1` characters and emits a replacement, or the scan
advances one character.  Every global-flag `String.replace` in the sources is
an instance.  The fuel is always the input length; since every step of every
instance consumes at least one character, the fuel never runs out before the
input does. -/
def scanRewrite (step : List Char → Option (List Char × Nat)) :
    Nat → List Char → List Char
  | 0, _ => []
  | _, [] => []
  | fuel + 1, s@(c :: t) =>
    match step s with
    | some (out, k) => out ++ scanRewrite step fuel (s.drop k)
    | none => c :: scanRewrite step fuel t

/-- Run a rewrite pass over a whole string. -/
def applyRewrite (step : List Char → Option (List Char × Nat)) (s : List Char) :
    List Char :=
  scanRewrite step s.length s

/-- Step for a literal global replacement (`.replace(/lit/g, repl)`), with a
flag choosing case-insensitive matching (`i`). -/
def replaceLitStep (ci : Bool) (target repl : List Char) (s : List Char) :
    Option (List Char × Nat) :=
  if (if ci then ciPrefix target s else target.isPrefixOf s) then
    some (repl, target.length)
  else none

/-- Step for a lazily delimited global deletion
(`.replace(/open[\s\S]*?close/g, '')`, used for comments, scripts and
styles): an opening token with a closing token somewhere after it deletes
everything through the close; an opener with no closer does not match. -/
def removeDelimitedStep (ci : Bool) (openTok closeTok : List Char)
    (s : List Char) : Option (List Char × Nat) :=
  if (if ci then ciPrefix openTok s else openTok.isPrefixOf s) then
    match firstIndexOfCI closeTok (s.drop openTok.length) with
    | some k => some ([], openTok.length + k + closeTok.length)
    | none => none
  else none

/-- Step for `.replace(/<[^>]+>/g, '')`: a `'<'` followed by one or more
non-`'>'` characters and a closing `'>'` is deleted. -/
def removeTagStep (s : List Char) : Option (List Char × Nat) :=
  match s with
  | '<' :: rest =>
    let inner := rest.takeWhile (fun d => d ≠ '>')
    if inner.length ≠ 0 ∧ inner.length < rest.length then
      some ([], inner.length + 2)
    else none
  | _ => none

/-- Step for `.replace(/\r?\n/g, ' ')`. -/
def newlineStep (s : List Char) : Option (List Char × Nat) :=
  match s with
  | '\r' :: '\n' :: _ => some ([' '], 2)
  | '\n' :: _ => some ([' '], 1)
  | _ => none

/-- Step for `.replace(/\s+/g, ' ')`: a maximal whitespace run becomes one
space. -/
def wsRunStep (s : List Char) : Option (List Char × Nat) :=
  match s with
  | c :: _ =>
    if isJsWs c then some ([' '], (s.takeWhile isJsWs).length) else none
  | [] => none

/-! ## Candidate data model (types source file) -/

/-- `extraction_method` values. -/
inductive ExtractionMethod where
  | email_links
  | email_inline
deriving DecidableEq

/-- `ArticleCandidate` from the types file.  TypeScript optional fields
(`content?`, `title_inferred?`, `reading_time?`, `section?`,
`newsletter_date?`) and the nullable `url` become `Option`s. -/
structure ArticleCandidate where
  title : String
  url : Option String
  summary : String
  content : Option String
  source_name : String
  extraction_method : ExtractionMethod
  title_inferred : Option Bool
  reading_time : Option String
  «section» : Option String
  newsletter_date : Option String
deriving DecidableEq

/-- `ParsedNewsletter` from the types file. -/
structure ParsedNewsletter where
  newsletter_source : String
  email_subject : String
  published_at : String
  candidates : List ArticleCandidate
deriving DecidableEq

/-- `GmailMessage` from the Gmail service (all fields plain strings). -/
structure GmailMessage where
  id : String
  threadId : String
  subject : String
  «from» : String
  date : String
  htmlBody : String
  textBody : String

/-- Model of the JavaScript `Date` builtin as used by `parseEmailDate`:
`toIsoDate s` is `new Date(s).toISOString().split('T')[0]`, `none` when
`toISOString` throws a `RangeError` (invalid date); `todayIso` is the same
for `new Date()`.  This models a platform builtin, not repository code. -/
structure DateModel where
  toIsoDate : String → Option String
  todayIso : String

/-- Hexadecimal digit value. -/
def hexVal? (c : Char) : Option Nat :=
  if c.isDigit then some (c.toNat - '0'.toNat)
  else if 'a' ≤ c ∧ c ≤ 'f' then some (c.toNat - 'a'.toNat + 10)
  else if 'A' ≤ c ∧ c ≤ 'F' then some (c.toNat - 'A'.toNat + 10)
  else none

/-- Model of the `decodeURIComponent` builtin on character data: each `%HH`
becomes the byte `HH`, anything else passes through; a `'%'` not followed by
two hex digits throws a `URIError` (`none`).  Multi-byte UTF-8 sequences are
modelled byte-per-character (the data of interest is ASCII), so inputs whose
only flaw is an invalid UTF-8 byte sequence decode here where the builtin
would throw; the theorems below do not depend on such inputs. -/
def percentDecode : List Char → Option (List Char)
  | [] => some []
  | '%' :: c1 :: c2 :: tl =>
    match hexVal? c1, hexVal? c2 with
    | some h1, some h2 => (percentDecode tl).map (Char.ofNat (h1 * 16 + h2) :: ·)
    | _, _ => none
  | '%' :: _ => none
  | c :: tl => (percentDecode tl).map (c :: ·)

/-! ## TL;DR extraction strategy (TLDR parser source file) -/

namespace TLDRParser

/-- `TLDR_SECTIONS` verbatim from the source. -/
def TLDR_SECTIONS : List String :=
  [ "Headlines & Launches",
    "Deep Dives & Analysis",
    "Engineering & Resources",
    "Quick Links",
    "Big Tech & Startups",
    "Science & Futuristic Technology",
    "Programming, Design & Data Science",
    "Miscellaneous",
    "Opinions & Tutorials",
    "Launches & Tools",
    "Articles & Tutorials",
    "News & Trends" ]

/-- The parser's `source` field. -/
def sourceId : String := "tldr"

/-- The parser's `displayName` field. -/
def displayName : String := "TL;DR Newsletter"

/-- `stripHtml`: strip tags, decode the six listed entities, collapse
newlines then whitespace runs, and trim — each `.replace` chained in source
order. -/
def stripHtml (html : List Char) : List Char :=
  let s1 := applyRewrite removeTagStep html
  let s2 := applyRewrite (replaceLitStep false "&nbsp;".data " ".data) s1
  let s3 := applyRewrite (replaceLitStep false "&amp;".data "&".data) s2
  let s4 := applyRewrite (replaceLitStep false "&lt;".data "<".data) s3
  let s5 := applyRewrite (replaceLitStep false "&gt;".data ">".data) s4
  let s6 := applyRewrite (replaceLitStep false "&quot;".data "\"".data) s5
  let s7 := applyRewrite (replaceLitStep false "&#39;".data "'".data) s6
  let s8 := applyRewrite newlineStep s7
  let s9 := applyRewrite wsRunStep s8
  (jsTrim (String.mk s9)).data

/-- `findSection`: over the document prefix ending at `position`, walk the
fixed `TLDR_SECTIONS` list in order; for the first section name that the
case-insensitive containment test finds, confirm with `lastIndexOf` on the
lowercased strings and return it. -/
def findSection (html : String) (position : Nat) : Option String :=
  let beforeHtml := html.data.take position
  TLDR_SECTIONS.findSome? (fun sec =>
    if containsCI beforeHtml sec.data then
      match lastIndexOfStr (beforeHtml.map Char.toLower) (sec.data.map Char.toLower) with
      | some _ => some sec
      | none => none
    else none)

/-- The specification's selection rule for the section label, stated from the
claim's words for comparison with `findSection`: among all known section
names occurring (case-insensitively) strictly before the offset, the one
whose occurrence lies latest. -/
def specNearestSection (html : String) (position : Nat) : Option String :=
  let beforeLower := (html.data.take position).map Char.toLower
  ((TLDR_SECTIONS.filterMap (fun s =>
      (lastIndexOfStr beforeLower (s.data.map Char.toLower)).map (s, ·))).foldl
    (fun best p =>
      match best with
      | none => some p
      | some q => if q.2 < p.2 then some p else some q) none).map (·.1)

/-- `isValidArticleTitle`: length in `[10, 300]` and no denylist pattern
matches the trimmed title.  Anchored `^...$/i` patterns become lowercase
equality, `^.../i` patterns prefix tests, unanchored ones case-insensitive
containment, and `/^\d+$/` an all-digits test. -/
def isValidArticleTitle (title : String) : Bool :=
  if title.length < 10 || title.length > 300 then false
  else
    let t := (jsTrim title).data
    let lower := t.map Char.toLower
    !(lower == "sign up".data || lower == "advertise".data ||
      lower == "view online".data || lower == "read more".data ||
      lower == "click here".data || lower == "subscribe".data ||
      lower == "unsubscribe".data || lower == "view in browser".data ||
      lower == "sponsor".data || lower == "advertisement".data ||
      lower == "ad".data ||
      (!t.isEmpty && t.all Char.isDigit) ||
      lower == "tldr".data || lower == "share".data || lower == "forward".data ||
      lower == "manage preferences".data || lower == "privacy policy".data ||
      "terms".data.isPrefixOf lower || "together with".data.isPrefixOf lower ||
      containsCI t "(sponsor)".data ||
      "apply to".data.isPrefixOf lower || "claim your".data.isPrefixOf lower ||
      containsCI t "early-stage startup".data || containsCI t "free year".data ||
      containsCI t "free for".data)

/-- `truncateText`: under the limit return unchanged; else cut at the last
period if it lies past 60% of the limit (`500 * 0.6` is exactly `300` in
IEEE doubles), otherwise hard-truncate, trim and append `"..."`. -/
def truncateText (text : List Char) (maxLength : Nat) : List Char :=
  if text.length ≤ maxLength then text
  else
    let truncated := text.take maxLength
    match lastIndexOfStr truncated ['.'] with
    | some lastPeriod =>
      if lastPeriod > maxLength * 6 / 10 then truncated.take (lastPeriod + 1)
      else (jsTrim (String.mk truncated)).data ++ "...".data
    | none => (jsTrim (String.mk truncated)).data ++ "...".data

/-- Test whether a tag's attribute region satisfies
`[^>]*style="[^"]*font-family[^"]*"`: somewhere a `style="` whose closed
quoted value contains `font-family` (case-insensitively, `i` flag). -/
def tagHasFontFamilyStyle : List Char → Bool
  | [] => false
  | s@(_ :: t) =>
    (if ciPrefix "style=\"".data s then
      let afterQ := s.drop 7
      let v := afterQ.takeWhile (fun d => d ≠ '"')
      v.length < afterQ.length && containsCI v "font-family".data
    else false) || tagHasFontFamilyStyle t

/-- Model of the styled-span regex of `extractDescription`
(`/<span[^>]*style="[^"]*font-family[^"]*"[^>]*>([\s\S]*?)<\/span>/i`): first
`<span` whose attribute region (up to the tag-closing `'>'`) carries a
`font-family` style, returning the lazily captured body before the first
`</span>`. -/
def findStyledSpan : List Char → Option (List Char)
  | [] => none
  | s@(_ :: t) =>
    (if ciPrefix "<span".data s then
      let afterOpen := s.drop 5
      let tag := afterOpen.takeWhile (fun d => d ≠ '>')
      if tag.length < afterOpen.length && tagHasFontFamilyStyle tag then
        let body := afterOpen.drop (tag.length + 1)
        match firstIndexOfCI "</span>".data body with
        | some k => some (body.take k)
        | none => none
      else none
    else none).orElse (fun _ => findStyledSpan t)

/-- Characters of the leading orphaned-punctuation class `[,.\-–—]`. -/
def isOrphanPunct (c : Char) : Bool :=
  c = ',' || c = '.' || c = '-' || c = '–' || c = '—'

/-- Single (non-global) replacement of `/^\s*[,.\-–—]+\s*/` by `''`: the
match requires at least one punctuation character, else the string is
unchanged. -/
def stripLeadingPunctRun (s : List Char) : List Char :=
  let a := s.dropWhile isJsWs
  match a with
  | c :: _ =>
    if isOrphanPunct c then (a.dropWhile isOrphanPunct).dropWhile isJsWs else s
  | [] => s

/-- `extractDescription`: prefer the styled span's stripped text when longer
than 20 characters; otherwise strip the whole segment, remove sponsor
markers, strip a leading orphaned punctuation run, trim, and truncate to 500
characters. -/
def extractDescription (html : List Char) : List Char :=
  let fallback : List Char :=
    let text := stripHtml html
    let t1 := applyRewrite (replaceLitStep true "[sponsor]".data []) text
    let t2 := applyRewrite (replaceLitStep true "sponsor".data []) t1
    let t3 := stripLeadingPunctRun t2
    truncateText (jsTrim (String.mk t3)).data 500
  match findStyledSpan html with
  | some inner =>
    let text := stripHtml inner
    if text.length > 20 then truncateText text 500 else fallback
  | none => fallback

/-- Characters excluded by `.` in a regex without the `s` flag (ASCII line
terminators). -/
def isNewlineChar (c : Char) : Bool := c = '\n' || c = '\r'

/-- Tail matcher for the reading-time regex
`/^(.+?)\s*\((\d+)\s*min(?:ute)?\s*read\)\s*$/i`: does a suffix match
`\s*\((\d+)\s*min(?:ute)?\s*read\)\s*$`, and with which digit group?  The
greedy optional `(?:ute)?` never needs backtracking: when `"ute"` follows
`"min"`, declining it would require `\s*read` to match text beginning with
`'u'`, which is impossible. -/
def readTimeBody (s2 : List Char) : Option (List Char) :=
  let ds := s2.takeWhile Char.isDigit
  if ds.isEmpty then none
  else
    let s3 := (s2.drop ds.length).dropWhile isJsWs
    if ciPrefix "min".data s3 then
      let s4 := s3.drop 3
      let s5 := if ciPrefix "ute".data s4 then s4.drop 3 else s4
      let s6 := s5.dropWhile isJsWs
      if ciPrefix "read".data s6 then
        match s6.drop 4 with
        | ')' :: s7 => if (s7.dropWhile isJsWs).isEmpty then some ds else none
        | _ => none
      else none
    else none

def readTimeTail (s : List Char) : Option (List Char) :=
  match s.dropWhile isJsWs with
  | '(' :: s2 => readTimeBody s2
  | _ => none

/-- Lazy scan for the `(.+?)` group: the shortest non-empty prefix (of
non-line-terminator characters, since `.` has no `s` flag) whose remainder
matches the reading-time tail.  Returns (group 1, group 2). -/
def titleMatchGo (pre rest : List Char) : Option (List Char × List Char) :=
  match rest with
  | [] => none
  | c :: t =>
    if isNewlineChar c then none
    else
      match readTimeTail t with
      | some ds => some (pre ++ [c], ds)
      | none => titleMatchGo (pre ++ [c]) t

/-- The whole reading-time regex match on a link text. -/
def titleMatch (text : List Char) : Option (List Char × List Char) :=
  titleMatchGo [] text

/-- The decomposition the spec describes for a link text ending in a
reading-time suffix: a nonempty single-line title part, then optional
whitespace, `(`, one or more digits, `min` optionally followed by `ute`,
`read`, `)` and trailing whitespace, all case-insensitively. -/
def specReadTimeShape (text pre ds : List Char) : Prop :=
  ∃ w1 w2 mn ut w3 rd w4,
    text = pre ++ w1 ++ '(' :: (ds ++ w2 ++ mn ++ ut ++ w3 ++ rd ++ ')' :: w4)
    ∧ pre ≠ [] ∧ (∀ c ∈ pre, isNewlineChar c = false)
    ∧ ds ≠ [] ∧ (∀ c ∈ ds, c.isDigit = true)
    ∧ (∀ c ∈ w1, isJsWs c = true) ∧ (∀ c ∈ w2, isJsWs c = true)
    ∧ (∀ c ∈ w3, isJsWs c = true) ∧ (∀ c ∈ w4, isJsWs c = true)
    ∧ mn.map Char.toLower = "min".data
    ∧ (ut = [] ∨ ut.map Char.toLower = "ute".data)
    ∧ rd.map Char.toLower = "read".data

/-- One link match of the tracking-link scan. -/
structure LinkMatch where
  url : String
  rawContent : String
  position : Nat
  endPosition : Nat
deriving DecidableEq

/-- Search an anchor tag's attribute region for
`href=["'](https?:\/\/tracking\.tldrnewsletter\.com[^"']+)["']` and return
the captured URL (original casing preserved). -/
def findHrefTrackingUrl : List Char → Option (List Char)
  | [] => none
  | s@(_ :: t) =>
    (if ciPrefix "href=".data s then
      match s.drop 5 with
      | q :: r =>
        if (q = '"' || q = '\'') && ciPrefix "http".data r then
          let afterHttp := r.drop 4
          let schemeLen :=
            if ciPrefix "s://tracking.tldrnewsletter.com".data afterHttp then
              some 31
            else if ciPrefix "://tracking.tldrnewsletter.com".data afterHttp then
              some 30
            else none
          match schemeLen with
          | some k =>
            let restUrl := afterHttp.drop k
            let run := restUrl.takeWhile (fun d => d ≠ '"' ∧ d ≠ '\'')
            if run.length ≠ 0 ∧ run.length < restUrl.length then
              some (r.take (4 + k + run.length))
            else none
          | none => none
        else none
      | [] => none
    else none).orElse (fun _ => findHrefTrackingUrl t)

/-- One attempted match of `tldrLinkPattern` at the current position:
`<a`, an attribute region up to the first `'>'` containing a tracking
`href`, then the lazily captured body up to the first `</a>`.  Returns
(url, raw body, total match length). -/
def tryLinkMatchAt (s : List Char) : Option (List Char × List Char × Nat) :=
  if ciPrefix "<a".data s then
    let afterA := s.drop 2
    let tag := afterA.takeWhile (fun d => d ≠ '>')
    if tag.length < afterA.length then
      match findHrefTrackingUrl tag with
      | some url =>
        let body := afterA.drop (tag.length + 1)
        match firstIndexOfCI "</a>".data body with
        | some k => some (url, body.take k, 2 + tag.length + 1 + k + 4)
        | none => none
      | none => none
    else none
  else none

/-- The `tldrLinkPattern.exec` loop: fueled left-to-right non-overlapping
scan collecting matches whose stripped inner text passes
`isValidArticleTitle` (a failed validity check still advances past the whole
match).  Every step consumes at least one character, so fuel equal to the
input length never runs out early. -/
def scanTldrLinks : Nat → List Char → Nat → List LinkMatch
  | 0, _, _ => []
  | _, [], _ => []
  | fuel + 1, s@(_ :: t), i =>
    match tryLinkMatchAt s with
    | some (url, inner, mlen) =>
      let textContent := jsTrim (String.mk (stripHtml inner))
      (if isValidArticleTitle textContent then
        [⟨String.mk url, textContent, i, i + mlen⟩]
      else []) ++ scanTldrLinks fuel (s.drop mlen) (i + mlen)
    | none => scanTldrLinks fuel t (i + 1)

/-- Model of the regex `/https?%3A%2F%2F[^/]+/i` of `normalizeTrackingUrl`:
first occurrence of `http`, optional `s`, the encoded `://`, then one or
more non-`'/'` characters (maximal run). -/
def findEncodedHttpUrl : List Char → Option (List Char)
  | [] => none
  | s@(_ :: t) =>
    (if ciPrefix "http".data s then
      let r := s.drop 4
      let af :=
        if ciPrefix "s%3a%2f%2f".data r then some 10
        else if ciPrefix "%3a%2f%2f".data r then some 9
        else none
      match af with
      | some k =>
        let run := (r.drop k).takeWhile (fun d => d ≠ '/')
        if run.length ≠ 0 then some (s.take (4 + k + run.length)) else none
      | none => none
    else none).orElse (fun _ => findEncodedHttpUrl t)

/-- `normalizeTrackingUrl`: when the URL embeds an encoded destination,
decode it (the `decodeURIComponent` call is NOT wrapped in `try`/`catch`
here, so a malformed encoding propagates as a thrown `URIError`) and
lowercase; otherwise lowercase the raw URL. -/
def normalizeTrackingUrl (url : String) : Except String String :=
  match findEncodedHttpUrl url.data with
  | some m =>
    match percentDecode m with
    | some d => .ok (jsToLower (String.mk d))
    | none => .error "URIError: URI malformed"
  | none => .ok (jsToLower url)

/-- Loop of `deduplicateByUrl` with the accumulated `seen` set (a falsy —
absent or empty — `url` keeps the candidate without touching the set). -/
def deduplicateByUrlGo (seen : List String) :
    List ArticleCandidate → Except String (List ArticleCandidate)
  | [] => .ok []
  | a :: rest =>
    match a.url with
    | none => (deduplicateByUrlGo seen rest).map (a :: ·)
    | some u =>
      if u = "" then (deduplicateByUrlGo seen rest).map (a :: ·)
      else
        match normalizeTrackingUrl u with
        | .error e => .error e
        | .ok n =>
          if seen.contains n then deduplicateByUrlGo seen rest
          else (deduplicateByUrlGo (n :: seen) rest).map (a :: ·)

/-- `deduplicateByUrl`: keep the first candidate per normalized tracking
URL. -/
def deduplicateByUrl (articles : List ArticleCandidate) :
    Except String (List ArticleCandidate) :=
  deduplicateByUrlGo [] articles

/-- The per-link candidate construction loop of `extractArticles`:
`nextPosition` is the next surviving link's start (`cleanHtml.length` when
there is none, or — mirroring the `||` falsy coalescing — when that start is
`0`, which never happens since matches are at least 7 characters long);
title and reading time come from the reading-time regex; the description
from the segment between this match's end and `nextPosition`; the section
from the document prefix before the match.  Only candidates with
`title.length > 10` and `description.length > 20` are emitted.  The
TypeScript pushes no `newsletter_date` (its `newsletterDate` argument is
unused in the pushed record), hence `none`. -/
def buildCandidates (clean : List Char) : List LinkMatch → List ArticleCandidate
  | [] => []
  | cur :: rest =>
    let nextPosition :=
      match rest with
      | nxt :: _ => if nxt.position = 0 then clean.length else nxt.position
      | [] => clean.length
    let tm := titleMatch cur.rawContent.data
    let title :=
      match tm with
      | some (p, _) => jsTrim (String.mk p)
      | none => cur.rawContent
    let readingTime :=
      match tm with
      | some (_, ds) => some (String.mk ds ++ " min read")
      | none => none
    let afterLinkHtml := (clean.drop cur.endPosition).take (nextPosition - cur.endPosition)
    let description := extractDescription afterLinkHtml
    let sec := findSection (String.mk clean) cur.position
    (if title.length > 10 ∧ description.length > 20 then
      [{ title := title, url := some cur.url, summary := String.mk description,
         content := none, source_name := displayName,
         extraction_method := .email_links, title_inferred := none,
         reading_time := readingTime, «section» := sec, newsletter_date := none }]
    else []) ++ buildCandidates clean rest

/-- `extractArticles`: strip comments, `<script>` and `<style>` blocks, scan
for tracking links, build candidates, and deduplicate by normalized tracking
URL.  The `newsletterDate` parameter is (as in the source) not used in the
constructed candidates. -/
def extractArticles (html : String) (_newsletterDate : String) :
    Except String (List ArticleCandidate) :=
  let c1 := applyRewrite (removeDelimitedStep false "<!--".data "-->".data) html.data
  let c2 := applyRewrite (removeDelimitedStep true "<script".data "</script>".data) c1
  let c3 := applyRewrite (removeDelimitedStep true "<style".data "</style>".data) c2
  let linkMatches := scanTldrLinks c3.length c3 0
  deduplicateByUrl (buildCandidates c3 linkMatches)

/-- `parseEmailDate`: ISO date of the parsed email date, falling back to
today when `toISOString` throws on an invalid date. -/
def parseEmailDate (dm : DateModel) (dateString : String) : String :=
  match dm.toIsoDate dateString with
  | some d => d
  | none => dm.todayIso

/-- `TLDRParser.parse`: `htmlBody || textBody` with JavaScript falsy
semantics; an empty body yields a `ParsedNewsletter` with no candidates;
otherwise the candidates come from `extractArticles` (whose exceptions
propagate). -/
def parse (dm : DateModel) (message : GmailMessage) :
    Except String ParsedNewsletter :=
  let htmlContent := if message.htmlBody = "" then message.textBody else message.htmlBody
  let publishedAt := parseEmailDate dm message.date
  if htmlContent = "" then
    .ok ⟨sourceId, message.subject, publishedAt, []⟩
  else
    (extractArticles htmlContent publishedAt).map
      (fun cands => ⟨sourceId, message.subject, publishedAt, cands⟩)

end TLDRParser

deriving instance DecidableEq for Except

/-! ## URL model and canonicalization (`canonicalize.ts`)

The JavaScript WHATWG `URL` builtin is modelled by an explicit parser and
serializer over `scheme://host/path?query#fragment` shapes.  Model
simplifications (documented here once): the parser requires a literal `"://"`
and a non-empty host, as every URL the canonicalizer rewrites has; the port
is kept as part of the `hostname` text; percent-encoding normalization of
paths and query strings is not modelled; `searchParams` values are kept raw
rather than form-decoded.  As in the builtin, the parser lowercases the
scheme and host.  A parse failure (`none`) models the `URL` constructor
throwing. -/

/-- Characters terminating a scheme. -/
def isSchemeDelim (c : Char) : Bool := c = ':' || c = '/' || c = '?' || c = '#'

/-- Characters terminating a host. -/
def isHostDelim (c : Char) : Bool := c = '/' || c = '?' || c = '#'

/-- Characters terminating a path. -/
def isPathDelim (c : Char) : Bool := c = '?' || c = '#'

/-- Model of a parsed `URL` object: the components the sources read and
write.  `protocol` is stored without the trailing `':'`, `hash` without the
leading `'#'`. -/
structure UrlModel where
  protocol : List Char
  hostname : List Char
  pathname : List Char
  searchParams : List (List Char × List Char)
  hash : List Char
deriving DecidableEq

/-- One `&`-separated query segment: empty segments are skipped, the key is
everything before the first `'='`, the value everything after it (possibly
containing further `'='`s). -/
def parseQuerySeg (seg : List Char) : Option (List Char × List Char) :=
  if seg.isEmpty then none
  else if (seg.takeWhile (fun c => c ≠ '=')).length < seg.length then
    some (seg.takeWhile (fun c => c ≠ '='),
      seg.drop ((seg.takeWhile (fun c => c ≠ '=')).length + 1))
  else some (seg.takeWhile (fun c => c ≠ '='), [])

/-- JavaScript `split('&')` on character data. -/
def splitOnAmp : List Char → List (List Char)
  | [] => [[]]
  | c :: t =>
    if c = '&' then [] :: splitOnAmp t
    else
      match splitOnAmp t with
      | s :: ss => (c :: s) :: ss
      | [] => [[c]]

/-- Parse a query string into ordered name-value pairs. -/
def parseQuery (q : List Char) : List (List Char × List Char) :=
  (splitOnAmp q).filterMap parseQuerySeg

/-- The query-then-rest step of `parseUrl`: on a remainder beginning with
`'?'`, parse the query up to the first `'#'`; otherwise no parameters. -/
def parseQueryFrag (r3 : List Char) : List (List Char × List Char) × List Char :=
  match r3 with
  | c :: q =>
    if c = '?' then
      (parseQuery (q.takeWhile (fun d => d ≠ '#')),
        q.drop (q.takeWhile (fun d => d ≠ '#')).length)
    else (([] : List (List Char × List Char)), c :: q)
  | [] => (([] : List (List Char × List Char)), [])

/-- The fragment step of `parseUrl`. -/
def parseFrag (r4 : List Char) : List Char :=
  match r4 with | '#' :: f => f | _ => []

/-- Model of `new URL(s)`. -/
def parseUrl (cs : List Char) : Option UrlModel :=
  let scheme := cs.takeWhile (fun c => !isSchemeDelim c)
  match cs.drop scheme.length with
  | ':' :: '/' :: '/' :: r =>
    if scheme.isEmpty then none
    else
      let host := r.takeWhile (fun c => !isHostDelim c)
      if host.isEmpty then none
      else
        let r2 := r.drop host.length
        let path := r2.takeWhile (fun c => !isPathDelim c)
        let r3 := r2.drop path.length
        let pr := parseQueryFrag r3
        let frag := parseFrag pr.2
        some {
          protocol := scheme.map Char.toLower,
          hostname := host.map Char.toLower,
          pathname := if path.isEmpty then ['/'] else path,
          searchParams := pr.1,
          hash := frag }
  | _ => none

/-- Serialization of the query pairs (`k=v` joined by `&`, as
`URLSearchParams.toString` renders pairs). -/
def serializeQuery : List (List Char × List Char) → List Char
  | [] => []
  | [kv] => kv.1 ++ '=' :: kv.2
  | kv :: rest => kv.1 ++ '=' :: kv.2 ++ '&' :: serializeQuery rest

/-- Model of `url.toString()`. -/
def serializeUrl (u : UrlModel) : List Char :=
  u.protocol ++ ':' :: '/' :: '/' :: u.hostname ++ u.pathname
    ++ (if u.searchParams.isEmpty then [] else '?' :: serializeQuery u.searchParams)
    ++ (if u.hash.isEmpty then [] else '#' :: u.hash)

/-- `TRACKING_PARAMS` verbatim from `canonicalize.ts`. -/
def TRACKING_PARAMS : List String :=
  [ "utm_source", "utm_medium", "utm_campaign", "utm_term", "utm_content",
    "utm_id", "utm_cid",
    "mc_cid", "mc_eid",
    "ref", "ref_src", "ref_url", "referrer",
    "fbclid", "gclid", "gclsrc", "dclid", "msclkid", "twclid",
    "email", "subscriber_id", "mkt_tok", "s", "source", "campaign",
    "_ga", "_gl", "_hsenc", "_hsmi",
    "hsa_acc", "hsa_cam", "hsa_grp", "hsa_ad", "hsa_src", "hsa_tgt",
    "hsa_kw", "hsa_mt", "hsa_net", "hsa_ver" ]

/-- The tracking-parameter deletion test of `canonicalizeUrl`: lowercased key
in `TRACKING_PARAMS`, or one of the `utm_` / `mc_` / `hsa_` prefixes.
Collecting keys and then deleting them all (`searchParams.delete` removes
every pair with that name) is a filter. -/
def isTrackingKey (k : List Char) : Bool :=
  let lowerKey := k.map Char.toLower
  TRACKING_PARAMS.any (fun p => p.data == lowerKey) ||
  "utm_".data.isPrefixOf lowerKey || "mc_".data.isPrefixOf lowerKey ||
  "hsa_".data.isPrefixOf lowerKey

/-- Lexicographic comparison of character data by code point (the code-unit
comparison JavaScript's `sort` uses, identical on the data at hand). -/
def charListLe : List Char → List Char → Bool
  | [], _ => true
  | _ :: _, [] => false
  | a :: as, b :: bs => if a = b then charListLe as bs else decide (a < b)

/-- `searchParams.sort()` key order: lexicographic on the name. -/
def paramKeyLe (a b : List Char × List Char) : Bool :=
  charListLe a.1 b.1

/-- The trailing-slash normalization of `canonicalizeUrl`: drop one trailing
`'/'` when the path is longer than one character. -/
def stripTrailingSlash (path : List Char) : List Char :=
  if path.length > 1 ∧ path.getLast? = some '/' then path.dropLast else path

/-- The mutations `canonicalizeUrl` performs on a successfully parsed URL, in
source order: force `https`, lowercase the host, delete tracking parameters,
sort the remaining parameters, clear the fragment, strip a trailing
slash. -/
def canonicalTransform (parsed : UrlModel) : UrlModel :=
  let step1 := { parsed with protocol := "https".data }
  let step2 := { step1 with hostname := step1.hostname.map Char.toLower }
  let step3 := { step2 with
    searchParams := step2.searchParams.filter (fun kv => !isTrackingKey kv.1) }
  let step4 := { step3 with
    searchParams := step3.searchParams.insertionSort (fun a b => paramKeyLe a b = true) }
  let step5 := { step4 with hash := [] }
  { step5 with pathname := stripTrailingSlash step5.pathname }

/-- `canonicalizeUrl`: falsy guard, parse, transform, serialize; parse
failure returns the input unchanged (the `catch` branch). -/
def canonicalizeUrl (url : String) : String :=
  if url = "" then url
  else
    match parseUrl url.data with
    | none => url
    | some parsed => String.mk (serializeUrl (canonicalTransform parsed))

/-- Model of the regex `/https?%3A%2F%2F[^&\s]+/i` of `resolveTrackingUrl`
(like the `normalizeTrackingUrl` one but stopping at `'&'` or whitespace
instead of `'/'`). -/
def findEncodedHttpNonWs : List Char → Option (List Char)
  | [] => none
  | s@(_ :: t) =>
    (if ciPrefix "http".data s then
      let r := s.drop 4
      let af :=
        if ciPrefix "s%3a%2f%2f".data r then some 10
        else if ciPrefix "%3a%2f%2f".data r then some 9
        else none
      match af with
      | some k =>
        let run := (r.drop k).takeWhile (fun d => d ≠ '&' && !isJsWs d)
        if run.length ≠ 0 then some (s.take (4 + k + run.length)) else none
      | none => none
    else none).orElse (fun _ => findEncodedHttpNonWs t)

/-- `searchParams.get(name)`: first value stored under `name`, or absent. -/
def getSearchParam (u : UrlModel) (name : List Char) : Option (List Char) :=
  (u.searchParams.find? (fun kv => kv.1 == name)).map (·.2)

/-- The generic redirect parameter names checked by `resolveTrackingUrl`. -/
def redirectParams : List String :=
  ["url", "redirect", "target", "destination", "goto", "link"]

/-- `resolveTrackingUrl`: falsy guard; parse (failure returns the input); the
TL;DR tracking-host branch (an embedded encoded URL returns decoded; a
decode failure falls through); the Substack branch (`url` or `r` query
parameter, with JavaScript falsy fall-through on empty values, returning the
raw target when decoding fails); the generic redirect-parameter loop (first
parameter whose value starts with `http`); otherwise the input. -/
def resolveTrackingUrl (url : String) : String :=
  if url = "" then url
  else
    match parseUrl url.data with
    | none => url
    | some parsed =>
      let tldrResult : Option (List Char) :=
        if parsed.hostname = "tracking.tldrnewsletter.com".data then
          (findEncodedHttpNonWs url.data).bind (fun m => percentDecode m)
        else none
      match tldrResult with
      | some d => String.mk d
      | none =>
        let substackResult : Option (List Char) :=
          if decide ("substack.com".data <:+: parsed.hostname)
              && decide ("/redirect".data <:+: parsed.pathname) then
            let target :=
              match getSearchParam parsed "url".data with
              | some v => if v.isEmpty then getSearchParam parsed "r".data else some v
              | none => getSearchParam parsed "r".data
            match target with
            | some tv =>
              if tv.isEmpty then none
              else
                match percentDecode tv with
                | some d => some d
                | none => some tv
            | none => none
          else none
        match substackResult with
        | some d => String.mk d
        | none =>
          let genericResult : Option (List Char) :=
            redirectParams.findSome? (fun p =>
              match getSearchParam parsed p.data with
              | some v =>
                if !v.isEmpty && "http".data.isPrefixOf v then
                  match percentDecode v with
                  | some d => some d
                  | none => some v
                else none
              | none => none)
          match genericResult with
          | some d => String.mk d
          | none => url

/-- `normalizeUrl`: falsy guard, resolve tracking redirects, then
canonicalize. -/
def normalizeUrl (url : String) : String :=
  if url = "" then url
  else canonicalizeUrl (resolveTrackingUrl url)


/-- Well-formedness of a URL model value: the shape every value produced by
`parseUrl` (and preserved by `canonicalTransform`) has, and under which
serialization re-parses exactly. -/
structure UrlWF (u : UrlModel) : Prop where
  protocol_ne : u.protocol ≠ []
  protocol_chars : ∀ c ∈ u.protocol, isSchemeDelim c = false
  protocol_lower : u.protocol.map Char.toLower = u.protocol
  hostname_ne : u.hostname ≠ []
  hostname_chars : ∀ c ∈ u.hostname, isHostDelim c = false
  hostname_lower : u.hostname.map Char.toLower = u.hostname
  pathname_head : u.pathname.head? = some '/'
  pathname_chars : ∀ c ∈ u.pathname, isPathDelim c = false
  params_keys : ∀ kv ∈ u.searchParams, ∀ c ∈ kv.1, c ≠ '&' ∧ c ≠ '#' ∧ c ≠ '='
  params_vals : ∀ kv ∈ u.searchParams, ∀ c ∈ kv.2, c ≠ '&' ∧ c ≠ '#'

/-! ## Canonical-URL candidate deduplication (`canonicalize.ts`, C1)

The `Map` used by `deduplicateCandidatesByUrl` is modelled as an association
list in insertion order: `set` on an existing key replaces the value in
place (JavaScript `Map` keeps the original key position), `set` on a new key
appends. -/

/-- JavaScript truthiness of an optional boolean field. -/
def truthyBool (o : Option Bool) : Bool := o == some true

/-- JavaScript truthiness of an optional string field (absent and `""` are
falsy). -/
def truthyStr (o : Option String) : Bool :=
  match o with
  | some s => s ≠ ""
  | none => false

/-- `isBetterCandidate` from `canonicalize.ts`, source branch for source
branch.  Note there is no `return false` between the title-length and
summary-length comparisons. -/
def isBetterCandidate (a b : ArticleCandidate) : Bool :=
  if !truthyBool a.title_inferred && truthyBool b.title_inferred then true
  else if truthyBool a.title_inferred && !truthyBool b.title_inferred then false
  else if truthyStr a.content && !truthyStr b.content then true
  else if !truthyStr a.content && truthyStr b.content then false
  else if a.title.length > b.title.length then true
  else if a.summary.length > b.summary.length then true
  else false

/-- `Map.has`. -/
def mapHas (m : List (String × ArticleCandidate)) (k : String) : Bool :=
  m.any (fun kv => kv.1 == k)

/-- `Map.get` (first — only, keys are distinct — entry). -/
def mapGet (m : List (String × ArticleCandidate)) (k : String) :
    Option ArticleCandidate :=
  (m.find? (fun kv => kv.1 == k)).map (·.2)

/-- `Map.set`: replace in place when present, append when new. -/
def mapSet (m : List (String × ArticleCandidate)) (k : String)
    (v : ArticleCandidate) : List (String × ArticleCandidate) :=
  if mapHas m k then m.map (fun kv => if kv.1 == k then (k, v) else kv)
  else m ++ [(k, v)]

/-- The loop body of `deduplicateCandidatesByUrl` over the threaded map:
candidates without a (truthy) `url` use the synthetic inline key and are
stored only if the key is absent; candidates with a URL are stored under the
normalized URL, replacing the present entry only when `isBetterCandidate`
says so. -/
def dedupLoop (m : List (String × ArticleCandidate)) :
    List ArticleCandidate → List (String × ArticleCandidate)
  | [] => m
  | candidate :: rest =>
    match candidate.url with
    | none =>
      dedupLoop
        (if mapHas m ("inline:" ++ jsTrim (jsToLower candidate.title)) then m
         else mapSet m ("inline:" ++ jsTrim (jsToLower candidate.title)) candidate) rest
    | some u =>
      if u = "" then
        dedupLoop
          (if mapHas m ("inline:" ++ jsTrim (jsToLower candidate.title)) then m
           else mapSet m ("inline:" ++ jsTrim (jsToLower candidate.title)) candidate) rest
      else
        if mapHas m (normalizeUrl u) then
          match mapGet m (normalizeUrl u) with
          | some existing =>
            dedupLoop
              (if isBetterCandidate candidate existing then
                mapSet m (normalizeUrl u) candidate
              else m) rest
          | none => dedupLoop m rest
        else dedupLoop (mapSet m (normalizeUrl u) candidate) rest

/-- `deduplicateCandidatesByUrl`: run the loop on an empty map and return
the stored values (`Array.from(urlMap.values())`, i.e. insertion order of
keys). -/
def deduplicateCandidatesByUrl (candidates : List ArticleCandidate) :
    List ArticleCandidate :=
  (dedupLoop [] candidates).map (·.2)

/-- The deduplication key of a candidate (the map key `dedupLoop` stores it
under). -/
def dedupKey (c : ArticleCandidate) : String :=
  match c.url with
  | some u =>
    if u = "" then "inline:" ++ jsTrim (jsToLower c.title) else normalizeUrl u
  | none => "inline:" ++ jsTrim (jsToLower c.title)

/-- The representative a group's members fold to: starting from the
earliest-seen member, a later member replaces the current representative
exactly when it has a truthy `url` and `isBetterCandidate` prefers it
(inline members never replace). -/
def chooseRep (r : ArticleCandidate) : List ArticleCandidate → ArticleCandidate
  | [] => r
  | c :: t => chooseRep (if truthyStr c.url && isBetterCandidate c r then c else r) t

/-- The deduplication keys of a candidate list in order of first
occurrence. -/
def firstKeysGo : Nat → List ArticleCandidate → List String
  | _, [] => []
  | 0, _ :: _ => []
  | n + 1, c :: t =>
    dedupKey c :: firstKeysGo n (t.filter (fun d => dedupKey d ≠ dedupKey c))

def firstKeys (l : List ArticleCandidate) : List String :=
  firstKeysGo l.length l

/-- One replacement step of the representative fold. -/
def stepRep (r c : ArticleCandidate) : ArticleCandidate :=
  if truthyStr c.url && isBetterCandidate c r then c else r

/-- The effect of one loop iteration of `deduplicateCandidatesByUrl` on the
map, as a standalone map transformer. -/
def mapUpdate (m : List (String × ArticleCandidate)) (c : ArticleCandidate) :
    List (String × ArticleCandidate) :=
  if mapHas m (dedupKey c) then
    if truthyStr c.url then
      match mapGet m (dedupKey c) with
      | some existing =>
        if isBetterCandidate c existing then mapSet m (dedupKey c) c else m
      | none => m
    else m
  else mapSet m (dedupKey c) c

/-- Entries already in the map, after folding in all their later group
members. -/
def updOld (m : List (String × ArticleCandidate)) (cs : List ArticleCandidate) :
    List (String × ArticleCandidate) :=
  m.map (fun kv => (kv.1, chooseRep kv.2 (cs.filter (fun c => dedupKey c == kv.1))))

/-- Entries created by the loop for keys not yet in the map, in order of
first occurrence. -/
def newPart (m : List (String × ArticleCandidate)) (cs : List ArticleCandidate) :
    List (String × ArticleCandidate) :=
  (firstKeys (cs.filter (fun c => !mapHas m (dedupKey c)))).filterMap
    (fun k =>
      match cs.filter (fun c => dedupKey c == k) with
      | [] => none
      | r :: t => some (k, chooseRep r t))

/-- First of the two candidates `C1_counterexample` feeds to
`deduplicateCandidatesByUrl`: longer title, empty summary. -/
def C1exA : ArticleCandidate :=
  ⟨"TTTTT", some "https://x.com/a", "", none, "s", ExtractionMethod.email_links,
    none, none, none, none⟩

/-- Second of the two candidates `C1_counterexample` feeds to
`deduplicateCandidatesByUrl`: same URL, shorter title, longer summary. -/
def C1exB : ArticleCandidate :=
  ⟨"T", some "https://x.com/a", "SS", none, "s", ExtractionMethod.email_links,
    none, none, none, none⟩


/-! ## Semantic article deduplication (`dedup.ts`): union-find,
grouping, and the full pipeline (C6, C10) -/

/-! ### Union-find embedding -/

/-- `parent[i]`, with the JavaScript out-of-range read modelled as the
identity (such reads never occur on the in-range indices the code uses). -/
def parentOf (p : List Nat) (i : Nat) : Nat := p.getD i i

/-- Follow parent pointers for at most `k` steps, stopping at a root. -/
def chase (p : List Nat) : Nat → Nat → Nat
  | 0, i => i
  | k + 1, i => if parentOf p i = i then i else chase p k (parentOf p i)

/-- Some number of steps reaches a root. -/
def Reaches (p : List Nat) (i : Nat) : Prop :=
  ∃ k, parentOf p (chase p k i) = chase p k i

open Classical in
/-- The root of `i`'s tree (junk when no root is reachable). -/
noncomputable def rootOfC (p : List Nat) (i : Nat) : Nat :=
  if h : Reaches p i then chase p (Nat.find h) i else i

/-- The recursive `find` with path compression: returns the root and the
updated parent array.  The JavaScript recursion is unbounded; `fuel` is an
upper bound on the recursion depth, proved sufficient at every call site. -/
def ufFind : Nat → List Nat → Nat → Nat × List Nat
  | 0, p, i => (i, p)
  | fuel + 1, p, i =>
    let pi := parentOf p i
    if pi = i then (i, p)
    else
      let rp := ufFind fuel p pi
      (rp.1, rp.2.set i rp.1)

/-- `union`: graft the root of `i` onto the root of `j` when distinct. -/
def ufUnion (fuel : Nat) (p : List Nat) (i j : Nat) : List Nat :=
  let r1 := ufFind fuel p i
  let r2 := ufFind fuel r1.2 j
  if r1.1 = r2.1 then r2.2 else r2.2.set r1.1 r2.1

/-- All ordered pairs `(i, j)` with `i < j < n`, in the loop order of the
source's nested `for` loops. -/
def pairList (n : Nat) : List (Nat × Nat) :=
  (List.range n).flatMap (fun i =>
    (List.range' (i + 1) (n - (i + 1))).map (fun j => (i, j)))

/-- The parent array is closed over `[0, n)` and every chain reaches a root
within `B` steps. -/
def GoodB (p : List Nat) (B : Nat) : Prop :=
  (∀ i < p.length, parentOf p i < p.length) ∧
  ∀ i, ∃ k ≤ B, parentOf p (chase p k i) = chase p k i

/-- The pure union fold over a list of pairs. -/
def foldUnions (fuel : Nat) (L : List (Nat × Nat)) (p : List Nat) : List Nat :=
  L.foldl (fun q ij => ufUnion fuel q ij.1 ij.2) p

/-! ### The semantic deduplication pass (`dedup.ts`) -/

structure Article where
  title : String
  summary : String
  source_url : String
  newsletter_date : String
deriving DecidableEq

/-- Placeholder article for the (never-taken) out-of-range list read. -/
def defaultArticle : Article := ⟨"", "", "", ""⟩

structure DedupResult where
  uniqueArticles : List Article
  duplicateGroups : List (List Article)
  totalArticles : Nat
  removedCount : Nat
deriving DecidableEq

/-- `groups.has(root)`. -/
def mapHasG (g : List (Nat × List Article)) (r : Nat) : Bool :=
  g.any (fun kv => kv.1 == r)

/-- `groups.get(root).push(article)` on the insertion-ordered map (a `set`
of a missing key appends; a push mutates the held list in place). -/
def addToGroup (g : List (Nat × List Article)) (r : Nat) (a : Article) :
    List (Nat × List Article) :=
  if mapHasG g r then
    g.map (fun kv => if kv.1 == r then (kv.1, kv.2 ++ [a]) else kv)
  else g ++ [(r, [a])]

/-- The grouping loop: `find` each index (threading the compressed parent
array) and push the article onto its root's group. -/
def groupsGo (fuel : Nat) (articles : List Article) :
    List Nat → List (Nat × List Article) → List Nat → List (Nat × List Article)
  | _, g, [] => g
  | p, g, i :: rest =>
    let rp := ufFind fuel p i
    groupsGo fuel articles rp.2
      (addToGroup g rp.1 (articles.getD i defaultArticle)) rest

/-- The sort comparator of the representative selection:
`(a, b) => dateCompare || summary-length compare`, as the relation
"`a` may precede `b`" (the comparator is ≤ 0). -/
def groupLe (dateValue : String → Int) (a b : Article) : Bool :=
  decide (dateValue b.newsletter_date < dateValue a.newsletter_date
    ∨ (dateValue b.newsletter_date = dateValue a.newsletter_date
        ∧ b.summary.length ≤ a.summary.length))

/-- The final loop over `groups.values()`: singleton groups pass through;
larger groups are sorted (JavaScript sort is stable; the comparator is a
total preorder, so the stable insertion sort computes the same list) and
contribute their head to the unique list and the whole sorted group to the
duplicate groups. -/
def collectGroups (dateValue : String → Int) :
    List (Nat × List Article) → List Article × List (List Article)
  | [] => ([], [])
  | (_, g) :: rest =>
    let ud := collectGroups dateValue rest
    if g.length = 1 then (g ++ ud.1, ud.2)
    else
      let sorted := g.insertionSort (fun a b => groupLe dateValue a b = true)
      (sorted.take 1 ++ ud.1, sorted :: ud.2)

/-- First occurrences of a list of naturals, in order. -/
def natFirstsGo : Nat → List Nat → List Nat
  | _, [] => []
  | 0, _ :: _ => []
  | f + 1, x :: t => x :: natFirstsGo f (t.filter (fun y => y ≠ x))

def natFirsts (l : List Nat) : List Nat := natFirstsGo l.length l

/-- The grouping loop with a fixed root assignment. -/
def groupFold (root : Nat → Nat) (articles : List Article)
    (g : List (Nat × List Article)) : List Nat → List (Nat × List Article)
  | [] => g
  | i :: rest =>
    groupFold root articles
      (addToGroup g (root i) (articles.getD i defaultArticle)) rest

/-- Entry `(i, j)` of the similarity matrix: `1` on the diagonal, and for
`j < i` the mirrored value `matrix[j][i]`, which was computed directly as
the cosine of embeddings `j` and `i`; fresh cosines above the diagonal. -/
noncomputable def simEntry (embeddings : List (List ℝ)) (i j : Nat) :
    Except String ℝ :=
  if i = j then .ok 1
  else if j < i then cosineSimilarity (embeddings.getD j []) (embeddings.getD i [])
  else cosineSimilarity (embeddings.getD i []) (embeddings.getD j [])

/-- Sequential effectful map, modelling a loop that throws on the first
failing entry. -/
def exceptMapList {α β : Type} (f : α → Except String β) :
    List α → Except String (List β)
  | [] => .ok []
  | a :: t =>
    match f a with
    | .error e => .error e
    | .ok b =>
      match exceptMapList f t with
      | .error e => .error e
      | .ok bs => .ok (b :: bs)

/-- The `similarityMatrix` double loop. -/
noncomputable def simMatrix (embeddings : List (List ℝ)) (n : Nat) :
    Except String (List (List ℝ)) :=
  exceptMapList (fun i =>
    exceptMapList (fun j => simEntry embeddings i j) (List.range n))
    (List.range n)

/-- `deduplicateArticles`, with the embeddings (the awaited
`createEmbeddings` result, one vector per article) supplied as an argument
and dates abstracted by the `Date.parse`-model `dateValue`.  `fuel = n * n`
strictly exceeds every union-find recursion depth (each union deepens a
chain by at most one and there are fewer than `n * n` pairs), which the
accompanying theorems prove. -/
noncomputable def deduplicateArticles (dateValue : String → Int)
    (embeddings : List (List ℝ)) (articles : List Article) :
    Except String DedupResult :=
  if articles.length ≤ 1 then
    .ok ⟨articles, [], articles.length, 0⟩
  else
    match simMatrix embeddings articles.length with
    | .error e => .error e
    | .ok mat =>
      let n := articles.length
      let fuel := n * n
      let parent1 := (pairList n).foldl
        (fun p ij =>
          if (0.85 : ℝ) ≤ (mat.getD ij.1 []).getD ij.2 0 then
            ufUnion fuel p ij.1 ij.2
          else p) (List.range n)
      let groups := groupsGo fuel articles parent1 [] (List.range n)
      let ud := collectGroups dateValue groups
      .ok ⟨ud.1, ud.2, n, n - ud.1.length⟩

/-! ## Theorems: cosine similarity (C5) -/

theorem zip_foldl_sq_fst (a : List ℝ) :
    ∀ (b : List ℝ) (c : ℝ), a.length = b.length →
      (a.zip b).foldl (fun acc p => acc + p.1 * p.1) c
        = a.foldl (fun acc x => acc + x * x) c := by
  induction a with
  | nil => intro b c _; simp
  | cons x xs ih =>
    intro b c h
    cases b with
    | nil => simp at h
    | cons y ys =>
      simp only [List.zip_cons_cons, List.foldl_cons]
      exact ih ys (c + x * x) (by simpa using h)

theorem zip_foldl_sq_snd (a : List ℝ) :
    ∀ (b : List ℝ) (c : ℝ), a.length = b.length →
      (a.zip b).foldl (fun acc p => acc + p.2 * p.2) c
        = b.foldl (fun acc x => acc + x * x) c := by
  induction a with
  | nil =>
    intro b c h
    cases b with
    | nil => simp
    | cons y ys => simp at h
  | cons x xs ih =>
    intro b c h
    cases b with
    | nil => simp at h
    | cons y ys =>
      simp only [List.zip_cons_cons, List.foldl_cons]
      exact ih ys (c + y * y) (by simpa using h)

/-- C5: `cosineSimilarity` never throws on two vectors of equal length; it
returns `0` whenever either input has zero norm (`Math.sqrt` of the summed
squares equal to `0`); and it signals an error exactly when the two vectors
have different lengths. -/
theorem C5_cosineSimilarity_spec (a b : List ℝ) :
    (a.length = b.length → ∃ v, cosineSimilarity a b = Except.ok v) ∧
    (a.length = b.length →
      (Real.sqrt (sumSq a) = 0 ∨ Real.sqrt (sumSq b) = 0) →
      cosineSimilarity a b = Except.ok 0) ∧
    ((∃ e, cosineSimilarity a b = Except.error e) ↔ a.length ≠ b.length) := by
  refine ⟨?_, ?_, ?_⟩
  · intro h
    rw [cosineSimilarity, if_neg (by simp [h])]
    dsimp only
    split
    · exact ⟨0, rfl⟩
    · exact ⟨_, rfl⟩
  · intro h hz
    rw [cosineSimilarity, if_neg (by simp [h])]
    rw [if_pos]
    rw [zip_foldl_sq_fst a b 0 h, zip_foldl_sq_snd a b 0 h]
    exact hz
  · constructor
    · rintro ⟨e, he⟩
      by_contra hne
      rw [cosineSimilarity, if_neg (by simp [hne])] at he
      dsimp only at he
      split at he <;> simp at he
    · intro h
      refine ⟨"Vectors must have same length", ?_⟩
      rw [cosineSimilarity, if_pos h]

/-- Witness for C5 at concrete zero vectors. -/
theorem C5_cosineSimilarity_witness : cosineSimilarity [(0 : ℝ)] [(0 : ℝ)] = Except.ok 0 :=
  (C5_cosineSimilarity_spec [0] [0]).2.1 rfl (Or.inl (by simp [sumSq]))

/-! ## Theorems: parser-registry routing (C3)

The claim describes the domain of the extracted address as "substring after
the first `'@'`"; the code computes `email.split('@')[1]`, which for an
address containing two or more `'@'` characters is the segment *between* the
first and second `'@'`, not everything after the first.  `C3_counterexample`
exhibits the difference; `C3_findParser_routing` proves the claim with the
domain amended to the code's `split('@')[1]` semantics. -/

/-- C3 (counterexample): on the from-header `"a@b@c"` with a single
registration whose domain patterns are `["b"]`, the claim's domain
(`"b@c"`, the substring after the first `'@'`) matches no pattern, so the
claim predicts `{matched: false}`; the code's domain is `"b"` (the segment
between the two `'@'`s) and `findParser` returns a domain match. -/
theorem C3_counterexample :
    ParserRegistry.specDomainAfterFirstAt "a@b@c" = "b@c" ∧
    ParserRegistry.extractDomain "a@b@c" = "b" ∧
    "b@c" ∉ (["b"] : List String) ∧
    ParserRegistry.findParser
        (ParserRegistry.register [] ⟨⟨"p", "P"⟩, [], some ["b"]⟩) "a@b@c"
      = ⟨true, some ⟨"p", "P"⟩, some "p", some MatchType.domain⟩ := by
  decide

/-- C3 (amended): `findParser` extracts the bare lowercased address and its
domain (`split('@')[1]`: the segment between the first and second `'@'`,
empty when the address has no `'@'`), checks every registration's
exact-email-pattern set before any registration's domain-pattern set, returns
`exact_email` on an address hit, `domain` on a domain hit, `{matched: false}`
otherwise; and the exact-email match of a later registration beats the domain
match of an earlier one. -/
theorem C3_findParser_routing (regs : List ParserRegistration) (fromHeader : String) :
    let addr := jsToLower (ParserRegistry.extractEmailAddress fromHeader)
    let dom := ParserRegistry.extractDomain addr
    let res := ParserRegistry.findParser regs fromHeader
    ((res.matchType = some MatchType.exact_email) ↔ ∃ r ∈ regs, addr ∈ r.emailPatterns) ∧
    ((res.matchType = some MatchType.domain) ↔
      (∀ r ∈ regs, addr ∉ r.emailPatterns) ∧
      ∃ r ∈ regs, dom ∈ r.domainPatterns.getD []) ∧
    ((res.matched = false) ↔
      ∀ r ∈ regs, addr ∉ r.emailPatterns ∧ dom ∉ r.domainPatterns.getD []) ∧
    (∀ pA pB : NewsletterParser,
      ParserRegistry.findParser
          (ParserRegistry.register (ParserRegistry.register [] ⟨pA, [], some ["x.com"]⟩)
            ⟨pB, ["a@x.com"], none⟩) "a@x.com"
        = ⟨true, some pB, some pB.source, some MatchType.exact_email⟩) := by
  intro addr dom res
  have hres : res = ParserRegistry.findParser regs fromHeader := rfl
  rw [ParserRegistry.findParser] at hres
  refine ⟨?_, ?_, ?_, ?_⟩
  · rcases hE : regs.find? (fun r => r.emailPatterns.contains addr) with _ | rE
    · rw [hE] at hres
      constructor
      · intro hmt
        exfalso
        rcases hD : regs.find? (fun r => (r.domainPatterns.getD []).contains dom)
          with _ | rD <;> rw [hD] at hres <;> rw [hres] at hmt <;> simp at hmt
      · rintro ⟨r, hr, hmem⟩
        have := List.find?_eq_none.mp hE r hr
        simp [List.contains_iff_exists_mem_beq] at this
        exact absurd hmem (by simpa using this)
    · rw [hE] at hres
      constructor
      · intro _
        refine ⟨rE, List.mem_of_find?_eq_some hE, ?_⟩
        have := List.find?_some hE
        simpa [List.contains_iff_exists_mem_beq] using this
      · intro _
        rw [hres]
  · rcases hE : regs.find? (fun r => r.emailPatterns.contains addr) with _ | rE
    · rw [hE] at hres
      rcases hD : regs.find? (fun r => (r.domainPatterns.getD []).contains dom) with _ | rD
      · rw [hD] at hres
        constructor
        · intro hmt; rw [hres] at hmt; simp at hmt
        · rintro ⟨_, r, hr, hmem⟩
          have := List.find?_eq_none.mp hD r hr
          simp [List.contains_iff_exists_mem_beq] at this
          exact absurd hmem (by simpa using this)
      · rw [hD] at hres
        constructor
        · intro _
          refine ⟨?_, rD, List.mem_of_find?_eq_some hD, ?_⟩
          · intro r hr
            have := List.find?_eq_none.mp hE r hr
            simp [List.contains_iff_exists_mem_beq] at this
            simpa using this
          · have := List.find?_some hD
            simpa [List.contains_iff_exists_mem_beq] using this
        · intro _
          rw [hres]
    · rw [hE] at hres
      constructor
      · intro hmt; rw [hres] at hmt; simp at hmt
      · rintro ⟨hnone, _⟩
        have hrE := List.find?_some hE
        simp [List.contains_iff_exists_mem_beq] at hrE
        exact absurd (by simpa using hrE) (hnone rE (List.mem_of_find?_eq_some hE))
  · rcases hE : regs.find? (fun r => r.emailPatterns.contains addr) with _ | rE
    · rw [hE] at hres
      rcases hD : regs.find? (fun r => (r.domainPatterns.getD []).contains dom) with _ | rD
      · rw [hD] at hres
        constructor
        · intro _ r hr
          constructor
          · have := List.find?_eq_none.mp hE r hr
            simp [List.contains_iff_exists_mem_beq] at this
            simpa using this
          · have := List.find?_eq_none.mp hD r hr
            simp [List.contains_iff_exists_mem_beq] at this
            simpa using this
        · intro _; rw [hres]
      · rw [hD] at hres
        constructor
        · intro hm; rw [hres] at hm; simp at hm
        · intro hall
          have hrD := List.find?_some hD
          simp [List.contains_iff_exists_mem_beq] at hrD
          exact absurd (by simpa using hrD)
            (hall rD (List.mem_of_find?_eq_some hD)).2
    · rw [hE] at hres
      constructor
      · intro hm; rw [hres] at hm; simp at hm
      · intro hall
        have hrE := List.find?_some hE
        simp [List.contains_iff_exists_mem_beq] at hrE
        exact absurd (by simpa using hrE)
          (hall rE (List.mem_of_find?_eq_some hE)).1
  · intro pA pB
    simp +decide [ParserRegistry.findParser, ParserRegistry.register]

/-- Witness for C3 at a concrete registry: registration A (domain pattern
`x.com`) precedes registration B (exact address `a@x.com`); the header
`"a@x.com"` routes to B with an exact-email match. -/
theorem C3_findParser_witness :
    ParserRegistry.findParser
        (ParserRegistry.register (ParserRegistry.register []
          ⟨⟨"pa", "PA"⟩, [], some ["x.com"]⟩) ⟨⟨"pb", "PB"⟩, ["a@x.com"], none⟩)
        "a@x.com"
      = ⟨true, some ⟨"pb", "PB"⟩, some "pb", some MatchType.exact_email⟩ :=
  (C3_findParser_routing [] "z").2.2.2 ⟨"pa", "PA"⟩ ⟨"pb", "PB"⟩

/-! ## Theorems: TL;DR `parse` on empty bodies, and a throwing input (C8) -/

/-- C8: the empty-body half of the claim holds — when both bodies are empty,
`parse` returns a `ParsedNewsletter` with the message's subject, a parsed
date and zero candidates.  The general never-throws half is false: the
conjunct evaluates `parse` at the failing input, an HTML body whose valid
article candidate carries a tracking URL embedding the malformed
percent-encoding `https%3A%2F%2Fa%`; `normalizeTrackingUrl` calls
`decodeURIComponent` without a `try`/`catch` (unlike every other decode in
the repository), so the `URIError` propagates out of `parse`. -/
theorem C8_parse_empty_body_and_uncaught_urierror :
    (∀ (dm : DateModel) (msg : GmailMessage), msg.htmlBody = "" → msg.textBody = "" →
      TLDRParser.parse dm msg
        = Except.ok ⟨TLDRParser.sourceId, msg.subject,
            TLDRParser.parseEmailDate dm msg.date, []⟩) ∧
    TLDRParser.parse ⟨fun _ => some "2025-01-01", "2025-01-01"⟩
        ⟨"id", "t", "subj", "f", "d",
          "<a href=\"https://tracking.tldrnewsletter.com/x?u=https%3A%2F%2Fa%\">Good long title here</a>This description is long enough ok.",
          ""⟩
      = Except.error "URIError: URI malformed" := by
  constructor
  · intro dm msg h1 h2
    rw [TLDRParser.parse]
    simp [h1, h2]
  · set_option maxRecDepth 100000 in decide

/-- Witness for C8's empty-body half at a concrete message. -/
theorem C8_parse_empty_body_witness :
    TLDRParser.parse ⟨fun _ => some "2025-01-02", "2025-01-02"⟩
        ⟨"i", "t", "s", "f", "d", "", ""⟩
      = Except.ok ⟨"tldr", "s", "2025-01-02", []⟩ :=
  C8_parse_empty_body_and_uncaught_urierror.1
    ⟨fun _ => some "2025-01-02", "2025-01-02"⟩ ⟨"i", "t", "s", "f", "d", "", ""⟩ rfl rfl

/-! ## Theorems: section lookup (C2)

`findSection` walks `TLDR_SECTIONS` in its fixed array order and returns the
first name that occurs anywhere in the document before the offset — not the
name whose occurrence lies latest before the offset, as the claim states.
`C2_counterexample` exhibits a document where the two disagree;
`C2_findSection_priority_order` proves the amended (priority-order)
description. -/

theorem ciPrefix_iff (pat s : List Char) :
    ciPrefix pat s = true ↔ pat.map Char.toLower <+: s.map Char.toLower := by
  induction pat generalizing s with
  | nil => simp [ciPrefix]
  | cons p ps ih =>
    cases s with
    | nil => simp [ciPrefix]
    | cons c cs =>
      simp only [ciPrefix, Bool.and_eq_true, decide_eq_true_eq, List.map_cons,
        List.cons_prefix_cons, ih]

theorem containsCI_iff (hay pat : List Char) :
    containsCI hay pat = true ↔ pat.map Char.toLower <:+: hay.map Char.toLower := by
  induction hay with
  | nil =>
    simp only [containsCI, firstIndexOfCI]
    cases pat with
    | nil => simp [ciPrefix]
    | cons p ps => simp [ciPrefix]
  | cons c t ih =>
    simp only [containsCI, firstIndexOfCI] at ih ⊢
    by_cases h : ciPrefix pat (c :: t) = true
    · simp only [h, if_pos]
      simp only [Option.isSome_some, true_iff]
      exact ((ciPrefix_iff pat (c :: t)).mp h).isInfix
    · simp only [h, if_neg, Bool.false_eq_true, ite_false]
      rw [show (Option.map (fun x => x + 1) (firstIndexOfCI pat t)).isSome
            = (firstIndexOfCI pat t).isSome from by
          cases firstIndexOfCI pat t <;> rfl,
        ih, List.map_cons, List.infix_cons_iff]
      constructor
      · exact Or.inr
      · rintro (hpre | hinf)
        · exact absurd ((ciPrefix_iff pat (c :: t)).mpr (by simpa using hpre)) h
        · exact hinf

theorem lastIndexOfStr_isSome_iff (hay needle : List Char) :
    (lastIndexOfStr hay needle).isSome = true ↔ needle <:+: hay := by
  rw [lastIndexOfStr, List.getLast?_isSome]
  rw [ne_eq, List.filter_eq_nil_iff]
  push_neg
  constructor
  · rintro ⟨i, _, hpre⟩
    have hp : needle <+: hay.drop i := by
      simpa using List.isPrefixOf_iff_prefix.mp (by simpa using hpre)
    exact hp.isInfix.trans (List.drop_suffix i hay).isInfix
  · rintro ⟨s, t, hst⟩
    refine ⟨s.length, ?_, ?_⟩
    · have : s.length ≤ hay.length := by
        rw [← hst]; simp
      simp [List.mem_range]; omega
    · have : hay.drop s.length = needle ++ t := by
        rw [← hst, List.append_assoc, List.drop_left]
      simp [this, List.isPrefixOf_iff_prefix]

/-- C2 (counterexample): in a document where `"Quick Links"` occurs first and
`"Big Tech & Startups"` occurs later (both before the link offset 46, the
document end), the claim's rule — the latest-occurring known heading before
the offset — picks `"Big Tech & Startups"`, but `findSection` returns
`"Quick Links"` because it scans `TLDR_SECTIONS` in fixed array order and
returns the first name occurring anywhere before the offset. -/
theorem C2_counterexample :
    TLDRParser.findSection "Quick Links then Big Tech & Startups then more" 46
        = some "Quick Links" ∧
    TLDRParser.specNearestSection "Quick Links then Big Tech & Startups then more" 46
        = some "Big Tech & Startups" ∧
    ("Quick Links" : String) ≠ "Big Tech & Startups" := by
  refine ⟨by decide, by decide, by decide⟩

theorem findSome?_section_eq_find? (before : List Char) (l : List String) :
    l.findSome? (fun sec =>
      if containsCI before sec.data then
        match lastIndexOfStr (before.map Char.toLower) (sec.data.map Char.toLower) with
        | some _ => some sec
        | none => none
      else none)
      = l.find? (fun sec => containsCI before sec.data) := by
  induction l with
  | nil => rfl
  | cons s t ih =>
    rw [List.findSome?_cons, List.find?_cons]
    by_cases h : containsCI before s.data = true
    · have hinf := (containsCI_iff before s.data).mp h
      have hsome : (lastIndexOfStr (before.map Char.toLower)
          (s.data.map Char.toLower)).isSome = true :=
        (lastIndexOfStr_isSome_iff _ _).mpr hinf
      rcases Option.isSome_iff_exists.mp hsome with ⟨i, hi⟩
      simp [h, hi]
    · simp only [Bool.not_eq_true] at h
      simp [h, ih]

/-- C2 (amended): the section label `findSection` assigns is the FIRST name
in the fixed `TLDR_SECTIONS` priority order that occurs (case-insensitively)
in the document strictly before the link's start offset, regardless of where
before the offset the names occur; the label is absent exactly when no known
section name occurs before the offset. -/
theorem C2_findSection_priority_order (html : String) (position : Nat) :
    TLDRParser.findSection html position
      = TLDRParser.TLDR_SECTIONS.find?
          (fun sec => containsCI (html.data.take position) sec.data) ∧
    (TLDRParser.findSection html position = none ↔
      ∀ sec ∈ TLDRParser.TLDR_SECTIONS,
        ¬ sec.data.map Char.toLower <:+: (html.data.take position).map Char.toLower) ∧
    (∀ sec, TLDRParser.findSection html position = some sec →
      sec ∈ TLDRParser.TLDR_SECTIONS ∧
      sec.data.map Char.toLower <:+: (html.data.take position).map Char.toLower) := by
  have hmain : TLDRParser.findSection html position
      = TLDRParser.TLDR_SECTIONS.find?
          (fun sec => containsCI (html.data.take position) sec.data) := by
    rw [TLDRParser.findSection]
    exact findSome?_section_eq_find? _ _
  refine ⟨hmain, ?_, ?_⟩
  · rw [hmain, List.find?_eq_none]
    constructor
    · intro h sec hmem hinf
      exact h sec hmem (by simpa using (containsCI_iff _ _).mpr hinf)
    · intro h sec hmem hc
      exact h sec hmem ((containsCI_iff _ _).mp (by simpa using hc))
  · intro sec hfind
    rw [hmain] at hfind
    exact ⟨List.mem_of_find?_eq_some hfind,
      (containsCI_iff _ _).mp (by simpa using List.find?_some hfind)⟩

/-- Witness for C2's amended theorem at the counterexample document. -/
theorem C2_findSection_witness :
    TLDRParser.findSection "Quick Links then Big Tech & Startups then more" 46
      = some "Quick Links" := by
  rw [(C2_findSection_priority_order
    "Quick Links then Big Tech & Startups then more" 46).1]
  decide

/-! ## Theorems: fail-soft URL handling (C7) -/

/-- C7: none of `canonicalizeUrl`, `resolveTrackingUrl`, `normalizeUrl` can
throw (each is a total function whose every potentially throwing platform
call is wrapped — parse failure and decode failure are explicit branches),
and whenever URL parsing fails the input string is returned unchanged; in
particular all three fix `"not a url"`. -/
theorem C7_url_functions_fail_soft :
    (∀ u : String, parseUrl u.data = none →
      canonicalizeUrl u = u ∧ resolveTrackingUrl u = u ∧ normalizeUrl u = u) ∧
    canonicalizeUrl "not a url" = "not a url" ∧
    resolveTrackingUrl "not a url" = "not a url" ∧
    normalizeUrl "not a url" = "not a url" := by
  have main : ∀ u : String, parseUrl u.data = none →
      canonicalizeUrl u = u ∧ resolveTrackingUrl u = u ∧ normalizeUrl u = u := by
    intro u h
    by_cases he : u = ""
    · subst he
      refine ⟨rfl, rfl, rfl⟩
    · have hc : canonicalizeUrl u = u := by
        rw [canonicalizeUrl, if_neg he, h]
      have hr : resolveTrackingUrl u = u := by
        rw [resolveTrackingUrl, if_neg he, h]
      refine ⟨hc, hr, ?_⟩
      rw [normalizeUrl, if_neg he, hr, hc]
  exact ⟨main, (main "not a url" (by decide)).1, (main "not a url" (by decide)).2.1,
    (main "not a url" (by decide)).2.2⟩

/-- Witness for C7 at the concrete non-URL input. -/
theorem C7_url_functions_witness :
    normalizeUrl "clearly not a url" = "clearly not a url" :=
  (C7_url_functions_fail_soft.1 "clearly not a url" (by decide)).2.2

/-! ## Theorems: canonicalization idempotence (C4)

`canonicalizeUrl` strips only a single trailing slash, so a path ending in
`"//"` loses one slash per application: the function is not idempotent on
such inputs.  It is idempotent on every other input
(`C4_canonicalize_idempotent`). -/

/-- C4 (counterexample): one application of `canonicalizeUrl` to
`"https://x.com/a//"` yields `"https://x.com/a/"`, a second application
yields `"https://x.com/a"`, so
`canonicalizeUrl (canonicalizeUrl u) ≠ canonicalizeUrl u` at this input. -/
theorem C4_counterexample :
    canonicalizeUrl "https://x.com/a//" = "https://x.com/a/" ∧
    canonicalizeUrl "https://x.com/a/" = "https://x.com/a" ∧
    canonicalizeUrl (canonicalizeUrl "https://x.com/a//")
      ≠ canonicalizeUrl "https://x.com/a//" := by
  refine ⟨by decide, by decide, by decide⟩

/-! ### Character and scanning lemmas for the URL round trip -/

theorem charOfNatAux_toNat (n : Nat) (h : n.isValidChar) :
    (Char.ofNatAux n h).toNat = n := rfl

theorem char_ofNat_toNat {n : Nat} (h : n.isValidChar) : (Char.ofNat n).toNat = n := by
  simp only [Char.ofNat]
  rw [dif_pos h]
  exact charOfNatAux_toNat n h

theorem char_toLower_idem (c : Char) : c.toLower.toLower = c.toLower := by
  simp only [Char.toLower]
  split
  · rename_i h
    have hvalid : (c.toNat + 32).isValidChar := Or.inl (by omega)
    have hv : (Char.ofNat (c.toNat + 32)).toNat = c.toNat + 32 := char_ofNat_toNat hvalid
    rw [if_neg (by omega)]
  · rfl

theorem char_toLower_eq_iff_small {c d : Char} (hd : d.toNat < 65) :
    c.toLower = d ↔ c = d := by
  constructor
  · intro h
    rw [Char.toLower] at h
    split at h
    · rename_i hup
      have hvalid : (c.toNat + 32).isValidChar := Or.inl (by omega)
      have := congrArg Char.toNat h
      rw [char_ofNat_toNat hvalid] at this
      omega
    · exact h
  · intro h
    subst h
    rw [Char.toLower, if_neg (by omega)]

theorem isSchemeDelim_toLower (c : Char) : isSchemeDelim c.toLower = isSchemeDelim c := by
  simp only [isSchemeDelim]
  rw [show (decide (c.toLower = ':')) = (decide (c = ':')) from
      decide_eq_decide.mpr (char_toLower_eq_iff_small (by decide)),
    show (decide (c.toLower = '/')) = (decide (c = '/')) from
      decide_eq_decide.mpr (char_toLower_eq_iff_small (by decide)),
    show (decide (c.toLower = '?')) = (decide (c = '?')) from
      decide_eq_decide.mpr (char_toLower_eq_iff_small (by decide)),
    show (decide (c.toLower = '#')) = (decide (c = '#')) from
      decide_eq_decide.mpr (char_toLower_eq_iff_small (by decide))]

theorem isHostDelim_toLower (c : Char) : isHostDelim c.toLower = isHostDelim c := by
  simp only [isHostDelim]
  rw [show (decide (c.toLower = '/')) = (decide (c = '/')) from
      decide_eq_decide.mpr (char_toLower_eq_iff_small (by decide)),
    show (decide (c.toLower = '?')) = (decide (c = '?')) from
      decide_eq_decide.mpr (char_toLower_eq_iff_small (by decide)),
    show (decide (c.toLower = '#')) = (decide (c = '#')) from
      decide_eq_decide.mpr (char_toLower_eq_iff_small (by decide))]

theorem takeWhile_eq_self_of {α} {p : α → Bool} {l : List α}
    (h : ∀ x ∈ l, p x = true) : l.takeWhile p = l := by
  induction l with
  | nil => rfl
  | cons x t ih =>
    rw [List.takeWhile_cons, if_pos (h x (by simp))]
    rw [ih (fun y hy => h y (by simp [hy]))]

theorem takeWhile_append_stop {α} {p : α → Bool} {xs : List α} {y : α} {ys : List α}
    (hxs : ∀ x ∈ xs, p x = true) (hy : p y = false) :
    (xs ++ y :: ys).takeWhile p = xs := by
  rw [List.takeWhile_append, takeWhile_eq_self_of hxs, if_pos rfl,
    List.takeWhile_cons, if_neg (by simp [hy])]
  simp

theorem splitOnAmp_ne_nil (l : List Char) : splitOnAmp l ≠ [] := by
  cases l with
  | nil => simp [splitOnAmp]
  | cons c t =>
    rw [splitOnAmp]
    split
    · simp
    · split <;> simp

theorem splitOnAmp_no_amp {a : List Char} (h : ∀ c ∈ a, c ≠ '&') :
    splitOnAmp a = [a] := by
  induction a with
  | nil => rfl
  | cons c t ih =>
    rw [splitOnAmp, if_neg (by simpa using h c (by simp)),
      ih (fun x hx => h x (by simp [hx]))]

theorem splitOnAmp_append {a rest : List Char} (h : ∀ c ∈ a, c ≠ '&') :
    splitOnAmp (a ++ '&' :: rest) = a :: splitOnAmp rest := by
  induction a with
  | nil => simp [splitOnAmp]
  | cons c t ih =>
    rw [List.cons_append, splitOnAmp, if_neg (by simpa using h c (by simp)),
      ih (fun x hx => h x (by simp [hx]))]

theorem parseQuerySeg_eq {k v : List Char} (hk : ∀ c ∈ k, c ≠ '=') :
    parseQuerySeg (k ++ '=' :: v) = some (k, v) := by
  rw [parseQuerySeg]
  rw [if_neg (by simp)]
  have htw : (k ++ '=' :: v).takeWhile (fun c => c ≠ '=') = k :=
    takeWhile_append_stop (fun x hx => by simpa using hk x hx) (by simp)
  rw [htw, if_pos (by simp)]
  have : k ++ '=' :: v = (k ++ ['=']) ++ v := by simp
  rw [this, show k.length + 1 = (k ++ ['=']).length by simp, List.drop_left]

theorem serializeQuery_singleton (kv : List Char × List Char) :
    serializeQuery [kv] = kv.1 ++ '=' :: kv.2 := rfl

theorem serializeQuery_cons_cons (kv kv2 : List Char × List Char)
    (rest : List (List Char × List Char)) :
    serializeQuery (kv :: kv2 :: rest)
      = (kv.1 ++ '=' :: kv.2) ++ '&' :: serializeQuery (kv2 :: rest) := by
  show kv.1 ++ '=' :: kv.2 ++ '&' :: serializeQuery (kv2 :: rest) = _
  simp

theorem parseQuery_serializeQuery {ps : List (List Char × List Char)}
    (hps : ps ≠ [])
    (hkeys : ∀ kv ∈ ps, ∀ c ∈ kv.1, c ≠ '&' ∧ c ≠ '=')
    (hvals : ∀ kv ∈ ps, ∀ c ∈ kv.2, c ≠ '&') :
    parseQuery (serializeQuery ps) = ps := by
  induction ps with
  | nil => exact absurd rfl hps
  | cons kv rest ih =>
    have hseg : ∀ c ∈ kv.1 ++ '=' :: kv.2, c ≠ '&' := by
      intro c hc
      rcases List.mem_append.mp hc with h1 | h2
      · exact (hkeys kv (by simp) c h1).1
      · rcases List.mem_cons.mp h2 with h3 | h4
        · subst h3; decide
        · exact hvals kv (by simp) c h4
    cases rest with
    | nil =>
      rw [serializeQuery_singleton, parseQuery, splitOnAmp_no_amp hseg,
        List.filterMap, parseQuerySeg_eq (fun c hc => (hkeys kv (by simp) c hc).2)]
      rfl
    | cons kv2 rest2 =>
      rw [serializeQuery_cons_cons, parseQuery, splitOnAmp_append hseg,
        List.filterMap, parseQuerySeg_eq (fun c hc => (hkeys kv (by simp) c hc).2)]
      have := ih (by simp)
        (fun p hp c hc => hkeys p (by simp [hp]) c hc)
        (fun p hp c hc => hvals p (by simp [hp]) c hc)
      rw [parseQuery] at this
      rw [this]

theorem mem_serializeQuery {ps : List (List Char × List Char)} {c : Char}
    (h : c ∈ serializeQuery ps) :
    c = '=' ∨ c = '&' ∨ ∃ kv ∈ ps, c ∈ kv.1 ∨ c ∈ kv.2 := by
  induction ps with
  | nil => simp [serializeQuery] at h
  | cons kv rest ih =>
    cases rest with
    | nil =>
      rw [serializeQuery_singleton] at h
      rcases List.mem_append.mp h with h1 | h2
      · exact Or.inr (Or.inr ⟨kv, by simp, Or.inl h1⟩)
      · rcases List.mem_cons.mp h2 with h3 | h4
        · exact Or.inl h3
        · exact Or.inr (Or.inr ⟨kv, by simp, Or.inr h4⟩)
    | cons kv2 rest2 =>
      rw [serializeQuery_cons_cons] at h
      rcases List.mem_append.mp h with h1 | h2
      · rcases List.mem_append.mp h1 with h5 | h6
        · exact Or.inr (Or.inr ⟨kv, by simp, Or.inl h5⟩)
        · rcases List.mem_cons.mp h6 with h7 | h8
          · exact Or.inl h7
          · exact Or.inr (Or.inr ⟨kv, by simp, Or.inr h8⟩)
      · rcases List.mem_cons.mp h2 with h3 | h4
        · exact Or.inr (Or.inl h3)
        · rcases ih h4 with h9 | h9 | ⟨p, hp, h9⟩
          · exact Or.inl h9
          · exact Or.inr (Or.inl h9)
          · exact Or.inr (Or.inr ⟨p, by simp [hp], h9⟩)

theorem parseQueryFrag_question (q : List Char) :
    parseQueryFrag ('?' :: q)
      = (parseQuery (q.takeWhile (fun c => decide (c ≠ '#'))),
         q.drop (q.takeWhile (fun c => decide (c ≠ '#'))).length) := rfl

theorem parseQueryFrag_nil : parseQueryFrag [] = ([], []) := rfl

theorem parseQueryFrag_hash (f : List Char) :
    parseQueryFrag ('#' :: f) = ([], '#' :: f) := rfl

theorem parseFrag_hash (f : List Char) : parseFrag ('#' :: f) = f := rfl

theorem parseFrag_nil : parseFrag [] = [] := rfl

theorem parse_serialize {u : UrlModel} (hw : UrlWF u) :
    parseUrl (serializeUrl u) = some u := by
  obtain ⟨pr, ho, pa, ps, ha⟩ := u
  obtain ⟨hpr_ne, hpr_chars, hpr_low, hho_ne, hho_chars, hho_low, hpa_head,
    hpa_chars, hpk, hpv⟩ := hw
  simp only at hpr_ne hpr_chars hpr_low hho_ne hho_chars hho_low hpa_head hpa_chars hpk hpv
  obtain ⟨pt, rfl⟩ : ∃ pt, pa = '/' :: pt := by
    cases pa with
    | nil => simp at hpa_head
    | cons c t =>
      simp only [List.head?_cons, Option.some.injEq] at hpa_head
      exact ⟨t, by rw [hpa_head]⟩
  have hsq_ne : ∀ c ∈ serializeQuery ps, decide (c ≠ '#') = true := by
    intro c hc
    rcases mem_serializeQuery hc with h | h | ⟨kv, hkv, h | h⟩
    · simp [h]
    · simp [h]
    · simpa using (hpk kv hkv c h).2.1
    · simpa using (hpv kv hkv c h).2
  have hpath : ∀ x ∈ ('/' :: pt : List Char), (!isPathDelim x) = true :=
    fun x hx => by simp [hpa_chars x hx]
  have hparse : ps ≠ [] → parseQuery (serializeQuery ps) = ps := fun hne =>
    parseQuery_serializeQuery hne
      (fun kv hkv c hc => ⟨(hpk kv hkv c hc).1, (hpk kv hkv c hc).2.2⟩)
      (fun kv hkv c hc => (hpv kv hkv c hc).1)
  rcases eq_or_ne ps [] with hps | hps <;> rcases eq_or_ne ha [] with hha | hha
  · -- no query, no fragment
    subst hps; subst hha
    have hs : serializeUrl ⟨pr, ho, '/' :: pt, [], []⟩
        = pr ++ ':' :: ('/' :: '/' :: (ho ++ ('/' :: pt))) := by
      simp [serializeUrl]
    rw [hs, parseUrl]
    rw [takeWhile_append_stop (fun x hx => by simp [hpr_chars x hx]) (by decide),
      List.drop_left]
    simp only [List.isEmpty_eq_true]
    rw [if_neg hpr_ne,
      takeWhile_append_stop (fun x hx => by simp [hho_chars x hx]) (by decide),
      if_neg hho_ne, List.drop_left,
      takeWhile_eq_self_of hpath, List.drop_length]
    simp [hpr_low, hho_low, parseQueryFrag_nil, parseFrag_nil]
  · -- no query, fragment present
    subst hps
    have hs : serializeUrl ⟨pr, ho, '/' :: pt, [], ha⟩
        = pr ++ ':' :: ('/' :: '/' :: (ho ++ ('/' :: (pt ++ '#' :: ha)))) := by
      simp [serializeUrl, hha]
    rw [hs, parseUrl]
    rw [takeWhile_append_stop (fun x hx => by simp [hpr_chars x hx]) (by decide),
      List.drop_left]
    simp only [List.isEmpty_eq_true]
    rw [if_neg hpr_ne,
      takeWhile_append_stop (fun x hx => by simp [hho_chars x hx]) (by decide),
      if_neg hho_ne, List.drop_left,
      show ('/' :: (pt ++ '#' :: ha) : List Char) = ('/' :: pt) ++ '#' :: ha from by simp,
      takeWhile_append_stop hpath (by decide), List.drop_left]
    simp [hpr_low, hho_low, parseQueryFrag_hash, parseFrag_hash]
  · -- query present, no fragment
    subst hha
    have hs : serializeUrl ⟨pr, ho, '/' :: pt, ps, []⟩
        = pr ++ ':' :: ('/' :: '/' :: (ho ++ ('/' :: (pt ++ '?' :: serializeQuery ps)))) := by
      simp [serializeUrl, hps]
    rw [hs, parseUrl]
    rw [takeWhile_append_stop (fun x hx => by simp [hpr_chars x hx]) (by decide),
      List.drop_left]
    simp only [List.isEmpty_eq_true]
    rw [if_neg hpr_ne,
      takeWhile_append_stop (fun x hx => by simp [hho_chars x hx]) (by decide),
      if_neg hho_ne, List.drop_left,
      show ('/' :: (pt ++ '?' :: serializeQuery ps) : List Char)
        = ('/' :: pt) ++ '?' :: serializeQuery ps from by simp,
      takeWhile_append_stop hpath (by decide), List.drop_left,
      parseQueryFrag_question]
    rw [takeWhile_eq_self_of hsq_ne, hparse hps, List.drop_length]
    simp [hpr_low, hho_low, parseFrag_nil]
  · -- query and fragment present
    have hs : serializeUrl ⟨pr, ho, '/' :: pt, ps, ha⟩
        = pr ++ ':' :: ('/' :: '/' ::
            (ho ++ ('/' :: (pt ++ '?' :: (serializeQuery ps ++ '#' :: ha))))) := by
      simp [serializeUrl, hps, hha]
    rw [hs, parseUrl]
    rw [takeWhile_append_stop (fun x hx => by simp [hpr_chars x hx]) (by decide),
      List.drop_left]
    simp only [List.isEmpty_eq_true]
    rw [if_neg hpr_ne,
      takeWhile_append_stop (fun x hx => by simp [hho_chars x hx]) (by decide),
      if_neg hho_ne, List.drop_left,
      show ('/' :: (pt ++ '?' :: (serializeQuery ps ++ '#' :: ha)) : List Char)
        = ('/' :: pt) ++ '?' :: (serializeQuery ps ++ '#' :: ha) from by simp,
      takeWhile_append_stop hpath (by decide), List.drop_left,
      parseQueryFrag_question]
    rw [takeWhile_append_stop hsq_ne (by decide), hparse hps, List.drop_left]
    simp [hpr_low, hho_low, parseFrag_hash]

theorem splitOnAmp_parts_subset {l : List Char} {part : List Char}
    (h : part ∈ splitOnAmp l) : ∀ c ∈ part, c ∈ l := by
  induction l generalizing part with
  | nil =>
    simp [splitOnAmp] at h
    simp [h]
  | cons x t ih =>
    rw [splitOnAmp] at h
    by_cases hx : x = '&'
    · rw [if_pos hx] at h
      rcases List.mem_cons.mp h with h1 | h2
      · subst h1; simp
      · intro c hc
        exact List.mem_cons_of_mem x (ih h2 c hc)
    · rw [if_neg hx] at h
      rcases hsp : splitOnAmp t with _ | ⟨s, ss⟩
      · exact absurd hsp (splitOnAmp_ne_nil t)
      · rw [hsp] at h
        rcases List.mem_cons.mp h with h1 | h2
        · subst h1
          intro c hc
          rcases List.mem_cons.mp hc with h3 | h4
          · simp [h3]
          · exact List.mem_cons_of_mem x (ih (by rw [hsp]; simp) c h4)
        · intro c hc
          exact List.mem_cons_of_mem x (ih (by rw [hsp]; simp [h2]) c hc)

theorem splitOnAmp_parts_no_amp {l : List Char} {part : List Char}
    (h : part ∈ splitOnAmp l) : ∀ c ∈ part, c ≠ '&' := by
  induction l generalizing part with
  | nil =>
    simp [splitOnAmp] at h
    simp [h]
  | cons x t ih =>
    rw [splitOnAmp] at h
    by_cases hx : x = '&'
    · rw [if_pos hx] at h
      rcases List.mem_cons.mp h with h1 | h2
      · subst h1; simp
      · exact ih h2
    · rw [if_neg hx] at h
      rcases hsp : splitOnAmp t with _ | ⟨s, ss⟩
      · exact absurd hsp (splitOnAmp_ne_nil t)
      · rw [hsp] at h
        rcases List.mem_cons.mp h with h1 | h2
        · subst h1
          intro c hc
          rcases List.mem_cons.mp hc with h3 | h4
          · subst h3; exact hx
          · exact ih (by rw [hsp]; simp) c h4
        · exact ih (by rw [hsp]; simp [h2])

theorem dropWhile_head_not {α} {p : α → Bool} {l : List α} {c : α} {t : List α}
    (h : l.dropWhile p = c :: t) : p c = false := by
  induction l with
  | nil => simp [List.dropWhile] at h
  | cons x xs ih =>
    rw [List.dropWhile_cons] at h
    by_cases hx : p x = true
    · rw [if_pos hx] at h
      exact ih h
    · rw [if_neg hx] at h
      cases h
      simpa using hx

theorem drop_takeWhile_length_eq_dropWhile {α} (p : α → Bool) (l : List α) :
    l.drop (l.takeWhile p).length = l.dropWhile p := by
  have h := List.takeWhile_append_dropWhile p l
  nth_rewrite 2 [← h]
  rw [List.drop_left]

/-- Shape of a parsed query pair: both components draw their characters from
the segment, and the key stops before the first `'='`. -/
theorem parseQuerySeg_shape {seg : List Char} {kv : List Char × List Char}
    (hseg : parseQuerySeg seg = some kv) :
    (∀ c ∈ kv.1, c ∈ seg ∧ c ≠ '=') ∧ (∀ c ∈ kv.2, c ∈ seg) := by
  rw [parseQuerySeg] at hseg
  split at hseg
  · simp at hseg
  · split at hseg <;> rw [Option.some.injEq] at hseg <;> subst hseg
    · refine ⟨?_, ?_⟩
      · intro c hc
        exact ⟨List.takeWhile_subset _ hc, by simpa using List.mem_takeWhile_imp hc⟩
      · intro c hc
        exact List.mem_of_mem_drop hc
    · refine ⟨?_, ?_⟩
      · intro c hc
        exact ⟨List.takeWhile_subset _ hc, by simpa using List.mem_takeWhile_imp hc⟩
      · intro c hc
        simp at hc

/-- Every value `parseUrl` produces has well-formed hostname, pathname and
query components. -/
theorem parseUrl_shape {cs : List Char} {p : UrlModel} (h : parseUrl cs = some p) :
    p.hostname ≠ [] ∧ (∀ c ∈ p.hostname, isHostDelim c = false) ∧
    p.pathname.head? = some '/' ∧ (∀ c ∈ p.pathname, isPathDelim c = false) ∧
    (∀ kv ∈ p.searchParams,
      (∀ c ∈ kv.1, c ≠ '&' ∧ c ≠ '#' ∧ c ≠ '=') ∧ (∀ c ∈ kv.2, c ≠ '&' ∧ c ≠ '#')) := by
  rw [parseUrl] at h
  split at h
  case h_2 => exact absurd h (by simp)
  case h_1 r heq =>
    split at h
    · exact absurd h (by simp)
    · dsimp only at h
      split at h
      · exact absurd h (by simp)
      · rename_i hsch hhost
        rw [Option.some.injEq] at h
        subst h
        simp only
        have hostFact : ∀ c ∈ (r.takeWhile fun c => !isHostDelim c).map Char.toLower,
            isHostDelim c = false := by
          intro c hc
          rcases List.mem_map.mp hc with ⟨d, hd, rfl⟩
          rw [isHostDelim_toLower]
          simpa using List.mem_takeWhile_imp hd
        refine ⟨by simpa using hhost, hostFact, ?_, ?_, ?_⟩
        · -- pathname head
          split
          · rfl
          · rename_i hpe
            rcases hdw : (r.drop (r.takeWhile fun c => !isHostDelim c).length).takeWhile
                (fun c => !isPathDelim c) with _ | ⟨c0, t0⟩
            · exact absurd hdw (by simpa [List.isEmpty_eq_true] using hpe)
            · have hr2 : r.drop (r.takeWhile fun c => !isHostDelim c).length
                  = r.dropWhile (fun c => !isHostDelim c) :=
                drop_takeWhile_length_eq_dropWhile _ r
              rw [hr2] at hdw
              rcases hdw2 : r.dropWhile (fun c => !isHostDelim c) with _ | ⟨c1, t1⟩
              · rw [hdw2] at hdw; simp [List.takeWhile] at hdw
              · have hc1 : isHostDelim c1 = true := by
                  simpa using dropWhile_head_not hdw2
                rw [hdw2, List.takeWhile_cons] at hdw
                by_cases hc1p : (!isPathDelim c1) = true
                · rw [if_pos hc1p] at hdw
                  rw [List.cons.injEq] at hdw
                  have hpd : ¬(c1 = '?') ∧ ¬(c1 = '#') := by
                    have h := hc1p
                    simp [isPathDelim] at h
                    exact h
                  have hc1d : c1 = '/' ∨ c1 = '?' ∨ c1 = '#' := by
                    have h := hc1
                    simp [isHostDelim] at h
                    tauto
                  have hc0 : c0 = '/' := by
                    rw [← hdw.1]
                    rcases hc1d with h | h | h
                    · exact h
                    · exact absurd h hpd.1
                    · exact absurd h hpd.2
                  simp [hc0]
                · rw [if_neg hc1p] at hdw
                  simp at hdw
        · -- pathname chars
          split
          · intro c hc
            rcases List.mem_cons.mp hc with h1 | h1
            · subst h1; decide
            · simp at h1
          · intro c hc
            simpa using List.mem_takeWhile_imp hc
        · -- query pairs
          intro kv hkv
          rcases hq : (r.drop (r.takeWhile fun c => !isHostDelim c).length).drop
              ((r.drop (r.takeWhile fun c => !isHostDelim c).length).takeWhile
                (fun c => !isPathDelim c)).length with _ | ⟨cq, tq⟩
          all_goals rw [hq] at hkv
          · rw [parseQueryFrag_nil] at hkv
            simp at hkv
          · by_cases hcq : cq = '?'
            · subst hcq
              rw [parseQueryFrag_question] at hkv
              simp only at hkv
              rcases List.mem_filterMap.mp hkv with ⟨seg, hseg, hsegeq⟩
              have hsub := splitOnAmp_parts_subset hseg
              have hamp := splitOnAmp_parts_no_amp hseg
              have hhash : ∀ c ∈ seg, c ≠ '#' := fun c hc => by
                simpa using List.mem_takeWhile_imp (hsub c hc)
              obtain ⟨hk, hv⟩ := parseQuerySeg_shape hsegeq
              exact ⟨fun c hc => ⟨hamp c (hk c hc).1, hhash c (hk c hc).1, (hk c hc).2⟩,
                fun c hc => ⟨hamp c (hv c hc), hhash c (hv c hc)⟩⟩
            · have hfr : parseQueryFrag (cq :: tq) = ([], cq :: tq) := by
                simp [parseQueryFrag, hcq]
              rw [hfr] at hkv
              simp at hkv

theorem charListLe_total (a b : List Char) :
    charListLe a b = true ∨ charListLe b a = true := by
  induction a generalizing b with
  | nil => left; rfl
  | cons x xs ih =>
    cases b with
    | nil => right; rfl
    | cons y ys =>
      by_cases hxy : x = y
      · subst hxy
        rw [charListLe, if_pos rfl, charListLe, if_pos rfl]
        exact ih ys
      · rcases lt_or_gt_of_ne hxy with hlt | hgt
        · left
          rw [charListLe, if_neg hxy]
          simpa using hlt
        · right
          rw [charListLe, if_neg (Ne.symm hxy)]
          simpa using hgt

theorem charListLe_trans {a b c : List Char}
    (h1 : charListLe a b = true) (h2 : charListLe b c = true) :
    charListLe a c = true := by
  induction a generalizing b c with
  | nil => rfl
  | cons x xs ih =>
    cases b with
    | nil => simp [charListLe] at h1
    | cons y ys =>
      cases c with
      | nil => simp [charListLe] at h2
      | cons z zs =>
        rw [charListLe] at h1 h2 ⊢
        by_cases hxy : x = y
        · subst hxy
          rw [if_pos rfl] at h1
          by_cases hyz : x = z
          · subst hyz
            rw [if_pos rfl] at h2 ⊢
            exact ih h1 h2
          · rw [if_neg hyz] at h2 ⊢
            exact h2
        · rw [if_neg hxy] at h1
          have hlt1 : x < y := by simpa using h1
          by_cases hyz : y = z
          · subst hyz
            rw [if_neg hxy]
            simpa using hlt1
          · rw [if_neg hyz] at h2
            have hlt2 : y < z := by simpa using h2
            have : x < z := lt_trans hlt1 hlt2
            rw [if_neg (ne_of_lt this)]
            simpa using this

@[instance] theorem paramKeyLe_isTotal :
    IsTotal (List Char × List Char) (fun a b => paramKeyLe a b = true) :=
  ⟨fun a b => charListLe_total a.1 b.1⟩

@[instance] theorem paramKeyLe_isTrans :
    IsTrans (List Char × List Char) (fun a b => paramKeyLe a b = true) :=
  ⟨fun _ _ _ h1 h2 => charListLe_trans h1 h2⟩

theorem map_toLower_idem (l : List Char) :
    (l.map Char.toLower).map Char.toLower = l.map Char.toLower := by
  rw [List.map_map]
  exact List.map_congr_left (fun a _ => char_toLower_idem a)

theorem canonicalTransform_eq (p : UrlModel) :
    canonicalTransform p
      = ⟨"https".data, p.hostname.map Char.toLower, stripTrailingSlash p.pathname,
          (p.searchParams.filter (fun kv => !isTrackingKey kv.1)).insertionSort
            (fun a b => paramKeyLe a b = true), []⟩ := rfl

theorem stripTrailingSlash_head (path : List Char) (h : path.head? = some '/') :
    (stripTrailingSlash path).head? = some '/' := by
  rw [stripTrailingSlash]
  split
  · rename_i hcond
    cases path with
    | nil => simp at h
    | cons a t =>
      cases t with
      | nil => simp at hcond
      | cons b t2 => simpa using h
  · exact h

theorem mem_stripTrailingSlash {path : List Char} {c : Char}
    (h : c ∈ stripTrailingSlash path) : c ∈ path := by
  rw [stripTrailingSlash] at h
  split at h
  · exact List.dropLast_subset _ h
  · exact h

/-- The canonical transform of any parsed URL is well-formed, hence
serializes and re-parses exactly. -/
theorem canonicalTransform_wf {cs : List Char} {p : UrlModel}
    (h : parseUrl cs = some p) : UrlWF (canonicalTransform p) := by
  obtain ⟨hne, hchars, hhead, hpchars, hparams⟩ := parseUrl_shape h
  rw [canonicalTransform_eq]
  refine ⟨?_, ?_, ?_, ?_, ?_, ?_, ?_, ?_, ?_, ?_⟩
  · show "https".data ≠ []
    decide
  · show ∀ c ∈ "https".data, isSchemeDelim c = false
    decide
  · show "https".data.map Char.toLower = "https".data
    decide
  · simpa using hne
  · intro c hc
    rcases List.mem_map.mp hc with ⟨d, hd, rfl⟩
    rw [isHostDelim_toLower]
    exact hchars d hd
  · exact map_toLower_idem p.hostname
  · exact stripTrailingSlash_head _ hhead
  · intro c hc
    exact hpchars c (mem_stripTrailingSlash hc)
  · intro kv hkv c hc
    have hkv' : kv ∈ p.searchParams :=
      List.mem_filter.mp ((List.mem_insertionSort _).mp hkv) |>.1
    exact ⟨(hparams kv hkv').1 c hc |>.1, (hparams kv hkv').1 c hc |>.2.1,
      (hparams kv hkv').1 c hc |>.2.2⟩
  · intro kv hkv c hc
    have hkv' : kv ∈ p.searchParams :=
      List.mem_filter.mp ((List.mem_insertionSort _).mp hkv) |>.1
    exact (hparams kv hkv').2 c hc

/-- Applying the canonical transform twice changes nothing, provided
stripping the trailing slash once does not leave another strippable
trailing slash (the pathname does not end in `"//"`). -/
theorem canonicalTransform_idem {p : UrlModel}
    (hOK : ¬((stripTrailingSlash p.pathname).length > 1 ∧
      (stripTrailingSlash p.pathname).getLast? = some '/')) :
    canonicalTransform (canonicalTransform p) = canonicalTransform p := by
  rw [canonicalTransform_eq p, canonicalTransform_eq]
  have hfilter : ((p.searchParams.filter (fun kv => !isTrackingKey kv.1)).insertionSort
      (fun a b => paramKeyLe a b = true)).filter (fun kv => !isTrackingKey kv.1)
      = (p.searchParams.filter (fun kv => !isTrackingKey kv.1)).insertionSort
        (fun a b => paramKeyLe a b = true) := by
    rw [List.filter_eq_self]
    intro kv hkv
    exact (List.mem_filter.mp ((List.mem_insertionSort _).mp hkv)).2
  have hsorted : ((p.searchParams.filter (fun kv => !isTrackingKey kv.1)).insertionSort
      (fun a b => paramKeyLe a b = true)).insertionSort
        (fun a b => paramKeyLe a b = true)
      = (p.searchParams.filter (fun kv => !isTrackingKey kv.1)).insertionSort
        (fun a b => paramKeyLe a b = true) :=
    List.Sorted.insertionSort_eq (List.sorted_insertionSort _ _)
  have hstrip : stripTrailingSlash (stripTrailingSlash p.pathname)
      = stripTrailingSlash p.pathname := by
    rw [stripTrailingSlash, if_neg hOK]
  rw [map_toLower_idem p.hostname, hstrip, hfilter, hsorted]

/-- C4 (amended): `canonicalizeUrl` is idempotent on every string except
those parsing to a URL whose pathname ends in two slashes (where only one
trailing slash is stripped per application, as `C4_counterexample` shows). -/
theorem C4_canonicalize_idempotent (u : String)
    (h : ∀ p, parseUrl u.data = some p →
      ¬((stripTrailingSlash p.pathname).length > 1 ∧
        (stripTrailingSlash p.pathname).getLast? = some '/')) :
    canonicalizeUrl (canonicalizeUrl u) = canonicalizeUrl u := by
  by_cases he : u = ""
  · subst he
    rfl
  · cases hp : parseUrl u.data with
    | none =>
      have hc : canonicalizeUrl u = u := by rw [canonicalizeUrl, if_neg he, hp]
      rw [hc, hc]
    | some p =>
      have hc : canonicalizeUrl u = String.mk (serializeUrl (canonicalTransform p)) := by
        rw [canonicalizeUrl, if_neg he, hp]
      rw [hc]
      have hne : String.mk (serializeUrl (canonicalTransform p)) ≠ "" := by
        intro hcontra
        have : serializeUrl (canonicalTransform p) = [] := by
          have := congrArg String.data hcontra
          simpa using this
        have hne2 : serializeUrl (canonicalTransform p) ≠ [] := by
          rw [canonicalTransform_eq]
          simp [serializeUrl]
        exact hne2 this
      rw [canonicalizeUrl, if_neg hne]
      have hparse : parseUrl (String.mk (serializeUrl (canonicalTransform p))).data
          = some (canonicalTransform p) := by
        show parseUrl (serializeUrl (canonicalTransform p)) = _
        exact parse_serialize (canonicalTransform_wf hp)
      rw [hparse]
      show String.mk (serializeUrl (canonicalTransform (canonicalTransform p)))
        = String.mk (serializeUrl (canonicalTransform p))
      rw [canonicalTransform_idem (h p hp)]

/-- Witness for C4's amended idempotence theorem at a concrete URL with an
upgradable scheme, mixed-case host, tracking and unsorted parameters, a
fragment, and a single trailing slash. -/
theorem C4_canonicalize_witness :
    canonicalizeUrl (canonicalizeUrl "HTTP://Example.com/a/?b=2&utm_source=x&a=1#f")
      = canonicalizeUrl "HTTP://Example.com/a/?b=2&utm_source=x&a=1#f" :=
  C4_canonicalize_idempotent "HTTP://Example.com/a/?b=2&utm_source=x&a=1#f"
    (by decide)

theorem chooseRep_cons (r c : ArticleCandidate) (t : List ArticleCandidate) :
    chooseRep r (c :: t) = chooseRep (stepRep r c) t := rfl

theorem dedupLoop_cons (m : List (String × ArticleCandidate))
    (c : ArticleCandidate) (rest : List ArticleCandidate) :
    dedupLoop m (c :: rest) = dedupLoop (mapUpdate m c) rest := by
  rcases hu : c.url with _ | u
  · by_cases h : mapHas m ("inline:" ++ jsTrim (jsToLower c.title)) <;>
      simp [dedupLoop, mapUpdate, dedupKey, truthyStr, hu, h]
  · by_cases he : u = ""
    · subst he
      by_cases h : mapHas m ("inline:" ++ jsTrim (jsToLower c.title)) <;>
        simp [dedupLoop, mapUpdate, dedupKey, truthyStr, hu, h]
    · by_cases h : mapHas m (normalizeUrl u)
      · rcases hg : mapGet m (normalizeUrl u) with _ | e <;>
          simp [dedupLoop, mapUpdate, dedupKey, truthyStr, hu, he, h, hg]
      · simp [dedupLoop, mapUpdate, dedupKey, truthyStr, hu, he, h]

theorem mapHas_keys (m : List (String × ArticleCandidate)) (k : String) :
    mapHas m k = (m.map (·.1)).any (· == k) := by
  induction m with
  | nil => rfl
  | cons kv m' ih =>
    simp only [mapHas, List.any_cons, List.map_cons] at ih ⊢
    rw [ih]

theorem not_mem_keys_of_not_has {m : List (String × ArticleCandidate)}
    {k : String} (h : mapHas m k = false) : k ∉ m.map (·.1) := by
  intro hmem
  rw [mapHas_keys] at h
  have := List.any_eq_false.mp h k hmem
  simp at this

theorem mapSet_not_has {m : List (String × ArticleCandidate)} {k : String}
    (v : ArticleCandidate) (h : mapHas m k = false) :
    mapSet m k v = m ++ [(k, v)] := by
  simp [mapSet, h]

theorem mapUpdate_not_has {m : List (String × ArticleCandidate)}
    {c : ArticleCandidate} (h : mapHas m (dedupKey c) = false) :
    mapUpdate m c = m ++ [(dedupKey c, c)] := by
  rw [mapUpdate, if_neg (by simp [h]), mapSet_not_has _ h]

theorem mapUpdate_has_eq {c : ArticleCandidate} :
    ∀ {m : List (String × ArticleCandidate)}, (m.map (·.1)).Nodup →
      mapHas m (dedupKey c) = true →
      mapUpdate m c =
        m.map (fun kv =>
          if kv.1 == dedupKey c then (kv.1, stepRep kv.2 c) else kv) := by
  intro m
  induction m with
  | nil => intro _ h; simp [mapHas] at h
  | cons kv0 m' ih =>
    intro hnd hhas
    rw [List.map_cons, List.nodup_cons] at hnd
    obtain ⟨hnotin, hnd'⟩ := hnd
    by_cases h0 : kv0.1 = dedupKey c
    · have hnot : mapHas m' (dedupKey c) = false := by
        rw [mapHas_keys]
        refine List.any_eq_false.mpr ?_
        intro x hx hxk
        have hx' : x = dedupKey c := by simpa using hxk
        exact hnotin (h0 ▸ hx' ▸ hx)
      have hmem' : ∀ kv ∈ m', (kv.1 == dedupKey c) = false := by
        intro kv hkv
        rw [mapHas_keys] at hnot
        have := List.any_eq_false.mp hnot kv.1 (List.mem_map_of_mem _ hkv)
        simpa using this
      have hget : mapGet (kv0 :: m') (dedupKey c) = some kv0.2 := by
        simp [mapGet, List.find?_cons, h0]
      have hhas' : mapHas (kv0 :: m') (dedupKey c) = true := by
        simp [mapHas, h0]
      have htail : ∀ v : ArticleCandidate,
          m'.map (fun kv => if kv.1 == dedupKey c then (dedupKey c, v) else kv) = m' := by
        intro v
        calc m'.map (fun kv => if kv.1 == dedupKey c then (dedupKey c, v) else kv)
            = m'.map id := by
              refine List.map_congr_left ?_
              intro kv hkv
              simp [hmem' kv hkv]
          _ = m' := List.map_id m'
      have hset : ∀ v, mapSet (kv0 :: m') (dedupKey c) v = (dedupKey c, v) :: m' := by
        intro v
        rw [mapSet, if_pos hhas', List.map_cons,
          if_pos (by simp [h0] : (kv0.1 == dedupKey c) = true), htail v]
      have htail2 :
          m'.map (fun kv => if kv.1 == dedupKey c then (kv.1, stepRep kv.2 c) else kv)
            = m' := by
        calc m'.map (fun kv => if kv.1 == dedupKey c then (kv.1, stepRep kv.2 c) else kv)
            = m'.map id := by
              refine List.map_congr_left ?_
              intro kv hkv
              simp [hmem' kv hkv]
          _ = m' := List.map_id m'
      have hmap : (kv0 :: m').map
            (fun kv => if kv.1 == dedupKey c then (kv.1, stepRep kv.2 c) else kv)
          = (kv0.1, stepRep kv0.2 c) :: m' := by
        rw [List.map_cons, if_pos (by simp [h0] : (kv0.1 == dedupKey c) = true), htail2]
      rw [mapUpdate, if_pos hhas, hmap]
      by_cases htr : truthyStr c.url = true
      · rw [if_pos htr, hget]
        dsimp only
        by_cases hb : isBetterCandidate c kv0.2 = true
        · rw [if_pos hb, hset c,
            show stepRep kv0.2 c = c by simp [stepRep, htr, hb], ← h0]
        · rw [if_neg hb,
            show stepRep kv0.2 c = kv0.2 by
              simp only [Bool.not_eq_true] at hb
              simp [stepRep, hb]]
      · rw [if_neg htr]
        simp only [Bool.not_eq_true] at htr
        rw [show stepRep kv0.2 c = kv0.2 by simp [stepRep, htr]]
    · have hb0 : (kv0.1 == dedupKey c) = false := by simp [h0]
      have hhas' : mapHas m' (dedupKey c) = true := by
        rcases (List.any_eq_true).mp hhas with ⟨kv, hkv, hk⟩
        rcases List.mem_cons.mp hkv with rfl | hkv'
        · exact absurd (by simpa using hk) h0
        · exact List.any_eq_true.mpr ⟨kv, hkv', hk⟩
      have hcons : mapUpdate (kv0 :: m') c = kv0 :: mapUpdate m' c := by
        have hget : mapGet (kv0 :: m') (dedupKey c) = mapGet m' (dedupKey c) := by
          simp [mapGet, List.find?_cons, hb0]
        have hset : ∀ v, mapSet (kv0 :: m') (dedupKey c) v
            = kv0 :: mapSet m' (dedupKey c) v := by
          intro v
          rw [mapSet, if_pos hhas, mapSet, if_pos hhas', List.map_cons,
            if_neg (by simp [hb0] : ¬(kv0.1 == dedupKey c) = true)]
        rw [mapUpdate, if_pos hhas, mapUpdate, if_pos hhas']
        by_cases htr : truthyStr c.url = true
        · rw [if_pos htr, if_pos htr, hget]
          rcases mapGet m' (dedupKey c) with _ | e
          · rfl
          · dsimp only
            by_cases hb : isBetterCandidate c e = true
            · rw [if_pos hb, if_pos hb, hset]
            · rw [if_neg hb, if_neg hb]
        · rw [if_neg htr, if_neg htr]
      rw [hcons, ih hnd' hhas', List.map_cons,
        if_neg (by simp [hb0] : ¬(kv0.1 == dedupKey c) = true)]

theorem mapUpdate_keys_has {m : List (String × ArticleCandidate)}
    {c : ArticleCandidate} (hnd : (m.map (·.1)).Nodup)
    (h : mapHas m (dedupKey c) = true) :
    (mapUpdate m c).map (·.1) = m.map (·.1) := by
  rw [mapUpdate_has_eq hnd h, List.map_map]
  refine List.map_congr_left ?_
  intro kv _
  by_cases hk : (kv.1 == dedupKey c) = true <;> simp [Function.comp, hk]

theorem firstKeysGo_congr :
    ∀ (n : Nat) {m : Nat} (l : List ArticleCandidate), l.length ≤ n →
      l.length ≤ m → firstKeysGo n l = firstKeysGo m l := by
  intro n
  induction n with
  | zero =>
    intro m l hn _
    rw [Nat.le_zero, List.length_eq_zero] at hn
    subst hn
    cases m <;> rfl
  | succ n ih =>
    intro m l hn hm
    rcases l with _ | ⟨c, t⟩
    · cases m <;> rfl
    · rcases m with _ | m'
      · simp at hm
      · rw [firstKeysGo, firstKeysGo]
        refine congrArg _ (ih _ ?_ ?_)
        · exact le_trans (List.length_filter_le _ _) (Nat.le_of_succ_le_succ hn)
        · exact le_trans (List.length_filter_le _ _) (Nat.le_of_succ_le_succ hm)

theorem firstKeys_cons (c : ArticleCandidate) (t : List ArticleCandidate) :
    firstKeys (c :: t)
      = dedupKey c :: firstKeys (t.filter (fun d => dedupKey d ≠ dedupKey c)) := by
  rw [firstKeys, firstKeys, List.length_cons, firstKeysGo]
  exact congrArg _ (firstKeysGo_congr _ _ (List.length_filter_le _ _) le_rfl)

theorem mem_firstKeysGo {k' : String} :
    ∀ (n : Nat) (l : List ArticleCandidate), k' ∈ firstKeysGo n l →
      ∃ d ∈ l, dedupKey d = k' := by
  intro n
  induction n with
  | zero =>
    intro l h
    cases l <;> simp [firstKeysGo] at h
  | succ n ih =>
    intro l h
    rcases l with _ | ⟨c, t⟩
    · simp [firstKeysGo] at h
    · rw [firstKeysGo] at h
      rcases List.mem_cons.mp h with rfl | h2
      · exact ⟨c, List.mem_cons_self _ _, rfl⟩
      · obtain ⟨d, hd, hkd⟩ := ih _ h2
        exact ⟨d, List.mem_cons_of_mem _ (List.mem_of_mem_filter hd), hkd⟩

theorem mem_firstKeys {k' : String} :
    ∀ l, k' ∈ firstKeys l → ∃ d ∈ l, dedupKey d = k' := by
  intro l h
  exact mem_firstKeysGo _ _ h

theorem dedupLoop_eq :
    ∀ (cs : List ArticleCandidate) (m : List (String × ArticleCandidate)),
      (m.map (·.1)).Nodup →
      dedupLoop m cs = updOld m cs ++ newPart m cs := by
  intro cs
  induction cs with
  | nil =>
    intro m _
    simp [dedupLoop, updOld, newPart, firstKeys, firstKeysGo, chooseRep]
  | cons c rest ih =>
    intro m hnd
    rw [dedupLoop_cons]
    by_cases hhas : mapHas m (dedupKey c) = true
    · have hkeys := mapUpdate_keys_has hnd hhas
      have hnd' : ((mapUpdate m c).map (·.1)).Nodup := by rw [hkeys]; exact hnd
      rw [ih _ hnd']
      have h1 : updOld (mapUpdate m c) rest = updOld m (c :: rest) := by
        rw [updOld, mapUpdate_has_eq hnd hhas, List.map_map, updOld]
        refine List.map_congr_left ?_
        intro kv _
        dsimp only [Function.comp]
        by_cases hk : (kv.1 == dedupKey c) = true
        · have hk' : (dedupKey c == kv.1) = true := by
            simp only [beq_iff_eq] at hk ⊢; exact hk.symm
          rw [if_pos hk, List.filter_cons, if_pos hk']
          exact congrArg _ (chooseRep_cons _ _ _).symm
        · have hk' : ¬(dedupKey c == kv.1) = true := by
            simp only [beq_iff_eq] at hk ⊢
            exact fun hc => hk hc.symm
          rw [if_neg hk, List.filter_cons, if_neg hk']
      have h2 : newPart (mapUpdate m c) rest = newPart m (c :: rest) := by
        rw [newPart, newPart]
        have hfil : rest.filter (fun d => !mapHas (mapUpdate m c) (dedupKey d))
            = rest.filter (fun d => !mapHas m (dedupKey d)) := by
          refine List.filter_congr ?_
          intro d _
          rw [mapHas_keys, mapHas_keys, hkeys]
        have hfil2 : List.filter (fun d => !mapHas m (dedupKey d)) (c :: rest)
            = rest.filter (fun d => !mapHas m (dedupKey d)) := by
          rw [List.filter_cons, if_neg (by simp [hhas])]
        rw [hfil, hfil2]
        refine List.filterMap_congr ?_
        intro k' hk'
        obtain ⟨d, hd, hkd⟩ := mem_firstKeys _ hk'
        have hdm := List.of_mem_filter hd
        have hdne : ¬(dedupKey c == k') = true := by
          intro hc
          have hck : dedupKey c = k' := by simpa using hc
          rw [hkd, ← hck] at hdm
          simp [hhas] at hdm
        rw [List.filter_cons, if_neg hdne]
      rw [h1, h2]
    · have hnotb : mapHas m (dedupKey c) = false := by
        simpa using hhas
      rw [mapUpdate_not_has hnotb]
      have hnd' : ((m ++ [(dedupKey c, c)]).map (·.1)).Nodup := by
        rw [List.map_append, List.nodup_append]
        refine ⟨hnd, List.nodup_singleton _, ?_⟩
        intro a ha hb
        have : a = dedupKey c := by simpa using hb
        exact not_mem_keys_of_not_has hnotb (this ▸ ha)
      rw [ih _ hnd']
      have hGone : updOld (m ++ [(dedupKey c, c)]) rest
          = updOld m rest ++
            [(dedupKey c, chooseRep c
              (rest.filter (fun d => dedupKey d == dedupKey c)))] := by
        simp only [updOld, List.map_append, List.map_cons, List.map_nil]
      have hUpd : updOld m (c :: rest) = updOld m rest := by
        rw [updOld, updOld]
        refine List.map_congr_left ?_
        intro kv hkv
        have hne : ¬(dedupKey c == kv.1) = true := by
          have hmem : kv.1 ∈ m.map (·.1) := List.mem_map_of_mem _ hkv
          simp only [beq_iff_eq]
          intro hcc
          exact not_mem_keys_of_not_has hnotb (hcc ▸ hmem)
        rw [List.filter_cons, if_neg hne]
      rw [hGone, hUpd]
      have hmaph : ∀ x, mapHas (m ++ [(dedupKey c, c)]) x
          = (mapHas m x || (dedupKey c == x)) := by
        intro x; simp [mapHas, List.any_append]
      have hNew : newPart m (c :: rest)
          = (dedupKey c, chooseRep c (rest.filter (fun d => dedupKey d == dedupKey c)))
            :: newPart (m ++ [(dedupKey c, c)]) rest := by
        rw [newPart, newPart]
        have hhead : List.filter (fun d => !mapHas m (dedupKey d)) (c :: rest)
            = c :: rest.filter (fun d => !mapHas m (dedupKey d)) := by
          rw [List.filter_cons, if_pos (by simp [hnotb])]
        rw [hhead, firstKeys_cons, List.filter_filter]
        have hfilB : rest.filter
              (fun d => !mapHas (m ++ [(dedupKey c, c)]) (dedupKey d))
            = rest.filter
              (fun d => decide (dedupKey d ≠ dedupKey c) && !mapHas m (dedupKey d)) := by
          refine List.filter_congr ?_
          intro d _
          rw [hmaph]
          by_cases hdc : dedupKey d = dedupKey c
          · simp [hdc, hnotb]
          · have hcd : (dedupKey c == dedupKey d) = false := by
              simp only [beq_eq_false_iff_ne, ne_eq]
              exact fun h => hdc h.symm
            simp [hdc, hcd]
        rw [hfilB, List.filterMap_cons]
        have hgrp : List.filter (fun d => dedupKey d == dedupKey c) (c :: rest)
            = c :: rest.filter (fun d => dedupKey d == dedupKey c) := by
          rw [List.filter_cons, if_pos (by simp)]
        rw [hgrp]
        dsimp only
        refine congrArg _ ?_
        refine List.filterMap_congr ?_
        intro k' hk'
        obtain ⟨d, hd, hkd⟩ := mem_firstKeys _ hk'
        have hdm := List.of_mem_filter hd
        have hdne : ¬(dedupKey c == k') = true := by
          intro hc
          have hck : dedupKey c = k' := by simpa using hc
          rw [← hck] at hkd
          simp [hkd] at hdm
        rw [List.filter_cons, if_neg hdne]
      rw [hNew, List.append_assoc, List.singleton_append]

theorem map_snd_newPart_nil (cs : List ArticleCandidate) :
    (newPart [] cs).map (·.2) = (firstKeys cs).filterMap
      (fun k =>
        match cs.filter (fun c => dedupKey c == k) with
        | [] => none
        | r :: t => some (chooseRep r t)) := by
  rw [newPart]
  have h1 : cs.filter (fun c => !mapHas [] (dedupKey c)) = cs := by
    refine List.filter_eq_self.mpr ?_
    intro a _; simp [mapHas]
  rw [h1, List.map_filterMap]
  refine List.filterMap_congr ?_
  intro k _
  cases cs.filter (fun c => dedupKey c == k) <;> rfl

/-- C1 counterexample: two candidates sharing a normalized URL, with all
`title_inferred` and `content` gates tied, where the first has the strictly
longer title and the second the strictly longer summary.  The claim's
preference order says the longer title wins outright (rule (c) before rule
(d)), keeping the first; the code's `isBetterCandidate` has no early return
between the two length tests, so the longer-summary candidate replaces the
longer-title one and the second candidate is kept. -/
theorem C1_counterexample :
    C1exA.title_inferred = C1exB.title_inferred
    ∧ C1exA.content = C1exB.content
    ∧ C1exA.title.length > C1exB.title.length
    ∧ deduplicateCandidatesByUrl [C1exA, C1exB] = [C1exB]
    ∧ C1exB ≠ C1exA := by
  set_option maxRecDepth 100000 in decide

/-- C1 (amended): `deduplicateCandidatesByUrl` groups candidates by their
deduplication key (normalized URL, or the synthetic
`"inline:" + lowercased-trimmed title` when the `url` field is absent or
empty) and outputs one representative per group in input order of first
occurrence.  The representative is the fold of the group from its
earliest-seen member, where a later member replaces the current
representative exactly when it has a truthy `url` (members stored under the
inline key never replace) and `isBetterCandidate` prefers it; and
`isBetterCandidate` prefers a candidate exactly when the not-inferred-title
gate decides for it, or that gate ties and the has-content gate decides for
it, or both gates tie and its title is strictly longer OR its summary is
strictly longer -- there is no tie-break of rule (c) over rule (d), and on
full ties the earlier candidate is kept. -/
theorem C1_dedup_grouping (cs : List ArticleCandidate) :
    deduplicateCandidatesByUrl cs
      = (firstKeys cs).filterMap
          (fun k =>
            match cs.filter (fun c => dedupKey c == k) with
            | [] => none
            | r :: t => some (chooseRep r t))
    ∧ (∀ a b : ArticleCandidate,
        isBetterCandidate a b = true ↔
          ((¬ truthyBool a.title_inferred = true ∧ truthyBool b.title_inferred = true)
            ∨ (truthyBool a.title_inferred = truthyBool b.title_inferred
              ∧ ((truthyStr a.content = true ∧ ¬ truthyStr b.content = true)
                ∨ (truthyStr a.content = truthyStr b.content
                  ∧ (a.title.length > b.title.length
                    ∨ a.summary.length > b.summary.length)))))) := by
  constructor
  · rw [deduplicateCandidatesByUrl, dedupLoop_eq cs [] (by simp)]
    rw [show updOld [] cs = [] from rfl, List.nil_append]
    exact map_snd_newPart_nil cs
  · intro a b
    rw [isBetterCandidate]
    rcases h1 : truthyBool a.title_inferred <;>
      rcases h2 : truthyBool b.title_inferred <;>
        rcases h3 : truthyStr a.content <;>
          rcases h4 : truthyStr b.content <;>
            simp [h1, h2, h3, h4]

/-- Witness: the grouping theorem applied to the two concrete candidates of
the counterexample, evaluating the representative fold. -/
theorem C1_dedup_grouping_witness :
    deduplicateCandidatesByUrl [C1exA, C1exB] = [C1exB] :=
  ((C1_dedup_grouping [C1exA, C1exB]).1).trans
    (by set_option maxRecDepth 100000 in decide)


/-! ## Reading-time regex soundness and completeness (C9) -/

namespace TLDRParser

theorem digit_toLower {c : Char} (h : c.isDigit = true) : c.toLower = c := by
  simp only [Char.isDigit, Bool.and_eq_true, decide_eq_true_eq] at h
  rw [Char.toLower, if_neg]
  rintro ⟨h1, -⟩
  have h2 : c.toNat ≤ 57 := h.2
  omega

theorem jsWs_toLower {c : Char} (h : isJsWs c = true) : c.toLower = c := by
  simp only [isJsWs, Bool.or_eq_true, decide_eq_true_eq] at h
  rcases h with ((((rfl | rfl) | rfl) | rfl) | rfl) | rfl <;> decide

theorem not_ws_of_toLower {c a : Char} (h : c.toLower = a)
    (ha : isJsWs a = false) : isJsWs c = false := by
  by_contra hcne
  rw [Bool.not_eq_false] at hcne
  have hca : c = a := (jsWs_toLower hcne).symm.trans h
  rw [hca, ha] at hcne
  exact Bool.false_ne_true hcne

theorem not_digit_of_toLower {c a : Char} (h : c.toLower = a)
    (ha : a.isDigit = false) : c.isDigit = false := by
  by_contra hcne
  rw [Bool.not_eq_false] at hcne
  have hca : c = a := (digit_toLower hcne).symm.trans h
  rw [hca, ha] at hcne
  exact Bool.false_ne_true hcne

theorem takeWhile_append_sat {p : Char → Bool} {w r : List Char} {x : Char}
    (hw : ∀ c ∈ w, p c = true) (hx : p x = false) :
    (w ++ x :: r).takeWhile p = w := by
  induction w with
  | nil => simp [List.takeWhile_cons, hx]
  | cons a w' ih =>
    rw [List.cons_append, List.takeWhile_cons,
      if_pos (hw a (List.mem_cons_self _ _)),
      ih (fun c hc => hw c (List.mem_cons_of_mem _ hc))]

theorem dropWhile_append_sat {p : Char → Bool} {w r : List Char} {x : Char}
    (hw : ∀ c ∈ w, p c = true) (hx : p x = false) :
    (w ++ x :: r).dropWhile p = x :: r := by
  induction w with
  | nil => simp [List.dropWhile_cons, hx]
  | cons a w' ih =>
    rw [List.cons_append, List.dropWhile_cons,
      if_pos (hw a (List.mem_cons_self _ _)),
      ih (fun c hc => hw c (List.mem_cons_of_mem _ hc))]

theorem drop_takeWhile_len {p : Char → Bool} (l : List Char) :
    l.drop (l.takeWhile p).length = l.dropWhile p := by
  induction l with
  | nil => rfl
  | cons a l' ih =>
    rw [List.takeWhile_cons, List.dropWhile_cons]
    by_cases h : p a = true
    · rw [if_pos h, if_pos h, List.length_cons, List.drop_succ_cons, ih]
    · rw [if_neg h, if_neg h, List.length_nil, List.drop_zero]

theorem readTimeTail_sound {s ds : List Char} (h : readTimeTail s = some ds) :
    ∃ w1 w2 mn ut w3 rd w4,
      s = w1 ++ '(' :: (ds ++ w2 ++ mn ++ ut ++ w3 ++ rd ++ ')' :: w4)
      ∧ ds ≠ [] ∧ (∀ c ∈ ds, c.isDigit = true)
      ∧ (∀ c ∈ w1, isJsWs c = true) ∧ (∀ c ∈ w2, isJsWs c = true)
      ∧ (∀ c ∈ w3, isJsWs c = true) ∧ (∀ c ∈ w4, isJsWs c = true)
      ∧ mn.map Char.toLower = "min".data
      ∧ (ut = [] ∨ ut.map Char.toLower = "ute".data)
      ∧ rd.map Char.toLower = "read".data := by
  rw [readTimeTail] at h
  split at h
  case _ s2 heq =>
    rw [readTimeBody] at h
    dsimp only at h
    by_cases hemp : (s2.takeWhile Char.isDigit).isEmpty = true
    · rw [if_pos hemp] at h; exact absurd h (by simp)
    · rw [if_neg hemp] at h
      by_cases hmin : ciPrefix "min".data
          ((s2.drop (s2.takeWhile Char.isDigit).length).dropWhile isJsWs) = true
      case neg => rw [if_neg hmin] at h; exact absurd h (by simp)
      rw [if_pos hmin] at h
      suffices H : ∀ ut s5 : List Char,
          ((s2.drop (s2.takeWhile Char.isDigit).length).dropWhile isJsWs).drop 3
            = ut ++ s5 →
          (ut = [] ∨ ut.map Char.toLower = "ute".data) →
          (if ciPrefix "read".data (s5.dropWhile isJsWs) = true then
            match (s5.dropWhile isJsWs).drop 4 with
            | ')' :: s7 =>
              if (s7.dropWhile isJsWs).isEmpty = true then
                some (s2.takeWhile Char.isDigit)
              else none
            | _ => none
          else none) = some ds →
          ∃ w1 w2 mn ut w3 rd w4,
            s = w1 ++ '(' :: (ds ++ w2 ++ mn ++ ut ++ w3 ++ rd ++ ')' :: w4)
            ∧ ds ≠ [] ∧ (∀ c ∈ ds, c.isDigit = true)
            ∧ (∀ c ∈ w1, isJsWs c = true) ∧ (∀ c ∈ w2, isJsWs c = true)
            ∧ (∀ c ∈ w3, isJsWs c = true) ∧ (∀ c ∈ w4, isJsWs c = true)
            ∧ mn.map Char.toLower = "min".data
            ∧ (ut = [] ∨ ut.map Char.toLower = "ute".data)
            ∧ rd.map Char.toLower = "read".data
      · by_cases hute : ciPrefix "ute".data
            (((s2.drop (s2.takeWhile Char.isDigit).length).dropWhile isJsWs).drop 3)
              = true
        · rw [if_pos hute] at h
          refine H _ _ (List.take_append_drop 3 _).symm (Or.inr ?_) h
          have h1 := (ciPrefix_iff "ute".data _).mp hute
          rw [show "ute".data.map Char.toLower = "ute".data from by decide] at h1
          have h3 := List.prefix_iff_eq_take.mp h1
          rw [← List.map_take] at h3
          exact h3.symm
        · rw [if_neg hute] at h
          exact H [] _ rfl (Or.inl rfl) h
      intro ut s5 hsplit hut h
      by_cases hread : ciPrefix "read".data (s5.dropWhile isJsWs) = true
      case neg => rw [if_neg hread] at h; exact absurd h (by simp)
      rw [if_pos hread] at h
      rcases hdrop : (s5.dropWhile isJsWs).drop 4 with _ | ⟨c7, s7⟩
      · rw [hdrop] at h; exact absurd h (by simp)
      rw [hdrop] at h
      by_cases hc7 : c7 = ')'
      case neg =>
        have : (match c7 :: s7 with
            | ')' :: s7 =>
              if (s7.dropWhile isJsWs).isEmpty = true then
                some (s2.takeWhile Char.isDigit)
              else none
            | _ => (none : Option (List Char))) = none := by
          split
          · next heq2 =>
            exact absurd heq2
              (by intro hh; injection hh with h1 h2; exact hc7 (by rw [h1]))
          · rfl
        rw [this] at h; exact absurd h (by simp)
      subst hc7
      replace h : (if (s7.dropWhile isJsWs).isEmpty = true then
          some (s2.takeWhile Char.isDigit) else none) = some ds := h
      by_cases hws : (s7.dropWhile isJsWs).isEmpty = true
      case neg => rw [if_neg hws] at h; exact absurd h (by simp)
      rw [if_pos hws] at h
      have hds : ds = s2.takeWhile Char.isDigit := by
        injection h with h1; exact h1.symm
      set w1v := s.takeWhile isJsWs with hw1v
      set dsv := s2.takeWhile Char.isDigit with hdsv
      set r1 := s2.drop dsv.length with hr1
      set w2v := r1.takeWhile isJsWs with hw2v
      set s3v := r1.dropWhile isJsWs with hs3v
      set mnv := s3v.take 3 with hmnv
      set w3v := s5.takeWhile isJsWs with hw3v
      set s6v := s5.dropWhile isJsWs with hs6v
      set rdv := s6v.take 4 with hrdv
      refine ⟨w1v, w2v, mnv, ut, w3v, rdv, s7,
        ?_, ?_, ?_, ?_, ?_, ?_, ?_, ?_, hut, ?_⟩
      · have F1 : s = w1v ++ '(' :: s2 := by
          rw [hw1v, ← heq, List.takeWhile_append_dropWhile]
        have F2 : s2 = dsv ++ r1 := by
          rw [hr1, hdsv, drop_takeWhile_len, List.takeWhile_append_dropWhile]
        have F3 : r1 = w2v ++ s3v := by
          rw [hw2v, hs3v, List.takeWhile_append_dropWhile]
        have F4 : s3v = mnv ++ (ut ++ s5) := by
          rw [hmnv, ← hsplit, List.take_append_drop]
        have F6 : s5 = w3v ++ s6v := by
          rw [hw3v, hs6v, List.takeWhile_append_dropWhile]
        have F7 : s6v = rdv ++ ')' :: s7 := by
          rw [hrdv, ← hdrop, List.take_append_drop]
        rw [hds, F1, F2, F3, F4, F6, F7]
        simp only [List.append_assoc, List.cons_append]
      · rw [hds]; simpa using hemp
      · rw [hds]; intro c hc; exact List.mem_takeWhile_imp hc
      · intro c hc; rw [hw1v] at hc; exact List.mem_takeWhile_imp hc
      · intro c hc; rw [hw2v] at hc; exact List.mem_takeWhile_imp hc
      · intro c hc; rw [hw3v] at hc; exact List.mem_takeWhile_imp hc
      · intro c hc
        have := List.dropWhile_eq_nil_iff.mp (by simpa using hws)
        exact this c hc
      · have h1 := (ciPrefix_iff "min".data s3v).mp hmin
        rw [show "min".data.map Char.toLower = "min".data from by decide] at h1
        have h3 := List.prefix_iff_eq_take.mp h1
        rw [← List.map_take] at h3
        rw [hmnv]
        exact h3.symm
      · have h1 := (ciPrefix_iff "read".data s6v).mp hread
        rw [show "read".data.map Char.toLower = "read".data from by decide] at h1
        have h3 := List.prefix_iff_eq_take.mp h1
        rw [← List.map_take] at h3
        rw [hrdv]
        exact h3.symm
  case _ => exact absurd h (by simp)

theorem ws_not_digit {c : Char} (h : isJsWs c = true) : c.isDigit = false := by
  simp only [isJsWs, Bool.or_eq_true, decide_eq_true_eq] at h
  rcases h with ((((rfl | rfl) | rfl) | rfl) | rfl) | rfl <;> decide

theorem takeWhile_append_of_head {p : Char → Bool} {w r : List Char}
    (hw : ∀ c ∈ w, p c = true)
    (hr : ∀ x, r.head? = some x → p x = false) :
    (w ++ r).takeWhile p = w := by
  induction w with
  | nil =>
    cases r with
    | nil => rfl
    | cons x r' =>
      simp only [List.nil_append, List.takeWhile_cons, hr x rfl,
        Bool.false_eq_true, if_false]
  | cons a w' ih =>
    rw [List.cons_append, List.takeWhile_cons,
      if_pos (hw a (List.mem_cons_self _ _)),
      ih (fun c hc => hw c (List.mem_cons_of_mem _ hc))]

theorem dropWhile_append_of_head {p : Char → Bool} {w r : List Char}
    (hw : ∀ c ∈ w, p c = true)
    (hr : ∀ x, r.head? = some x → p x = false) :
    (w ++ r).dropWhile p = r := by
  induction w with
  | nil =>
    cases r with
    | nil => rfl
    | cons x r' =>
      simp only [List.nil_append, List.dropWhile_cons, hr x rfl,
        Bool.false_eq_true, if_false]
  | cons a w' ih =>
    rw [List.cons_append, List.dropWhile_cons,
      if_pos (hw a (List.mem_cons_self _ _)),
      ih (fun c hc => hw c (List.mem_cons_of_mem _ hc))]

theorem ciPrefix_false_of_head {p : Char} {ps s2 : List Char} {c : Char}
    (h : ¬p.toLower = c.toLower) : ciPrefix (p :: ps) (c :: s2) = false := by
  simp [ciPrefix, h]

theorem readTimeTail_eq_body {s s2 : List Char}
    (h : s.dropWhile isJsWs = '(' :: s2) :
    readTimeTail s = readTimeBody s2 := by
  rw [readTimeTail, h]
  rfl

theorem readTimeTail_complete {w1 ds w2 mn ut w3 rd w4 : List Char}
    (hds : ds ≠ []) (hdig : ∀ c ∈ ds, c.isDigit = true)
    (hw1 : ∀ c ∈ w1, isJsWs c = true) (hw2 : ∀ c ∈ w2, isJsWs c = true)
    (hw3 : ∀ c ∈ w3, isJsWs c = true) (hw4 : ∀ c ∈ w4, isJsWs c = true)
    (hmn : mn.map Char.toLower = "min".data)
    (hut : ut = [] ∨ ut.map Char.toLower = "ute".data)
    (hrd : rd.map Char.toLower = "read".data) :
    readTimeTail (w1 ++ '(' :: (ds ++ w2 ++ mn ++ ut ++ w3 ++ rd ++ ')' :: w4))
      = some ds := by
  obtain ⟨m1, m2, m3, rfl⟩ : ∃ m1 m2 m3, mn = [m1, m2, m3] := by
    rcases mn with _ | ⟨m1, _ | ⟨m2, _ | ⟨m3, _ | ⟨m4, mt⟩⟩⟩⟩
    · simp at hmn
    · simp at hmn
    · simp at hmn
    · exact ⟨_, _, _, rfl⟩
    · simp at hmn
  obtain ⟨r1, r2, r3, r4, rfl⟩ : ∃ r1 r2 r3 r4, rd = [r1, r2, r3, r4] := by
    rcases rd with _ | ⟨r1, _ | ⟨r2, _ | ⟨r3, _ | ⟨r4, _ | ⟨r5, rt⟩⟩⟩⟩⟩
    · simp at hrd
    · simp at hrd
    · simp at hrd
    · simp at hrd
    · exact ⟨_, _, _, _, rfl⟩
    · simp at hrd
  have hm1 : m1.toLower = 'm' := by
    simpa using congrArg (fun l => l.headD ' ') hmn
  have hr1 : r1.toLower = 'r' := by
    simpa using congrArg (fun l => l.headD ' ') hrd
  have hmlen : ([m1, m2, m3] : List Char).length = 3 := rfl
  have hrlen : ([r1, r2, r3, r4] : List Char).length = 4 := rfl
  -- right-associate the text
  simp only [List.append_assoc]
  set T2 := [m1, m2, m3] ++ (ut ++ (w3 ++ ([r1, r2, r3, r4] ++ ')' :: w4)))
    with hT2
  set T1 := w2 ++ T2 with hT1
  set R := ds ++ T1 with hR
  have step1 : (w1 ++ '(' :: R).dropWhile isJsWs = '(' :: R :=
    dropWhile_append_sat hw1 (by decide)
  rw [readTimeTail_eq_body step1]
  unfold readTimeBody
  have h1 : R.takeWhile Char.isDigit = ds := by
    rw [hR]
    refine takeWhile_append_of_head hdig ?_
    intro x hx
    rw [hT1] at hx
    rcases w2 with _ | ⟨c2, w2'⟩
    · rw [List.nil_append, hT2] at hx
      simp only [List.cons_append, List.head?_cons, Option.some.injEq] at hx
      subst hx
      exact not_digit_of_toLower hm1 (by decide)
    · simp only [List.cons_append, List.head?_cons, Option.some.injEq] at hx
      subst hx
      exact ws_not_digit (hw2 c2 (List.mem_cons_self _ _))
  dsimp only
  rw [h1, if_neg (by simpa using hds)]
  have h2 : R.drop ds.length = T1 := by rw [hR, List.drop_left]
  rw [h2]
  have h3 : T1.dropWhile isJsWs = T2 := by
    rw [hT1]
    refine dropWhile_append_of_head hw2 ?_
    intro x hx
    rw [hT2] at hx
    simp only [List.cons_append, List.head?_cons, Option.some.injEq] at hx
    subst hx
    exact not_ws_of_toLower hm1 (by decide)
  rw [h3]
  have h4 : ciPrefix "min".data T2 = true := by
    rw [ciPrefix_iff, hT2]
    rw [show "min".data.map Char.toLower = "min".data from by decide]
    rw [List.map_append, ← hmn]
    exact List.prefix_append _ _
  rw [if_pos h4]
  have h5 : T2.drop 3 = ut ++ (w3 ++ ([r1, r2, r3, r4] ++ ')' :: w4)) := by
    rw [hT2, show (3 : Nat) = ([m1, m2, m3] : List Char).length from rfl,
      List.drop_left]
  rw [h5]
  have hT5 : ∀ s5, s5 = w3 ++ ([r1, r2, r3, r4] ++ ')' :: w4) →
      (if ciPrefix "read".data (s5.dropWhile isJsWs) = true then
        match (s5.dropWhile isJsWs).drop 4 with
        | ')' :: s7 => if (s7.dropWhile isJsWs).isEmpty = true then some ds else none
        | _ => none
      else none) = some ds := by
    intro s5 hs5
    have h7 : s5.dropWhile isJsWs = [r1, r2, r3, r4] ++ ')' :: w4 := by
      rw [hs5]
      refine dropWhile_append_of_head hw3 ?_
      intro x hx
      simp only [List.cons_append, List.head?_cons, Option.some.injEq] at hx
      subst hx
      exact not_ws_of_toLower hr1 (by decide)
    rw [h7]
    have h8 : ciPrefix "read".data ([r1, r2, r3, r4] ++ ')' :: w4) = true := by
      rw [ciPrefix_iff]
      rw [show "read".data.map Char.toLower = "read".data from by decide]
      rw [List.map_append, ← hrd]
      exact List.prefix_append _ _
    rw [if_pos h8]
    have h9 : ([r1, r2, r3, r4] ++ ')' :: w4).drop 4 = ')' :: w4 := rfl
    rw [h9]
    have h10 : (w4.dropWhile isJsWs).isEmpty = true := by
      rw [List.dropWhile_eq_nil_iff.mpr hw4]
      rfl
    show (if (w4.dropWhile isJsWs).isEmpty = true then some ds else none)
      = some ds
    rw [if_pos h10]
  rcases hut with rfl | hutl
  · have h6 : ciPrefix "ute".data
        ([] ++ (w3 ++ ([r1, r2, r3, r4] ++ ')' :: w4))) = false := by
      rw [List.nil_append]
      rcases w3 with _ | ⟨c3, w3'⟩
      · rw [List.nil_append]
        show ciPrefix ('u' :: ['t', 'e']) (r1 :: ([r2, r3, r4] ++ ')' :: w4))
          = false
        refine ciPrefix_false_of_head ?_
        rw [hr1]
        decide
      · show ciPrefix ('u' :: ['t', 'e'])
          (c3 :: (w3' ++ ([r1, r2, r3, r4] ++ ')' :: w4))) = false
        refine ciPrefix_false_of_head ?_
        intro hEq
        have hcl := jsWs_toLower (hw3 c3 (List.mem_cons_self _ _))
        rw [hcl] at hEq
        have hc3 : c3 = 'u' := hEq.symm.trans (by decide)
        have hws3 := hw3 c3 (List.mem_cons_self _ _)
        rw [hc3] at hws3
        exact absurd hws3 (by decide)
    have hs5eq :
        (if ciPrefix "ute".data
            ([] ++ (w3 ++ ([r1, r2, r3, r4] ++ ')' :: w4))) = true
          then ([] ++ (w3 ++ ([r1, r2, r3, r4] ++ ')' :: w4))).drop 3
          else [] ++ (w3 ++ ([r1, r2, r3, r4] ++ ')' :: w4)))
        = w3 ++ ([r1, r2, r3, r4] ++ ')' :: w4) := by
      rw [if_neg (by simpa using h6)]
      exact List.nil_append _
    rw [hs5eq]
    exact hT5 _ rfl
  · have h6 : ciPrefix "ute".data
        (ut ++ (w3 ++ ([r1, r2, r3, r4] ++ ')' :: w4))) = true := by
      rw [ciPrefix_iff]
      rw [show "ute".data.map Char.toLower = "ute".data from by decide]
      rw [List.map_append, ← hutl]
      exact List.prefix_append _ _
    have hulen : ut.length = 3 := by
      have := congrArg List.length hutl
      simpa using this
    have hs5eq :
        (if ciPrefix "ute".data
            (ut ++ (w3 ++ ([r1, r2, r3, r4] ++ ')' :: w4))) = true
          then (ut ++ (w3 ++ ([r1, r2, r3, r4] ++ ')' :: w4))).drop 3
          else ut ++ (w3 ++ ([r1, r2, r3, r4] ++ ')' :: w4)))
        = w3 ++ ([r1, r2, r3, r4] ++ ')' :: w4) := by
      rw [if_pos h6, show (3 : Nat) = ut.length from hulen.symm, List.drop_left]
    rw [hs5eq]
    exact hT5 _ rfl

theorem titleMatchGo_sound :
    ∀ (rest acc p ds : List Char), titleMatchGo acc rest = some (p, ds) →
      ∃ consumed t2, p = acc ++ consumed ∧ consumed ≠ []
        ∧ (∀ c ∈ consumed, isNewlineChar c = false)
        ∧ rest = consumed ++ t2 ∧ readTimeTail t2 = some ds := by
  intro rest
  induction rest with
  | nil => intro acc p ds h; simp [titleMatchGo] at h
  | cons c t ih =>
    intro acc p ds h
    rw [titleMatchGo] at h
    by_cases hnl : isNewlineChar c = true
    · rw [if_pos hnl] at h; exact absurd h (by simp)
    · rw [if_neg hnl] at h
      rcases hrt : readTimeTail t with _ | ds0
      · rw [hrt] at h
        replace h : titleMatchGo (acc ++ [c]) t = some (p, ds) := h
        obtain ⟨consumed, t2, hp, hne, hnlc, hre, hrt2⟩ := ih _ _ _ h
        refine ⟨c :: consumed, t2, by simpa using hp, by simp, ?_,
          by rw [hre]; rfl, hrt2⟩
        intro x hx
        rcases List.mem_cons.mp hx with rfl | hx2
        · simpa using hnl
        · exact hnlc x hx2
      · rw [hrt] at h
        replace h : some (acc ++ [c], ds0) = some (p, ds) := h
        injection h with h1
        injection h1 with hp hds
        exact ⟨[c], t, hp.symm, by simp,
          by intro x hx; rcases List.mem_cons.mp hx with rfl | hx2
             · simpa using hnl
             · simp at hx2,
          rfl, by rw [hrt, hds]⟩

theorem titleMatchGo_complete :
    ∀ (pre : List Char), pre ≠ [] →
      ∀ (acc tail ds0 : List Char),
      (∀ c ∈ pre, isNewlineChar c = false) →
      readTimeTail tail = some ds0 →
      ∃ r, titleMatchGo acc (pre ++ tail) = some r := by
  intro pre
  induction pre with
  | nil => intro h; exact absurd rfl h
  | cons c pre' ih =>
    intro _ acc tail ds0 hnl hrt
    rw [List.cons_append, titleMatchGo,
      if_neg (by simp [hnl c (List.mem_cons_self _ _)])]
    rcases pre' with _ | ⟨d, pre''⟩
    · rw [List.nil_append, hrt]
      exact ⟨_, rfl⟩
    · rcases hrt2 : readTimeTail ((d :: pre'') ++ tail) with _ | ds1
      · exact ih (by simp) (acc ++ [c]) tail ds0
          (fun x hx => hnl x (List.mem_cons_of_mem _ hx)) hrt
      · exact ⟨_, rfl⟩

theorem titleMatch_sound {text p ds : List Char}
    (h : titleMatch text = some (p, ds)) : specReadTimeShape text p ds := by
  obtain ⟨consumed, t2, hp, hne, hnlc, hre, hrt2⟩ :=
    titleMatchGo_sound text [] p ds h
  rw [List.nil_append] at hp
  subst hp
  obtain ⟨w1, w2, mn, ut, w3, rd, w4, ht2, hds, hdig, hw1, hw2, hw3, hw4,
    hmn, hut, hrd⟩ := readTimeTail_sound hrt2
  refine ⟨w1, w2, mn, ut, w3, rd, w4, ?_, hne, hnlc, hds, hdig,
    hw1, hw2, hw3, hw4, hmn, hut, hrd⟩
  rw [hre, ht2]
  simp [List.append_assoc]

theorem titleMatch_complete {text p ds : List Char}
    (h : specReadTimeShape text p ds) :
    ∃ r, titleMatch text = some r := by
  obtain ⟨w1, w2, mn, ut, w3, rd, w4, htext, hne, hnlc, hds, hdig,
    hw1, hw2, hw3, hw4, hmn, hut, hrd⟩ := h
  have hrt := readTimeTail_complete hds hdig hw1 hw2 hw3 hw4 hmn hut hrd
  have htext2 : text
      = p ++ (w1 ++ '(' :: (ds ++ w2 ++ mn ++ ut ++ w3 ++ rd ++ ')' :: w4)) := by
    rw [htext]
    simp [List.append_assoc]
  rw [htext2]
  exact titleMatchGo_complete p hne [] _ ds hnlc hrt

theorem buildCandidates_title_rt (clean : List Char) :
    ∀ (links : List LinkMatch) (cand : ArticleCandidate),
      cand ∈ buildCandidates clean links →
      ∃ cur, cur ∈ links ∧
        ((∃ p ds, titleMatch cur.rawContent.data = some (p, ds)
            ∧ cand.title = jsTrim (String.mk p)
            ∧ cand.reading_time = some (String.mk ds ++ " min read"))
         ∨ (titleMatch cur.rawContent.data = none
            ∧ cand.title = cur.rawContent ∧ cand.reading_time = none)) := by
  intro links
  induction links with
  | nil => intro cand h; simp [buildCandidates] at h
  | cons cur rest ih =>
    intro cand h
    rw [buildCandidates.eq_def] at h
    dsimp only at h
    rcases List.mem_append.mp h with h1 | h2
    · refine ⟨cur, List.mem_cons_self _ _, ?_⟩
      rcases htm : titleMatch cur.rawContent.data with _ | ⟨p, ds⟩
      · rw [htm] at h1
        split at h1
        · rw [List.mem_singleton] at h1
          subst h1
          exact Or.inr ⟨rfl, rfl, rfl⟩
        · simp at h1
      · rw [htm] at h1
        split at h1
        · rw [List.mem_singleton] at h1
          subst h1
          exact Or.inl ⟨p, ds, rfl, rfl, rfl⟩
        · simp at h1
    · obtain ⟨cur2, hcur2, hrest⟩ := ih cand h2
      exact ⟨cur2, List.mem_cons_of_mem _ hcur2, hrest⟩

/-- C9: the reading-time regex behaves per spec.  (1) Soundness: a
successful match decomposes the link text into a nonempty single-line title
part followed by the `(<digits> min[ute] read)` suffix with the matched
digit group.  (2) Completeness: any text of that shape matches, so `title =
full text, reading_time absent` occurs exactly when no such suffix exists.
(3) Every candidate built from a surviving link takes `title` from the
trimmed group-1 and `reading_time` `"<digits> min read"` on a match, and the
whole raw text with no reading time otherwise -- the per-link parse is total
and never aborts.  (4) The spec example: `"Foo Corp raises $50M (3 minute
read)"` yields group 1 `"Foo Corp raises $50M"` and digits `"3"`, hence
reading time `"3 min read"`. -/
theorem C9_reading_time_parsing :
    (∀ text p ds, titleMatch text = some (p, ds) → specReadTimeShape text p ds)
    ∧ (∀ text p ds, specReadTimeShape text p ds → ∃ r, titleMatch text = some r)
    ∧ (∀ (clean : List Char) (links : List LinkMatch) (cand : ArticleCandidate),
        cand ∈ buildCandidates clean links →
        ∃ cur, cur ∈ links ∧
          ((∃ p ds, titleMatch cur.rawContent.data = some (p, ds)
              ∧ cand.title = jsTrim (String.mk p)
              ∧ cand.reading_time = some (String.mk ds ++ " min read"))
           ∨ (titleMatch cur.rawContent.data = none
              ∧ cand.title = cur.rawContent ∧ cand.reading_time = none)))
    ∧ titleMatch "Foo Corp raises $50M (3 minute read)".data
        = some ("Foo Corp raises $50M".data, "3".data) :=
  ⟨fun _ _ _ h => titleMatch_sound h,
   fun _ _ _ h => titleMatch_complete h,
   fun clean links cand h => buildCandidates_title_rt clean links cand h,
   by set_option maxRecDepth 10000 in decide⟩

/-- Witness: soundness applied to the concrete spec example, with the
hypothesis discharged by evaluation. -/
theorem C9_reading_time_witness :
    specReadTimeShape "Foo Corp raises $50M (3 minute read)".data
      "Foo Corp raises $50M".data "3".data :=
  C9_reading_time_parsing.1 _ _ _
    (by set_option maxRecDepth 10000 in decide)

end TLDRParser


/-! ## Theorems: semantic deduplication (C6, C10) -/

theorem chase_root {p : List Nat} {r : Nat} (h : parentOf p r = r) :
    ∀ k, chase p k r = r := by
  intro k
  induction k with
  | zero => rfl
  | succ k ih => rw [chase, if_pos h]

theorem chase_add (p : List Nat) (a b i : Nat) :
    chase p (a + b) i = chase p b (chase p a i) := by
  induction a generalizing i with
  | zero => rw [Nat.zero_add]; rfl
  | succ a ih =>
    by_cases h : parentOf p i = i
    · rw [chase_root h, chase_root h, chase_root h]
    · have h1 : a + 1 + b = (a + b) + 1 := by omega
      rw [h1, chase, if_neg h, chase, if_neg h, ih]

theorem chase_stable {p : List Nat} {k i : Nat}
    (h : parentOf p (chase p k i) = chase p k i) :
    ∀ m, k ≤ m → chase p m i = chase p k i := by
  intro m hm
  have : m = k + (m - k) := by omega
  rw [this, chase_add, chase_root h]

theorem reaches_of_root {p : List Nat} {i : Nat} (h : parentOf p i = i) :
    Reaches p i := ⟨0, h⟩

theorem reaches_off_range {p : List Nat} {i : Nat} (h : p.length ≤ i) :
    Reaches p i := by
  refine ⟨0, ?_⟩
  show parentOf p i = i
  rw [parentOf, List.getD_eq_default]
  exact h

theorem rootOfC_isRoot {p : List Nat} {i : Nat} (h : Reaches p i) :
    parentOf p (rootOfC p i) = rootOfC p i := by
  rw [rootOfC, dif_pos h]
  exact Nat.find_spec h

theorem rootOfC_eq_chase {p : List Nat} {i : Nat} (h : Reaches p i) {k : Nat}
    (hk : parentOf p (chase p k i) = chase p k i) :
    rootOfC p i = chase p k i := by
  rw [rootOfC, dif_pos h]
  have h1 : Nat.find h ≤ k := Nat.find_le hk
  rw [chase_stable (Nat.find_spec h) k h1]

theorem rootOfC_root {p : List Nat} {i : Nat} (h : parentOf p i = i) :
    rootOfC p i = i := by
  rw [@rootOfC_eq_chase p i (reaches_of_root h) 0 h]
  rfl

theorem reaches_step {p : List Nat} {i : Nat} (hne : parentOf p i ≠ i)
    (h : Reaches p (parentOf p i)) : Reaches p i := by
  obtain ⟨k, hk⟩ := h
  refine ⟨k + 1, ?_⟩
  have : chase p (k + 1) i = chase p k (parentOf p i) := by
    rw [chase, if_neg hne]
  rw [this]
  exact hk

theorem reaches_unstep {p : List Nat} {i : Nat} (hne : parentOf p i ≠ i)
    (h : Reaches p i) : Reaches p (parentOf p i) := by
  obtain ⟨k, hk⟩ := h
  rcases k with _ | k
  · exact absurd hk hne
  · rw [chase, if_neg hne] at hk
    exact ⟨k, hk⟩

theorem rootOfC_step {p : List Nat} {i : Nat} (hne : parentOf p i ≠ i)
    (h : Reaches p i) : rootOfC p i = rootOfC p (parentOf p i) := by
  have h2 := reaches_unstep hne h
  obtain ⟨k, hk⟩ := h2
  have hk1 : parentOf p (chase p (k + 1) i) = chase p (k + 1) i := by
    rw [chase, if_neg hne]; exact hk
  rw [rootOfC_eq_chase h hk1, rootOfC_eq_chase ⟨k, hk⟩ hk]
  rw [chase, if_neg hne]

/-- Depth-based induction over a parent array in which every chain reaches
a root. -/
theorem reaches_induction {p : List Nat} (P : Nat → Prop)
    (hroot : ∀ i, parentOf p i = i → P i)
    (hstep : ∀ i, parentOf p i ≠ i → Reaches p (parentOf p i) →
      P (parentOf p i) → P i) :
    ∀ i, Reaches p i → P i := by
  suffices H : ∀ d i, (h : Reaches p i) → Nat.find h ≤ d → P i by
    intro i h
    exact H (Nat.find h) i h le_rfl
  intro d
  induction d with
  | zero =>
    intro i h hd
    have h0 := Nat.find_spec h
    rw [Nat.le_zero.mp hd] at h0
    exact hroot i h0
  | succ d ih =>
    intro i h hd
    by_cases hne : parentOf p i = i
    · exact hroot i hne
    · have h2 := reaches_unstep hne h
      refine hstep i hne h2 (ih _ h2 ?_)
      -- Nat.find h2 ≤ d: since Nat.find h = Nat.find h2 + 1 ≤ d + 1
      have hfind : Nat.find h ≠ 0 := by
        intro h0
        have := Nat.find_spec h
        rw [h0] at this
        exact hne this
      have hspec := Nat.find_spec h
      obtain ⟨m, hm⟩ : ∃ m, Nat.find h = m + 1 :=
        ⟨Nat.find h - 1, by omega⟩
      rw [hm, chase, if_neg hne] at hspec
      have : Nat.find h2 ≤ m := Nat.find_le hspec
      omega

theorem chase_lt {p : List Nat}
    (hcl : ∀ i < p.length, parentOf p i < p.length) {i : Nat}
    (hi : i < p.length) : ∀ k, chase p k i < p.length := by
  intro k
  induction k generalizing i with
  | zero => exact hi
  | succ k ih =>
    rw [chase]
    by_cases h : parentOf p i = i
    · rw [if_pos h]; exact hi
    · rw [if_neg h]; exact ih (hcl i hi)

theorem rootOfC_lt {p : List Nat}
    (hcl : ∀ i < p.length, parentOf p i < p.length) {i : Nat}
    (hi : i < p.length) (h : Reaches p i) : rootOfC p i < p.length := by
  rw [rootOfC, dif_pos h]
  exact chase_lt hcl hi _

theorem goodB_reaches {p : List Nat} {B : Nat} (h : GoodB p B) (i : Nat) :
    Reaches p i := by
  obtain ⟨k, _, hk⟩ := h.2 i
  exact ⟨k, hk⟩

theorem goodB_find_le {p : List Nat} {B : Nat} (h : GoodB p B) (i : Nat)
    (hr : Reaches p i) : Nat.find hr ≤ B := by
  obtain ⟨k, hkB, hk⟩ := h.2 i
  exact le_trans (Nat.find_le hk) hkB

theorem goodB_mono {p : List Nat} {B B' : Nat} (h : GoodB p B) (hBB : B ≤ B') :
    GoodB p B' := by
  refine ⟨h.1, fun i => ?_⟩
  obtain ⟨k, hkB, hk⟩ := h.2 i
  exact ⟨k, le_trans hkB hBB, hk⟩

theorem find_step {p : List Nat} {i : Nat} (hne : parentOf p i ≠ i)
    (h : Reaches p i) (h2 : Reaches p (parentOf p i)) :
    Nat.find h = Nat.find h2 + 1 := by
  have hps : ∀ k, (parentOf p (chase p (k + 1) i) = chase p (k + 1) i) ↔
      (parentOf p (chase p k (parentOf p i)) = chase p k (parentOf p i)) := by
    intro k; rw [chase, if_neg hne]
  apply le_antisymm
  · exact Nat.find_le ((hps _).mpr (Nat.find_spec h2))
  · have h0 : Nat.find h ≠ 0 := by
      intro h0; have := Nat.find_spec h; rw [h0] at this; exact hne this
    have hspec := Nat.find_spec h
    obtain ⟨m, hm⟩ : ∃ m, Nat.find h = m + 1 := ⟨Nat.find h - 1, by omega⟩
    rw [hm] at hspec
    have hle : Nat.find h2 ≤ m := Nat.find_le ((hps m).mp hspec)
    omega

theorem find_pos_of_ne {p : List Nat} {i : Nat} (hne : parentOf p i ≠ i)
    (h : Reaches p i) : 1 ≤ Nat.find h := by
  by_contra hc
  have h0 : Nat.find h = 0 := by omega
  have := Nat.find_spec h
  rw [h0] at this
  exact hne this

theorem parentOf_set_self {q : List Nat} {i r : Nat} (h : i < q.length) :
    parentOf (q.set i r) i = r := by
  rw [parentOf, List.getD_eq_getElem?_getD, List.getElem?_set_self h]
  rfl

theorem parentOf_set_ne {q : List Nat} {i r x : Nat} (h : i ≠ x) :
    parentOf (q.set i r) x = parentOf q x := by
  rw [parentOf, parentOf, List.getD_eq_getElem?_getD,
    List.getD_eq_getElem?_getD, List.getElem?_set_ne h]

theorem nonroot_lt {p : List Nat} {i : Nat} (hne : parentOf p i ≠ i) :
    i < p.length := by
  by_contra hge
  exact hne (by rw [parentOf, List.getD_eq_default]; omega)

/-- Redirecting a non-root entry straight to its own root (the effect of
path compression) changes no root and no root assignment, and does not
increase any chain length. -/
theorem setToRoot {q : List Nat} {B i : Nat} (hg : GoodB q B)
    (hne : parentOf q i ≠ i) :
    (q.set i (rootOfC q i)).length = q.length ∧
    (∀ x, parentOf (q.set i (rootOfC q i)) x = x ↔ parentOf q x = x) ∧
    (∀ x, rootOfC (q.set i (rootOfC q i)) x = rootOfC q x) ∧
    GoodB (q.set i (rootOfC q i)) B := by
  have hilt : i < q.length := nonroot_lt hne
  set r := rootOfC q i with hr
  set q' := q.set i r with hq'
  have hreach : ∀ x, Reaches q x := goodB_reaches hg
  have hrroot : parentOf q r = r := rootOfC_isRoot (hreach i)
  have hrne : r ≠ i := fun h => hne (h ▸ hrroot)
  have hpi : parentOf q' i = r := parentOf_set_self hilt
  have hpne : ∀ x, x ≠ i → parentOf q' x = parentOf q x := by
    intro x hx; exact parentOf_set_ne (fun h => hx h.symm)
  have hroots : ∀ x, (parentOf q' x = x ↔ parentOf q x = x) := by
    intro x
    by_cases hx : x = i
    · subst hx
      rw [hpi]
      exact ⟨fun h => absurd h hrne, fun h => absurd h hne⟩
    · rw [hpne x hx]
  have hmain : ∀ x, Reaches q' x ∧ rootOfC q' x = rootOfC q x := by
    intro x
    refine reaches_induction
      (fun x => Reaches q' x ∧ rootOfC q' x = rootOfC q x) ?_ ?_ x (hreach x)
    · intro y hy
      have hy' : parentOf q' y = y := (hroots y).mpr hy
      exact ⟨reaches_of_root hy', by rw [rootOfC_root hy', rootOfC_root hy]⟩
    · intro y hyne hyr ih
      by_cases hy : y = i
      · subst hy
        have hrr' : parentOf q' r = r := by rw [hpne r hrne]; exact hrroot
        have hpine : parentOf q' y = r := hpi
        have hr1 : Reaches q' y :=
          reaches_step (by rw [hpine]; exact hrne) (by rw [hpine]; exact reaches_of_root hrr')
        refine ⟨hr1, ?_⟩
        rw [rootOfC_step (by rw [hpine]; exact hrne) hr1, hpine,
          rootOfC_root hrr', hr]
      · have hpy : parentOf q' y = parentOf q y := hpne y hy
        have hyne' : parentOf q' y ≠ y := by rw [hpy]; exact hyne
        have hr1 : Reaches q' y :=
          reaches_step hyne' (by rw [hpy]; exact ih.1)
        refine ⟨hr1, ?_⟩
        rw [rootOfC_step hyne' hr1, hpy, ih.2, ← rootOfC_step hyne (hreach y)]
  refine ⟨List.length_set q i r, hroots, fun x => (hmain x).2, ?_, ?_⟩
  · -- closure
    intro x hx
    rw [List.length_set] at hx ⊢
    by_cases hxi : x = i
    · subst hxi
      rw [hpi]
      exact rootOfC_lt hg.1 hilt (hreach _)
    · rw [hpne x hxi]
      exact hg.1 x hx
  · -- depth bound
    intro x
    have hP : ∀ y, Reaches q y →
        ∃ k, k ≤ Nat.find (hreach y) ∧
          parentOf q' (chase q' k y) = chase q' k y := by
      intro y hy
      refine reaches_induction
        (fun y => ∃ k, k ≤ Nat.find (hreach y) ∧
          parentOf q' (chase q' k y) = chase q' k y) ?_ ?_ y hy
      · intro z hz
        exact ⟨0, Nat.zero_le _, (hroots z).mpr hz⟩
      · intro z hzne hzr ih
        by_cases hz : z = i
        · subst hz
          refine ⟨1, find_pos_of_ne hzne (hreach z), ?_⟩
          have h1 : chase q' 1 z = r := by
            rw [chase, if_neg (by rw [hpi]; exact hrne), hpi]
            rfl
          rw [h1, hpne r hrne]
          exact hrroot
        · obtain ⟨k, hk, hkr⟩ := ih
          refine ⟨k + 1, ?_, ?_⟩
          · rw [find_step hzne (hreach z) (hreach _)]
            omega
          · have hpz : parentOf q' z = parentOf q z := hpne z hz
            rw [chase, if_neg (by rw [hpz]; exact hzne), hpz]
            exact hkr
    obtain ⟨k, hk, hkr⟩ := hP x (hreach x)
    exact ⟨k, le_trans hk (goodB_find_le hg x (hreach x)), hkr⟩

/-- `find` with sufficient fuel returns the root and a root-equivalent,
equally bounded parent array. -/
theorem ufFind_spec {B : Nat} :
    ∀ (d fuel : Nat) (p : List Nat) (i : Nat), GoodB p B →
      ∀ (h : Reaches p i), Nat.find h ≤ d → d < fuel →
      ∃ p', ufFind fuel p i = (rootOfC p i, p')
        ∧ p'.length = p.length
        ∧ (∀ x, parentOf p' x = x ↔ parentOf p x = x)
        ∧ (∀ x, rootOfC p' x = rootOfC p x)
        ∧ GoodB p' B := by
  intro d
  induction d with
  | zero =>
    intro fuel p i hg h hd hf
    have h0 : parentOf p i = i := by
      have := Nat.find_spec h
      rw [Nat.le_zero.mp hd] at this
      exact this
    rcases fuel with _ | f
    · omega
    · rw [ufFind]
      dsimp only
      rw [if_pos h0]
      exact ⟨p, by rw [rootOfC_root h0], rfl, fun _ => Iff.rfl,
        fun _ => rfl, hg⟩
  | succ d ih =>
    intro fuel p i hg h hd hf
    by_cases h0 : parentOf p i = i
    · rcases fuel with _ | f
      · omega
      · rw [ufFind]
        dsimp only
        rw [if_pos h0]
        exact ⟨p, by rw [rootOfC_root h0], rfl, fun _ => Iff.rfl,
          fun _ => rfl, hg⟩
    · rcases fuel with _ | f
      · omega
      · rw [ufFind]
        dsimp only
        rw [if_neg h0]
        have h2 := reaches_unstep h0 h
        have hd2 : Nat.find h2 ≤ d := by
          have := find_step h0 h h2
          omega
        have hf2 : d < f := by omega
        obtain ⟨p1, heq, hlen, hroots, hroot, hg1⟩ :=
          ih f p (parentOf p i) hg h2 hd2 hf2
        rw [heq]
        dsimp only
        have hri : rootOfC p i = rootOfC p (parentOf p i) := rootOfC_step h0 h
        have hne1 : parentOf p1 i ≠ i := by
          intro hc
          exact h0 ((hroots i).mp hc)
        have hr1 : rootOfC p1 i = rootOfC p (parentOf p i) := by
          rw [hroot i, hri]
        obtain ⟨hslen, hsroots, hsroot, hsg⟩ := setToRoot hg1 hne1
        rw [hr1] at hslen hsroots hsroot hsg
        refine ⟨p1.set i (rootOfC p (parentOf p i)), by rw [hri], ?_, ?_, ?_, hsg⟩
        · rw [hslen, hlen]
        · intro x
          rw [hsroots x, hroots x]
        · intro x
          rw [hsroot x, hroot x]

/-- `ufFind` at fuel exceeding the `GoodB` bound. -/
theorem ufFind_ok {B fuel : Nat} {p : List Nat} (i : Nat) (hg : GoodB p B)
    (hBf : B < fuel) :
    ∃ p', ufFind fuel p i = (rootOfC p i, p')
      ∧ p'.length = p.length
      ∧ (∀ x, parentOf p' x = x ↔ parentOf p x = x)
      ∧ (∀ x, rootOfC p' x = rootOfC p x)
      ∧ GoodB p' B :=
  ufFind_spec B fuel p i hg (goodB_reaches hg i)
    (goodB_find_le hg i (goodB_reaches hg i)) hBf

/-- Grafting one root onto another: every element of the first class is
redirected to the second root; chains grow by at most one step. -/
theorem setRootToRoot {q : List Nat} {B a b : Nat} (hg : GoodB q B)
    (ha : parentOf q a = a) (hb : parentOf q b = b) (hab : a ≠ b)
    (halt : a < q.length) (hblt : b < q.length) :
    (q.set a b).length = q.length ∧
    (∀ x, rootOfC (q.set a b) x = if rootOfC q x = a then b else rootOfC q x) ∧
    GoodB (q.set a b) (B + 1) := by
  set q' := q.set a b with hq'
  have hreach : ∀ x, Reaches q x := goodB_reaches hg
  have hpa : parentOf q' a = b := parentOf_set_self halt
  have hpne : ∀ x, x ≠ a → parentOf q' x = parentOf q x := by
    intro x hx; exact parentOf_set_ne (fun h => hx h.symm)
  have hba : b ≠ a := fun h => hab h.symm
  have hpb : parentOf q' b = b := by rw [hpne b hba]; exact hb
  have hmain : ∀ x, Reaches q' x ∧
      rootOfC q' x = if rootOfC q x = a then b else rootOfC q x := by
    intro x
    refine reaches_induction
      (fun x => Reaches q' x ∧
        rootOfC q' x = if rootOfC q x = a then b else rootOfC q x) ?_ ?_ x (hreach x)
    · intro y hy
      by_cases hya : y = a
      · subst hya
        have hcy : rootOfC q y = y := rootOfC_root hy
        have hstep1 : parentOf q' y ≠ y := by rw [hpa]; exact hba
        have hr1 : Reaches q' y :=
          reaches_step hstep1 (by rw [hpa]; exact reaches_of_root hpb)
        refine ⟨hr1, ?_⟩
        rw [rootOfC_step hstep1 hr1, hpa, rootOfC_root hpb, hcy, if_pos rfl]
      · have hpy : parentOf q' y = y := by rw [hpne y hya]; exact hy
        refine ⟨reaches_of_root hpy, ?_⟩
        rw [rootOfC_root hpy, rootOfC_root hy, if_neg hya]
    · intro y hyne hyr ih
      have hya : y ≠ a := fun h => hyne (h ▸ ha)
      have hpy : parentOf q' y = parentOf q y := hpne y hya
      have hyne' : parentOf q' y ≠ y := by rw [hpy]; exact hyne
      have hr1 : Reaches q' y := reaches_step hyne' (by rw [hpy]; exact ih.1)
      refine ⟨hr1, ?_⟩
      rw [rootOfC_step hyne' hr1, hpy, ih.2,
        ← rootOfC_step hyne (hreach y)]
  refine ⟨List.length_set q a b, fun x => (hmain x).2, ?_, ?_⟩
  · intro x hx
    rw [List.length_set] at hx ⊢
    by_cases hxa : x = a
    · subst hxa
      rw [hpa]
      exact hblt
    · rw [hpne x hxa]
      exact hg.1 x hx
  · intro x
    have hP : ∀ y, Reaches q y →
        ∃ k, k ≤ Nat.find (hreach y) + 1 ∧
          parentOf q' (chase q' k y) = chase q' k y := by
      intro y hy
      refine reaches_induction
        (fun y => ∃ k, k ≤ Nat.find (hreach y) + 1 ∧
          parentOf q' (chase q' k y) = chase q' k y) ?_ ?_ y hy
      · intro z hz
        by_cases hza : z = a
        · subst hza
          refine ⟨1, by omega, ?_⟩
          have h1 : chase q' 1 z = b := by
            rw [chase, if_neg (by rw [hpa]; exact hba), hpa]
            rfl
          rw [h1]
          exact hpb
        · refine ⟨0, by omega, ?_⟩
          show parentOf q' z = z
          rw [hpne z hza]
          exact hz
      · intro z hzne hzr ih
        obtain ⟨k, hk, hkr⟩ := ih
        have hza : z ≠ a := fun h => hzne (h ▸ ha)
        have hpz : parentOf q' z = parentOf q z := hpne z hza
        refine ⟨k + 1, ?_, ?_⟩
        · have hfs := find_step hzne (hreach z) (hreach _)
          omega
        · rw [chase, if_neg (by rw [hpz]; exact hzne), hpz]
          exact hkr
    obtain ⟨k, hk, hkr⟩ := hP x (hreach x)
    refine ⟨k, ?_, hkr⟩
    have := goodB_find_le hg x (hreach x)
    omega

/-- The effect of one `union` on the root assignment. -/
theorem ufUnion_spec {B fuel : Nat} {p : List Nat} {i j : Nat}
    (hg : GoodB p B) (hBf : B < fuel) (hi : i < p.length) (hj : j < p.length) :
    (ufUnion fuel p i j).length = p.length ∧
    GoodB (ufUnion fuel p i j) (B + 1) ∧
    ∀ x, rootOfC (ufUnion fuel p i j) x =
      if rootOfC p x = rootOfC p i then rootOfC p j else rootOfC p x := by
  obtain ⟨p1, heq1, hlen1, hroots1, hroot1, hg1⟩ := ufFind_ok i hg hBf
  obtain ⟨p2, heq2, hlen2, hroots2, hroot2, hg2⟩ := ufFind_ok j hg1 hBf
  have hrj : rootOfC p1 j = rootOfC p j := hroot1 j
  rw [ufUnion]
  rw [heq1]
  dsimp only
  rw [heq2]
  dsimp only
  rw [hrj]
  have hroot12 : ∀ x, rootOfC p2 x = rootOfC p x := by
    intro x; rw [hroot2 x, hroot1 x]
  have hlen12 : p2.length = p.length := by rw [hlen2, hlen1]
  by_cases hij : rootOfC p i = rootOfC p j
  · rw [if_pos hij]
    refine ⟨hlen12, goodB_mono hg2 (by omega), ?_⟩
    intro x
    rw [hroot12 x]
    by_cases hx : rootOfC p x = rootOfC p i
    · rw [if_pos hx, hx, hij]
    · rw [if_neg hx]
  · rw [if_neg hij]
    have hreach : ∀ x, Reaches p x := goodB_reaches hg
    have hpi : parentOf p (rootOfC p i) = rootOfC p i := rootOfC_isRoot (hreach i)
    have hpj : parentOf p (rootOfC p j) = rootOfC p j := rootOfC_isRoot (hreach j)
    have hpi2 : parentOf p2 (rootOfC p i) = rootOfC p i :=
      (hroots2 _).mpr ((hroots1 _).mpr hpi)
    have hpj2 : parentOf p2 (rootOfC p j) = rootOfC p j :=
      (hroots2 _).mpr ((hroots1 _).mpr hpj)
    have hilt : rootOfC p i < p2.length := by
      rw [hlen12]; exact rootOfC_lt hg.1 hi (hreach i)
    have hjlt : rootOfC p j < p2.length := by
      rw [hlen12]; exact rootOfC_lt hg.1 hj (hreach j)
    obtain ⟨hslen, hsroot, hsg⟩ :=
      setRootToRoot hg2 hpi2 hpj2 hij hilt hjlt
    refine ⟨by rw [hslen, hlen12], hsg, ?_⟩
    intro x
    rw [hsroot x, hroot12 x]

theorem eqvGen_mono_of {α} {r s : α → α → Prop}
    (h : ∀ a b, r a b → Relation.EqvGen s a b) {x y : α}
    (hxy : Relation.EqvGen r x y) : Relation.EqvGen s x y := by
  induction hxy with
  | rel a b hab => exact h a b hab
  | refl a => exact Relation.EqvGen.refl a
  | symm a b _ ih => exact Relation.EqvGen.symm a b ih
  | trans a b c _ _ ih1 ih2 => exact Relation.EqvGen.trans a b c ih1 ih2

/-- Folding the unions for a pair list computes the equivalence generated by
the initial same-root relation together with the pairs. -/
theorem foldUnions_spec {fuel : Nat} :
    ∀ (L : List (Nat × Nat)) (p : List Nat) (B : Nat), GoodB p B →
      (∀ ij ∈ L, ij.1 < p.length ∧ ij.2 < p.length) →
      B + L.length < fuel →
      (foldUnions fuel L p).length = p.length ∧
      GoodB (foldUnions fuel L p) (B + L.length) ∧
      ∀ x y, rootOfC (foldUnions fuel L p) x = rootOfC (foldUnions fuel L p) y ↔
        Relation.EqvGen
          (fun u v => rootOfC p u = rootOfC p v ∨ (u, v) ∈ L) x y := by
  intro L
  induction L with
  | nil =>
    intro p B hg hmem hf
    refine ⟨rfl, by simpa using hg, ?_⟩
    intro x y
    constructor
    · intro h
      exact Relation.EqvGen.rel x y (Or.inl h)
    · intro h
      induction h with
      | rel a b hab =>
        rcases hab with hab | hab
        · exact hab
        · simp at hab
      | refl a => rfl
      | symm a b _ ih => exact ih.symm
      | trans a b c _ _ ih1 ih2 => exact ih1.trans ih2
  | cons ij L' ih =>
    intro p B hg hmem hf
    obtain ⟨hi, hj⟩ := hmem ij (List.mem_cons_self _ _)
    have hBf : B < fuel := by
      have := List.length_cons ij L'
      omega
    obtain ⟨hulen, hug, huroot⟩ := ufUnion_spec hg hBf hi hj
    have hmem' : ∀ kl ∈ L', kl.1 < (ufUnion fuel p ij.1 ij.2).length
        ∧ kl.2 < (ufUnion fuel p ij.1 ij.2).length := by
      intro kl hkl
      rw [hulen]
      exact hmem kl (List.mem_cons_of_mem _ hkl)
    have hf' : (B + 1) + L'.length < fuel := by
      rw [List.length_cons] at hf
      omega
    obtain ⟨hlen', hg', hiff⟩ :=
      ih (ufUnion fuel p ij.1 ij.2) (B + 1) hug hmem' hf'
    have hfold : foldUnions fuel (ij :: L') p
        = foldUnions fuel L' (ufUnion fuel p ij.1 ij.2) := rfl
    rw [hfold]
    refine ⟨by rw [hlen', hulen],
      by rw [List.length_cons]
         exact goodB_mono hg' (by omega), ?_⟩
    intro x y
    rw [hiff x y]
    -- relate the two generator relations
    constructor
    · refine eqvGen_mono_of ?_
      intro a b hab
      rcases hab with hab | hab
      · -- same root after the union: unfold the union formula
        rw [huroot a, huroot b] at hab
        by_cases hra : rootOfC p a = rootOfC p ij.1 <;>
          by_cases hrb : rootOfC p b = rootOfC p ij.1
        · rw [if_pos hra, if_pos hrb] at hab
          exact Relation.EqvGen.rel a b (Or.inl (hra.trans hrb.symm))
        · rw [if_pos hra, if_neg hrb] at hab
          -- rootOfC p b = rootOfC p j: a ~ i, (i,j) ∈ L, j ~ b
          refine Relation.EqvGen.trans a ij.1 b
            (Relation.EqvGen.rel _ _ (Or.inl hra)) ?_
          refine Relation.EqvGen.trans ij.1 ij.2 b
            (Relation.EqvGen.rel _ _ (Or.inr (List.mem_cons_self _ _))) ?_
          exact Relation.EqvGen.rel _ _ (Or.inl hab)
        · rw [if_neg hra, if_pos hrb] at hab
          refine Relation.EqvGen.trans a ij.2 b
            (Relation.EqvGen.rel _ _ (Or.inl hab)) ?_
          refine Relation.EqvGen.symm _ _ ?_
          refine Relation.EqvGen.trans b ij.1 ij.2
            (Relation.EqvGen.rel _ _ (Or.inl hrb)) ?_
          exact Relation.EqvGen.rel _ _ (Or.inr (List.mem_cons_self _ _))
        · rw [if_neg hra, if_neg hrb] at hab
          exact Relation.EqvGen.rel a b (Or.inl hab)
      · exact Relation.EqvGen.rel a b (Or.inr (List.mem_cons_of_mem _ hab))
    · refine eqvGen_mono_of ?_
      intro a b hab
      rcases hab with hab | hab
      · -- old same-root implies same root after union
        refine Relation.EqvGen.rel a b (Or.inl ?_)
        rw [huroot a, huroot b, hab]
      · rcases List.mem_cons.mp hab with rfl | hab
        · -- the new pair: roots after union coincide
          refine Relation.EqvGen.rel a b (Or.inl ?_)
          rw [huroot a, huroot b]
          dsimp only
          rw [if_pos rfl]
          by_cases hvu : rootOfC p b = rootOfC p a
          · rw [if_pos hvu]
          · rw [if_neg hvu]
        · exact Relation.EqvGen.rel a b (Or.inr hab)

theorem parentOf_range (n i : Nat) : parentOf (List.range n) i = i := by
  rw [parentOf, List.getD_eq_getElem?_getD]
  by_cases h : i < n
  · rw [List.getElem?_range h]
    rfl
  · rw [List.getElem?_eq_none (by rw [List.length_range]; omega)]
    rfl

theorem goodB_range (n : Nat) : GoodB (List.range n) 0 := by
  constructor
  · intro i hi
    rw [parentOf_range]
    exact hi
  · intro i
    exact ⟨0, le_rfl, parentOf_range n i⟩

theorem rootOfC_range (n i : Nat) : rootOfC (List.range n) i = i :=
  rootOfC_root (parentOf_range n i)

theorem mem_pairList {n a b : Nat} :
    (a, b) ∈ pairList n ↔ a < b ∧ b < n := by
  rw [pairList, List.mem_flatMap]
  constructor
  · rintro ⟨i, hi, hmem⟩
    rw [List.mem_map] at hmem
    obtain ⟨j, hj, hij⟩ := hmem
    injection hij with h1 h2
    subst h1; subst h2
    rw [List.mem_range] at hi
    rw [List.mem_range'] at hj
    obtain ⟨k, hk, hbk⟩ := hj
    omega
  · rintro ⟨hab, hbn⟩
    refine ⟨a, List.mem_range.mpr (by omega), ?_⟩
    rw [List.mem_map]
    refine ⟨b, ?_, rfl⟩
    rw [List.mem_range']
    exact ⟨b - (a + 1), by omega, by omega⟩

theorem foldl_union_filter (fuel : Nat) (cond : Nat × Nat → Bool) :
    ∀ (L : List (Nat × Nat)) (p : List Nat),
      L.foldl (fun q ij => if cond ij then ufUnion fuel q ij.1 ij.2 else q) p
        = foldUnions fuel (L.filter cond) p := by
  intro L
  induction L with
  | nil => intro p; rfl
  | cons ij L' ih =>
    intro p
    rw [List.foldl_cons, List.filter_cons]
    by_cases h : cond ij = true
    · rw [if_pos h, if_pos h, ih]
      rfl
    · rw [if_neg h, if_neg h, ih]

theorem natFirstsGo_congr :
    ∀ (n : Nat) {m : Nat} (l : List Nat), l.length ≤ n → l.length ≤ m →
      natFirstsGo n l = natFirstsGo m l := by
  intro n
  induction n with
  | zero =>
    intro m l hn _
    rw [Nat.le_zero, List.length_eq_zero] at hn
    subst hn
    cases m <;> rfl
  | succ n ih =>
    intro m l hn hm
    rcases l with _ | ⟨c, t⟩
    · cases m <;> rfl
    · rcases m with _ | m'
      · simp at hm
      · rw [natFirstsGo, natFirstsGo]
        refine congrArg _ (ih _ ?_ ?_)
        · exact le_trans (List.length_filter_le _ _) (Nat.le_of_succ_le_succ hn)
        · exact le_trans (List.length_filter_le _ _) (Nat.le_of_succ_le_succ hm)

theorem natFirsts_cons (x : Nat) (t : List Nat) :
    natFirsts (x :: t) = x :: natFirsts (t.filter (fun y => y ≠ x)) := by
  rw [natFirsts, natFirsts, List.length_cons, natFirstsGo]
  exact congrArg _ (natFirstsGo_congr _ _ (List.length_filter_le _ _) le_rfl)

theorem mem_natFirstsGo {k : Nat} :
    ∀ (n : Nat) (l : List Nat), k ∈ natFirstsGo n l → k ∈ l := by
  intro n
  induction n with
  | zero =>
    intro l h
    cases l <;> simp [natFirstsGo] at h
  | succ n ih =>
    intro l h
    rcases l with _ | ⟨x, t⟩
    · simp [natFirstsGo] at h
    · rw [natFirstsGo] at h
      rcases List.mem_cons.mp h with rfl | h2
      · exact List.mem_cons_self _ _
      · exact List.mem_cons_of_mem _ (List.mem_of_mem_filter (ih _ h2))

theorem mem_natFirsts {k : Nat} {l : List Nat} (h : k ∈ natFirsts l) :
    k ∈ l := mem_natFirstsGo _ _ h

theorem groupFold_congr {r1 r2 : Nat → Nat} (h : ∀ i, r1 i = r2 i)
    (articles : List Article) :
    ∀ (idxs : List Nat) (g : List (Nat × List Article)),
      groupFold r1 articles g idxs = groupFold r2 articles g idxs := by
  intro idxs
  induction idxs with
  | nil => intro g; rfl
  | cons i rest ih =>
    intro g
    rw [groupFold, groupFold, h i, ih]

/-- Since roots are stable under path compression, the stateful grouping
loop computes the pure fold over the fixed final root assignment. -/
theorem groupsGo_eq_groupFold {B fuel : Nat} (articles : List Article) :
    ∀ (idxs : List Nat) (p : List Nat) (g : List (Nat × List Article)),
      GoodB p B → B < fuel →
      groupsGo fuel articles p g idxs = groupFold (rootOfC p) articles g idxs := by
  intro idxs
  induction idxs with
  | nil => intro p g _ _; rfl
  | cons i rest ih =>
    intro p g hg hBf
    obtain ⟨p1, heq, hlen, hroots, hroot, hg1⟩ := ufFind_ok i hg hBf
    rw [groupsGo, heq]
    dsimp only
    rw [ih p1 _ hg1 hBf, groupFold]
    exact groupFold_congr hroot articles rest _

theorem mapHasG_keys (g : List (Nat × List Article)) (r : Nat) :
    mapHasG g r = (g.map (·.1)).any (· == r) := by
  induction g with
  | nil => rfl
  | cons kv g' ih =>
    simp only [mapHasG, List.any_cons, List.map_cons] at ih ⊢
    rw [ih]

theorem mapHasG_append (g : List (Nat × List Article)) (e : Nat × List Article)
    (x : Nat) : mapHasG (g ++ [e]) x = (mapHasG g x || (e.1 == x)) := by
  simp [mapHasG, List.any_append]

theorem groupFold_eq (root : Nat → Nat) (articles : List Article) :
    ∀ (idxs : List Nat) (g : List (Nat × List Article)),
      groupFold root articles g idxs
        = g.map (fun kv => (kv.1, kv.2
            ++ (idxs.filter (fun i => root i == kv.1)).map
                (fun i => articles.getD i defaultArticle)))
          ++ (natFirsts ((idxs.filter (fun i => !mapHasG g (root i))).map root)).map
              (fun r => (r, (idxs.filter (fun i => root i == r)).map
                (fun i => articles.getD i defaultArticle))) := by
  intro idxs
  induction idxs with
  | nil =>
    intro g
    simp [groupFold, natFirsts, natFirstsGo]
  | cons i rest ih =>
    intro g
    rw [groupFold]
    by_cases hhas : mapHasG g (root i) = true
    · have hadd : addToGroup g (root i) (articles.getD i defaultArticle)
          = g.map (fun kv => if kv.1 == root i
              then (kv.1, kv.2 ++ [articles.getD i defaultArticle]) else kv) := by
        rw [addToGroup, if_pos hhas]
      rw [hadd, ih]
      have hkeys : (g.map (fun kv => if kv.1 == root i
          then (kv.1, kv.2 ++ [articles.getD i defaultArticle]) else kv)).map (·.1)
          = g.map (·.1) := by
        rw [List.map_map]
        refine List.map_congr_left ?_
        intro kv _
        by_cases hk : (kv.1 == root i) = true <;> simp [Function.comp, hk]
      have hhasG : ∀ x, mapHasG (g.map (fun kv => if kv.1 == root i
          then (kv.1, kv.2 ++ [articles.getD i defaultArticle]) else kv)) x
          = mapHasG g x := by
        intro x
        rw [mapHasG_keys, mapHasG_keys, hkeys]
      congr 1
      · -- updated-old part
        rw [List.map_map]
        refine List.map_congr_left ?_
        intro kv _
        dsimp only [Function.comp]
        by_cases hk : (kv.1 == root i) = true
        · have hk' : (root i == kv.1) = true := by
            simp only [beq_iff_eq] at hk ⊢; exact hk.symm
          rw [if_pos hk, List.filter_cons, if_pos hk']
          dsimp only
          rw [List.map_cons, List.append_assoc, List.singleton_append]
        · have hk' : ¬(root i == kv.1) = true := by
            simp only [beq_iff_eq] at hk ⊢
            exact fun hc => hk hc.symm
          rw [if_neg hk, List.filter_cons, if_neg hk']
      · -- new part
        have hfil : rest.filter (fun i' => !mapHasG (g.map (fun kv =>
            if kv.1 == root i then (kv.1, kv.2 ++ [articles.getD i defaultArticle])
            else kv)) (root i'))
            = rest.filter (fun i' => !mapHasG g (root i')) := by
          refine List.filter_congr ?_
          intro i' _
          rw [hhasG]
        have hfil2 : List.filter (fun i' => !mapHasG g (root i')) (i :: rest)
            = rest.filter (fun i' => !mapHasG g (root i')) := by
          rw [List.filter_cons, if_neg (by simp [hhas])]
        rw [hfil, hfil2]
        refine List.map_congr_left ?_
        intro r hr
        obtain ⟨i', hi', hri'⟩ := List.mem_map.mp (mem_natFirsts hr)
        have hdm := List.of_mem_filter hi'
        have hrne : ¬(root i == r) = true := by
          intro hc
          have hcr : root i = r := by simpa using hc
          rw [hri', ← hcr] at hdm
          simp [hhas] at hdm
        rw [List.filter_cons, if_neg hrne]
    · have hhasb : mapHasG g (root i) = false := by simpa using hhas
      have hadd : addToGroup g (root i) (articles.getD i defaultArticle)
          = g ++ [(root i, [articles.getD i defaultArticle])] := by
        rw [addToGroup, if_neg (by rw [hhasb]; exact Bool.false_ne_true)]
      rw [hadd, ih]
      have hUpd : List.map (fun kv => (kv.1, kv.2
          ++ (List.filter (fun i' => root i' == kv.1) (i :: rest)).map
              (fun i' => articles.getD i' defaultArticle))) g
          = List.map (fun kv => (kv.1, kv.2
            ++ (rest.filter (fun i' => root i' == kv.1)).map
                (fun i' => articles.getD i' defaultArticle))) g := by
        refine List.map_congr_left ?_
        intro kv hkv
        have hne : ¬(root i == kv.1) = true := by
          intro hc
          have hck : root i = kv.1 := by simpa using hc
          have : mapHasG g (root i) = true := by
            rw [mapHasG]
            exact List.any_eq_true.mpr ⟨kv, hkv, by simp [hck]⟩
          rw [this] at hhasb
          exact absurd hhasb (by decide)
        rw [List.filter_cons, if_neg hne]
      have hGone : List.map (fun kv => (kv.1, kv.2
          ++ (rest.filter (fun i' => root i' == kv.1)).map
              (fun i' => articles.getD i' defaultArticle)))
            (g ++ [(root i, [articles.getD i defaultArticle])])
          = List.map (fun kv => (kv.1, kv.2
            ++ (rest.filter (fun i' => root i' == kv.1)).map
                (fun i' => articles.getD i' defaultArticle))) g
            ++ [(root i, [articles.getD i defaultArticle]
              ++ (rest.filter (fun i' => root i' == root i)).map
                  (fun i' => articles.getD i' defaultArticle))] := by
        rw [List.map_append]
        rfl
      have hNew : (natFirsts ((List.filter (fun i' => !mapHasG g (root i'))
            (i :: rest)).map root)).map
            (fun r => (r, (List.filter (fun i' => root i' == r) (i :: rest)).map
              (fun i' => articles.getD i' defaultArticle)))
          = (root i, [articles.getD i defaultArticle]
              ++ (rest.filter (fun i' => root i' == root i)).map
                  (fun i' => articles.getD i' defaultArticle))
            :: (natFirsts ((rest.filter (fun i' =>
                !mapHasG (g ++ [(root i, [articles.getD i defaultArticle])])
                  (root i'))).map root)).map
              (fun r => (r, (rest.filter (fun i' => root i' == r)).map
                (fun i' => articles.getD i' defaultArticle))) := by
        have hhead : List.filter (fun i' => !mapHasG g (root i')) (i :: rest)
            = i :: rest.filter (fun i' => !mapHasG g (root i')) := by
          rw [List.filter_cons, if_pos (by simp [hhasb])]
        rw [hhead, List.map_cons, natFirsts_cons]
        have hfilB : rest.filter (fun i' =>
              !mapHasG (g ++ [(root i, [articles.getD i defaultArticle])]) (root i'))
            = rest.filter (fun i' =>
              decide (root i' ≠ root i) && !mapHasG g (root i')) := by
          refine List.filter_congr ?_
          intro i' _
          rw [mapHasG_append]
          by_cases hir : root i' = root i
          · simp [hir, hhasb]
          · have hir2 : (root i == root i') = false := by
              simp only [beq_eq_false_iff_ne, ne_eq]
              exact fun hc => hir hc.symm
            simp [hir, hir2]
        have hfilC : ((rest.filter (fun i' => !mapHasG g (root i'))).map root).filter
              (fun y => decide (y ≠ root i))
            = (rest.filter (fun i' =>
              decide (root i' ≠ root i) && !mapHasG g (root i'))).map root := by
          rw [List.filter_map, List.filter_filter]
          rfl
        rw [← hfilB] at hfilC
        rw [hfilC, List.map_cons]
        congr 1
        · -- the head entry
          have hgrp : List.filter (fun i' => root i' == root i) (i :: rest)
              = i :: rest.filter (fun i' => root i' == root i) := by
            rw [List.filter_cons, if_pos (by simp)]
          rw [hgrp, List.map_cons]
          rfl
        · refine List.map_congr_left ?_
          intro r hr
          obtain ⟨i', hi', hri'⟩ := List.mem_map.mp (mem_natFirsts hr)
          have hdm := List.of_mem_filter hi'
          have hrne : ¬(root i == r) = true := by
            intro hc
            have hcr : root i = r := by simpa using hc
            rw [← hcr] at hri'
            rw [hfilB] at hi'
            have := List.of_mem_filter hi'
            rw [Bool.and_eq_true] at this
            have h1 := this.1
            rw [hri'] at h1
            simp at h1
          rw [List.filter_cons, if_neg hrne]
      rw [hUpd, hGone, hNew, List.append_assoc, List.singleton_append]

theorem collectGroups_eq (dateValue : String → Int) :
    ∀ gs : List (Nat × List Article),
      collectGroups dateValue gs
        = ((gs.map (·.2)).flatMap (fun g => if g.length = 1 then g
            else (g.insertionSort (fun a b => groupLe dateValue a b = true)).take 1),
           (gs.map (·.2)).filterMap (fun g => if g.length = 1 then none
            else some (g.insertionSort (fun a b => groupLe dateValue a b = true)))) := by
  intro gs
  induction gs with
  | nil => rfl
  | cons kv rest ih =>
    rcases kv with ⟨r, g⟩
    rw [collectGroups]
    dsimp only
    rw [ih]
    by_cases h : g.length = 1
    · rw [if_pos h, List.map_cons, List.flatMap_cons, List.filterMap_cons]
      dsimp only
      rw [if_pos h, if_pos h]
    · rw [if_neg h, List.map_cons, List.flatMap_cons, List.filterMap_cons]
      dsimp only
      rw [if_neg h, if_neg h]

theorem exceptMapList_ok_of {α β : Type} {f : α → Except String β} :
    ∀ {l : List α}, (∀ a ∈ l, ∃ b, f a = .ok b) →
      ∃ bs, exceptMapList f l = .ok bs := by
  intro l
  induction l with
  | nil => intro _; exact ⟨[], rfl⟩
  | cons a t ih =>
    intro h
    obtain ⟨b, hb⟩ := h a (List.mem_cons_self _ _)
    obtain ⟨bs, hbs⟩ := ih (fun x hx => h x (List.mem_cons_of_mem _ hx))
    refine ⟨b :: bs, ?_⟩
    rw [exceptMapList, hb, hbs]

theorem exceptMapList_ok_getD {α β : Type} {f : α → Except String β}
    (d : α) (d' : β) :
    ∀ {l : List α} {bs : List β}, exceptMapList f l = .ok bs →
      bs.length = l.length ∧
      ∀ k < l.length, f (l.getD k d) = .ok (bs.getD k d') := by
  intro l
  induction l with
  | nil =>
    intro bs h
    replace h : Except.ok ([] : List β) = Except.ok bs := h
    injection h with h
    subst h
    exact ⟨rfl, fun k hk => by simp at hk⟩
  | cons a t ih =>
    intro bs h
    rw [exceptMapList] at h
    rcases hfa : f a with e | b
    · rw [hfa] at h; exact absurd h (by simp)
    · rw [hfa] at h
      rcases hrest : exceptMapList f t with e | bs'
      · rw [hrest] at h; exact absurd h (by simp)
      · rw [hrest] at h
        replace h : Except.ok (b :: bs') = Except.ok bs := h
        injection h with h
        subst h
        obtain ⟨hlen, hptw⟩ := ih hrest
        refine ⟨by simp [hlen], ?_⟩
        intro k hk
        rcases k with _ | k'
        · exact hfa
        · rw [List.getD_cons_succ, List.getD_cons_succ]
          exact hptw k' (by simpa using hk)

theorem cosineSimilarity_ok {a b : List ℝ} (h : a.length = b.length) :
    ∃ v, cosineSimilarity a b = .ok v := by
  rw [cosineSimilarity, if_neg (by simp [h])]
  dsimp only
  rcases Classical.em
      (Real.sqrt ((a.zip b).foldl (fun acc p => acc + p.1 * p.1) 0) = 0
        ∨ Real.sqrt ((a.zip b).foldl (fun acc p => acc + p.2 * p.2) 0) = 0)
      with hc | hc
  · rw [if_pos hc]; exact ⟨0, rfl⟩
  · rw [if_neg hc]; exact ⟨_, rfl⟩

theorem getD_mem_of_lt {α : Type} {l : List α} {n : ℕ} (d : α)
    (h : n < l.length) : l.getD n d ∈ l := by
  rw [List.getD_eq_getElem l d h]
  exact List.getElem_mem h

theorem simEntry_ok {embeddings : List (List ℝ)}
    (hd : ∀ e1 ∈ embeddings, ∀ e2 ∈ embeddings, e1.length = e2.length)
    {i j : Nat} (hi : i < embeddings.length) (hj : j < embeddings.length) :
    ∃ v, simEntry embeddings i j = .ok v := by
  rw [simEntry]
  by_cases hij : i = j
  · rw [if_pos hij]; exact ⟨1, rfl⟩
  · rw [if_neg hij]
    by_cases hji : j < i
    · rw [if_pos hji]
      exact cosineSimilarity_ok
        (hd _ (getD_mem_of_lt [] hj) _ (getD_mem_of_lt [] hi))
    · rw [if_neg hji]
      exact cosineSimilarity_ok
        (hd _ (getD_mem_of_lt [] hi) _ (getD_mem_of_lt [] hj))

theorem simEntry_symm (embeddings : List (List ℝ)) {i j : Nat} (h : i ≠ j) :
    simEntry embeddings i j = simEntry embeddings j i := by
  rw [simEntry, simEntry, if_neg h, if_neg (Ne.symm h)]
  rcases Nat.lt_or_ge j i with hji | hji
  · rw [if_pos hji, if_neg (by omega)]
  · have hij : i < j := by omega
    rw [if_neg (by omega), if_pos hij]

theorem range_getD {n k : Nat} (h : k < n) : (List.range n).getD k 0 = k := by
  rw [List.getD_eq_getElem?_getD, List.getElem?_range h]
  rfl

theorem simMatrix_entry {embeddings : List (List ℝ)} {n : Nat}
    {mat : List (List ℝ)} (h : simMatrix embeddings n = .ok mat) :
    ∀ i j, i < n → j < n →
      simEntry embeddings i j = .ok ((mat.getD i []).getD j 0) := by
  intro i j hi hj
  obtain ⟨hlen, hrow⟩ := exceptMapList_ok_getD 0 ([] : List ℝ) h
  have hrowi := hrow i (by rwa [List.length_range])
  rw [range_getD hi] at hrowi
  obtain ⟨_, hentry⟩ := exceptMapList_ok_getD 0 (0 : ℝ) hrowi
  have := hentry j (by rwa [List.length_range])
  rwa [range_getD hj] at this

theorem simMatrix_ok {embeddings : List (List ℝ)} {n : Nat}
    (hd : ∀ e1 ∈ embeddings, ∀ e2 ∈ embeddings, e1.length = e2.length)
    (hn : n ≤ embeddings.length) :
    ∃ mat, simMatrix embeddings n = .ok mat := by
  refine exceptMapList_ok_of ?_
  intro i hi
  rw [List.mem_range] at hi
  refine exceptMapList_ok_of ?_
  intro j hj
  rw [List.mem_range] at hj
  exact simEntry_ok hd (by omega) (by omega)

theorem pairList_length_lt {n : Nat} (hn : 1 ≤ n) :
    (pairList n).length < n * n := by
  rw [pairList, List.length_flatMap]
  have hbound : ∀ x ∈ (List.range n).map
      (List.length ∘ fun i => (List.range' (i + 1) (n - (i + 1))).map
        (fun j => (i, j))), x ≤ n - 1 := by
    intro x hx
    rw [List.mem_map] at hx
    obtain ⟨i, hi, hxi⟩ := hx
    rw [List.mem_range] at hi
    subst hxi
    simp only [Function.comp_apply, List.length_map, List.length_range']
    omega
  have hsum := List.sum_le_card_nsmul _ _ hbound
  rw [List.length_map, List.length_range, smul_eq_mul] at hsum
  have hlt : n * (n - 1) < n * n :=
    (Nat.mul_lt_mul_left (by omega)).mpr (by omega)
  omega

theorem foldl_union_filterP (fuel : Nat) (cond : Nat × Nat → Prop)
    [DecidablePred cond] :
    ∀ (L : List (Nat × Nat)) (p : List Nat),
      L.foldl (fun q ij => if cond ij then ufUnion fuel q ij.1 ij.2 else q) p
        = foldUnions fuel (L.filter (fun ij => decide (cond ij))) p := by
  intro L
  induction L with
  | nil => intro p; rfl
  | cons ij L' ih =>
    intro p
    rw [List.foldl_cons, List.filter_cons]
    by_cases h : cond ij
    · rw [if_pos h, if_pos (by simpa using h), ih]
      rfl
    · rw [if_neg h, if_neg (by simpa using h), ih]

theorem map_getD_range (l : List Article) :
    (List.range l.length).map (fun i => l.getD i defaultArticle) = l := by
  refine List.ext_getElem (by simp) ?_
  intro i h1 h2
  simp only [List.getElem_map, List.getElem_range]
  rw [List.getD_eq_getElem l defaultArticle h2]

theorem mem_natFirsts_map_root {root : Nat → Nat} {l : List Nat} {r : Nat}
    (h : r ∈ natFirsts (l.map root)) : ∃ i ∈ l, root i = r := by
  have := mem_natFirsts h
  exact List.mem_map.mp this

/-- The groups keyed by first-occurring roots partition the index list. -/
theorem flatten_groups_perm (root : Nat → Nat) :
    ∀ (m : Nat) (l : List Nat), l.length ≤ m →
      (((natFirsts (l.map root)).map
        (fun r => l.filter (fun i => root i == r))).flatten).Perm l := by
  intro m
  induction m with
  | zero =>
    intro l hl
    rw [Nat.le_zero, List.length_eq_zero] at hl
    subst hl
    exact List.Perm.refl _
  | succ m ih =>
    intro l hl
    rcases l with _ | ⟨i, rest⟩
    · exact List.Perm.refl _
    · rw [List.map_cons, natFirsts_cons, List.map_cons, List.flatten_cons]
      have hhead : List.filter (fun i' => root i' == root i) (i :: rest)
          = i :: rest.filter (fun i' => root i' == root i) := by
        rw [List.filter_cons, if_pos (by simp)]
      rw [hhead]
      have hfilC : (rest.map root).filter (fun y => decide (y ≠ root i))
          = (rest.filter (fun i' => decide (root i' ≠ root i))).map root := by
        rw [List.filter_map]
        rfl
      rw [hfilC]
      have htail : ∀ r ∈ natFirsts
          ((rest.filter (fun i' => decide (root i' ≠ root i))).map root),
          List.filter (fun i' => root i' == r) (i :: rest)
            = (rest.filter (fun i' => decide (root i' ≠ root i))).filter
                (fun i' => root i' == r) := by
        intro r hr
        obtain ⟨i', hi', hri'⟩ := mem_natFirsts_map_root hr
        have hir := List.of_mem_filter hi'
        rw [hri'] at hir
        have hrne : r ≠ root i := by simpa using hir
        rw [List.filter_cons, if_neg (by simpa using fun hc : root i = r => hrne hc.symm),
          List.filter_filter]
        refine (List.filter_congr ?_).symm
        intro x _
        by_cases hx : root x = r
        · simp [hx, fun hc : r = root i => hrne hc]
        · simp [hx]
      rw [List.map_congr_left htail]
      refine List.Perm.cons i ?_
      have hperm2 := ih (rest.filter (fun i' => decide (root i' ≠ root i)))
        (le_trans (List.length_filter_le _ _) (by simpa using hl))
      refine List.Perm.trans
        (List.Perm.append_left _ hperm2) ?_
      have hsplit : rest.filter (fun i' => decide (root i' ≠ root i))
          = rest.filter (fun i' => !(root i' == root i)) := by
        refine List.filter_congr ?_
        intro x _
        by_cases hx : root x = root i <;> simp [hx]
      rw [hsplit]
      exact List.filter_append_perm _ rest

/-- Central characterization of `deduplicateArticles` on two or more
articles with well-formed embeddings: it returns, for some root assignment
whose equality is exactly the transitive closure of the ≥0.85 similarity
relation, one representative per group in first-occurrence order. -/
theorem dedupArticles_spec (dateValue : String → Int)
    (embeddings : List (List ℝ)) (articles : List Article)
    (hn : embeddings.length = articles.length)
    (hd : ∀ e1 ∈ embeddings, ∀ e2 ∈ embeddings, e1.length = e2.length)
    (h2 : 2 ≤ articles.length) :
    ∃ (root : Nat → Nat) (U : List Article) (D : List (List Article)),
      deduplicateArticles dateValue embeddings articles
        = Except.ok ⟨U, D, articles.length, articles.length - U.length⟩
      ∧ U = ((natFirsts ((List.range articles.length).map root)).map
              (fun r => ((List.range articles.length).filter
                (fun i => root i == r)).map
                  (fun i => articles.getD i defaultArticle))).flatMap
            (fun g => if g.length = 1 then g
              else (g.insertionSort
                (fun a b => groupLe dateValue a b = true)).take 1)
      ∧ D = ((natFirsts ((List.range articles.length).map root)).map
              (fun r => ((List.range articles.length).filter
                (fun i => root i == r)).map
                  (fun i => articles.getD i defaultArticle))).filterMap
            (fun g => if g.length = 1 then none
              else some (g.insertionSort
                (fun a b => groupLe dateValue a b = true)))
      ∧ (∀ i j, i < articles.length → j < articles.length →
          (root i = root j ↔ Relation.EqvGen
            (fun a b => a < articles.length ∧ b < articles.length ∧ a ≠ b ∧
              ∃ v, simEntry embeddings a b = Except.ok v ∧ (0.85 : ℝ) ≤ v)
            i j)) := by
  set n := articles.length with hndef
  have hn1 : ¬(n ≤ 1) := by omega
  obtain ⟨mat, hmat⟩ := simMatrix_ok hd (le_of_eq hn.symm)
  set fuel := n * n with hfuel
  set Lf := (pairList n).filter
    (fun ij => decide ((0.85 : ℝ) ≤ (mat.getD ij.1 []).getD ij.2 0)) with hLf
  have hfold : (pairList n).foldl
      (fun p ij => if (0.85 : ℝ) ≤ (mat.getD ij.1 []).getD ij.2 0 then
        ufUnion fuel p ij.1 ij.2 else p) (List.range n)
      = foldUnions fuel Lf (List.range n) :=
    foldl_union_filterP fuel _ (pairList n) (List.range n)
  have hg0 : GoodB (List.range n) 0 := goodB_range n
  have hmemLf : ∀ ij ∈ Lf, ij.1 < (List.range n).length
      ∧ ij.2 < (List.range n).length := by
    intro ij hij
    have hijp : ij ∈ pairList n := List.mem_filter.mp hij |>.1
    rcases ij with ⟨a, b⟩
    have := mem_pairList.mp hijp
    rw [List.length_range]
    exact ⟨by omega, by omega⟩
  have hflt : 0 + Lf.length < fuel := by
    have h1 : Lf.length ≤ (pairList n).length := List.length_filter_le _ _
    have h2' : (pairList n).length < n * n := pairList_length_lt (by omega)
    omega
  obtain ⟨hplen, hpg, hpiff⟩ :=
    foldUnions_spec Lf (List.range n) 0 hg0 hmemLf hflt
  set pstar := foldUnions fuel Lf (List.range n) with hpstar
  set root := rootOfC pstar with hroot
  have hchar : ∀ i j, i < n → j < n →
      (root i = root j ↔ Relation.EqvGen
        (fun a b => a < n ∧ b < n ∧ a ≠ b ∧
          ∃ v, simEntry embeddings a b = Except.ok v ∧ (0.85 : ℝ) ≤ v) i j) := by
    intro i j hi hj
    rw [hpiff i j]
    constructor
    · refine eqvGen_mono_of ?_
      intro a b hab
      rcases hab with hab | hab
      · rw [rootOfC_range, rootOfC_range] at hab
        subst hab
        exact Relation.EqvGen.refl a
      · have hmem := List.mem_filter.mp hab
        rcases hcp : (a, b) ∈ pairList n with _
        have hp := hmem.1
        have habn := mem_pairList.mp hp
        have hcond : (0.85 : ℝ) ≤ (mat.getD a []).getD b 0 := by
          have := hmem.2
          simpa using this
        refine Relation.EqvGen.rel a b
          ⟨by omega, by omega, by omega,
            (mat.getD a []).getD b 0,
            simMatrix_entry hmat a b (by omega) (by omega), hcond⟩
    · refine eqvGen_mono_of ?_
      intro a b hab
      obtain ⟨han, hbn, hane, v, hv, hv85⟩ := hab
      rcases Nat.lt_or_ge a b with haltb | hage
      · refine Relation.EqvGen.rel a b (Or.inr ?_)
        rw [hLf, List.mem_filter]
        refine ⟨mem_pairList.mpr ⟨haltb, hbn⟩, ?_⟩
        have hent := simMatrix_entry hmat a b han hbn
        rw [hv] at hent
        injection hent with hveq
        simp only [decide_eq_true_eq]
        rw [← hveq]
        exact hv85
      · have hblta : b < a := by omega
        refine Relation.EqvGen.symm _ _
          (Relation.EqvGen.rel b a (Or.inr ?_))
        rw [hLf, List.mem_filter]
        refine ⟨mem_pairList.mpr ⟨hblta, han⟩, ?_⟩
        have hent := simMatrix_entry hmat b a hbn han
        rw [← simEntry_symm embeddings hane, hv] at hent
        injection hent with hveq
        simp only [decide_eq_true_eq]
        rw [← hveq]
        exact hv85
  have hBfuel : 0 + Lf.length < fuel := hflt
  have hgroups : groupsGo fuel articles pstar [] (List.range n)
      = (natFirsts ((List.range n).map root)).map
          (fun r => (r, ((List.range n).filter (fun i => root i == r)).map
            (fun i => articles.getD i defaultArticle))) := by
    rw [groupsGo_eq_groupFold articles (List.range n) pstar [] hpg hBfuel]
    rw [groupFold_eq]
    rw [List.map_nil, List.nil_append]
    have hfl : (List.range n).filter (fun i => !mapHasG [] (root i))
        = List.range n := by
      refine List.filter_eq_self.mpr ?_
      intro a _
      rfl
    rw [hfl]
  refine ⟨root, _, _, ?_, rfl, rfl, hchar⟩
  unfold deduplicateArticles
  rw [if_neg hn1, hmat]
  dsimp only
  rw [hfold, hgroups, collectGroups_eq, List.map_map]
  have hmm : ((natFirsts ((List.range n).map root)).map
      ((fun kv : Nat × List Article => kv.2) ∘
        (fun r => (r, ((List.range n).filter (fun i => root i == r)).map
          (fun i => articles.getD i defaultArticle)))))
      = (natFirsts ((List.range n).map root)).map
          (fun r => ((List.range n).filter (fun i => root i == r)).map
            (fun i => articles.getD i defaultArticle)) := rfl
  rw [hmm]

theorem repr_tails_perm (dateValue : String → Int) :
    ∀ Gm : List (List Article), (∀ g ∈ Gm, g ≠ []) →
      ((Gm.flatMap (fun g => if g.length = 1 then g
          else (g.insertionSort (fun a b => groupLe dateValue a b = true)).take 1))
        ++ ((Gm.filterMap (fun g => if g.length = 1 then none
            else some (g.insertionSort (fun a b => groupLe dateValue a b = true)))).map
          (fun g => g.tail)).flatten).Perm Gm.flatten := by
  intro Gm
  induction Gm with
  | nil => intro _; exact List.Perm.refl _
  | cons g Gm' ih =>
    intro hne
    have hg := hne g (List.mem_cons_self _ _)
    have ih' := ih (fun x hx => hne x (List.mem_cons_of_mem _ hx))
    rw [List.flatMap_cons, List.filterMap_cons, List.flatten_cons]
    by_cases hl : g.length = 1
    · rw [if_pos hl, if_pos hl]
      rw [List.append_assoc]
      exact List.Perm.append_left g ih'
    · rw [if_neg hl, if_neg hl]
      set s := g.insertionSort (fun a b => groupLe dateValue a b = true) with hs
      have hsg : s.Perm g := List.perm_insertionSort _ g
      have hsne : s ≠ [] := by
        intro hnil
        have := hsg.length_eq
        rw [hnil] at this
        exact hg (List.length_eq_zero.mp this.symm)
      rw [List.map_cons, List.flatten_cons]
      have hassoc : (s.take 1 ++ Gm'.flatMap (fun g => if g.length = 1 then g
            else (g.insertionSort (fun a b => groupLe dateValue a b = true)).take 1))
          ++ (s.tail ++ ((Gm'.filterMap (fun g => if g.length = 1 then none
            else some (g.insertionSort (fun a b => groupLe dateValue a b = true)))).map
              (fun g => g.tail)).flatten)
          = s.take 1 ++ ((Gm'.flatMap (fun g => if g.length = 1 then g
            else (g.insertionSort (fun a b => groupLe dateValue a b = true)).take 1))
            ++ (s.tail ++ ((Gm'.filterMap (fun g => if g.length = 1 then none
              else some (g.insertionSort (fun a b => groupLe dateValue a b = true)))).map
                (fun g => g.tail)).flatten)) := by
        rw [List.append_assoc]
      rw [hassoc]
      refine List.Perm.trans
        (List.Perm.append_left _ (List.perm_append_comm_assoc _ _ _)) ?_
      rw [← List.append_assoc]
      have hts : s.take 1 ++ s.tail = s := by
        rcases s with _ | ⟨a, t⟩
        · exact absurd rfl hsne
        · rfl
      rw [hts]
      refine List.Perm.trans (List.Perm.append_right _ hsg) ?_
      exact List.Perm.append_left g ih'

/-- C6 helper: every group in the characterization is nonempty. -/
theorem member_ne_nil (root : Nat → Nat) (articles : List Article) {n : Nat}
    {r : Nat} (hr : r ∈ natFirsts ((List.range n).map root)) :
    ((List.range n).filter (fun i => root i == r)).map
      (fun i => articles.getD i defaultArticle) ≠ [] := by
  obtain ⟨i0, hi0, hri0⟩ := mem_natFirsts_map_root hr
  have : i0 ∈ (List.range n).filter (fun i => root i == r) :=
    List.mem_filter.mpr ⟨hi0, by simp [hri0]⟩
  intro hnil
  rw [List.map_eq_nil_iff] at hnil
  rw [hnil] at this
  exact List.not_mem_nil i0 this

/-- C10: accounting invariants of `deduplicateArticles`. -/
theorem C10_dedup_accounting (dateValue : String → Int)
    (embeddings : List (List ℝ)) (articles : List Article)
    (hn : embeddings.length = articles.length)
    (hd : ∀ e1 ∈ embeddings, ∀ e2 ∈ embeddings, e1.length = e2.length) :
    ∃ res : DedupResult,
      deduplicateArticles dateValue embeddings articles = Except.ok res
      ∧ res.totalArticles = articles.length
      ∧ res.removedCount = res.totalArticles - res.uniqueArticles.length
      ∧ (∀ g ∈ res.duplicateGroups, 2 ≤ g.length
          ∧ ∃ a, g.head? = some a ∧ a ∈ res.uniqueArticles)
      ∧ articles.Perm (res.uniqueArticles
          ++ (res.duplicateGroups.map (fun g => g.tail)).flatten) := by
  by_cases hlen : articles.length ≤ 1
  · refine ⟨⟨articles, [], articles.length, 0⟩, ?_, rfl, by simp, by simp, by simp⟩
    unfold deduplicateArticles
    rw [if_pos hlen]
  · obtain ⟨root, U, D, hok, hUeq, hDeq, hchar⟩ :=
      dedupArticles_spec dateValue embeddings articles hn hd (by omega)
    refine ⟨_, hok, rfl, rfl, ?_, ?_⟩
    · intro g' hg'
      dsimp only at hg'
      rw [hDeq] at hg'
      obtain ⟨g, hgmem, hsome⟩ := List.mem_filterMap.mp hg'
      by_cases hl : g.length = 1
      · rw [if_pos hl] at hsome
        exact absurd hsome (by simp)
      · rw [if_neg hl] at hsome
        injection hsome with hsome
        subst hsome
        obtain ⟨r, hr, hgr⟩ := List.mem_map.mp hgmem
        have hgne : g ≠ [] := by
          rw [← hgr]
          exact member_ne_nil root articles hr
        have hlen2 : 2 ≤ g.length := by
          have h0 : g.length ≠ 0 := fun h => hgne (List.length_eq_zero.mp h)
          omega
        refine ⟨by rw [List.length_insertionSort]; omega, ?_⟩
        have hslen : (g.insertionSort
            (fun a b => groupLe dateValue a b = true)).length = g.length :=
          List.length_insertionSort _ _
        have hsne : g.insertionSort
            (fun a b => groupLe dateValue a b = true) ≠ [] := by
          intro hnil
          rw [hnil] at hslen
          simp at hslen
          omega
        obtain ⟨a, t, hat⟩ := List.exists_cons_of_ne_nil hsne
        refine ⟨a, by rw [hat]; rfl, ?_⟩
        dsimp only
        rw [hUeq]
        refine List.mem_flatMap.mpr ⟨g, hgmem, ?_⟩
        rw [if_neg hl, hat]
        exact List.mem_cons_self _ _
    · dsimp only
      rw [hUeq, hDeq]
      set K := natFirsts ((List.range articles.length).map root) with hK
      set Gm := K.map (fun r => ((List.range articles.length).filter
        (fun i => root i == r)).map
          (fun i => articles.getD i defaultArticle)) with hGm
      have hGne : ∀ g ∈ Gm, g ≠ [] := by
        intro g hg
        obtain ⟨r, hr, hgr⟩ := List.mem_map.mp hg
        rw [← hgr]
        exact member_ne_nil root articles hr
      have h1 := repr_tails_perm dateValue Gm hGne
      have h2 : Gm.flatten.Perm articles := by
        have hcomp : Gm = (K.map (fun r => (List.range articles.length).filter
            (fun i => root i == r))).map
              (List.map (fun i => articles.getD i defaultArticle)) := by
          rw [List.map_map]
          rfl
        rw [hcomp, ← List.map_flatten]
        have hperm := flatten_groups_perm root articles.length
          (List.range articles.length) (by rw [List.length_range])
        have := List.Perm.map (fun i => articles.getD i defaultArticle) hperm
        rw [map_getD_range] at this
        exact this
      exact (h1.trans h2).symm

/-- C6: connected components, representative rule, small-input identity,
and the transitive-collapse instance. -/
theorem C6_dedup_connected_components (dateValue : String → Int)
    (embeddings : List (List ℝ)) (articles : List Article)
    (hn : embeddings.length = articles.length)
    (hd : ∀ e1 ∈ embeddings, ∀ e2 ∈ embeddings, e1.length = e2.length)
    (h2 : 2 ≤ articles.length) :
    (∀ (dv2 : String → Int) (emb2 : List (List ℝ)) (arts2 : List Article),
      arts2.length ≤ 1 →
      deduplicateArticles dv2 emb2 arts2
        = Except.ok ⟨arts2, [], arts2.length, 0⟩)
    ∧ (∃ (root : Nat → Nat) (U : List Article) (D : List (List Article)),
        deduplicateArticles dateValue embeddings articles
          = Except.ok ⟨U, D, articles.length, articles.length - U.length⟩
        ∧ (∀ i j, i < articles.length → j < articles.length →
            (root i = root j ↔ Relation.EqvGen
              (fun a b => a < articles.length ∧ b < articles.length ∧ a ≠ b ∧
                ∃ v, simEntry embeddings a b = Except.ok v ∧ (0.85 : ℝ) ≤ v)
              i j))
        ∧ U = ((natFirsts ((List.range articles.length).map root)).map
                (fun r => ((List.range articles.length).filter
                  (fun i => root i == r)).map
                    (fun i => articles.getD i defaultArticle))).flatMap
              (fun g => if g.length = 1 then g
                else (g.insertionSort
                  (fun a b => groupLe dateValue a b = true)).take 1)
        ∧ D = ((natFirsts ((List.range articles.length).map root)).map
                (fun r => ((List.range articles.length).filter
                  (fun i => root i == r)).map
                    (fun i => articles.getD i defaultArticle))).filterMap
              (fun g => if g.length = 1 then none
                else some (g.insertionSort
                  (fun a b => groupLe dateValue a b = true))))
    ∧ (∀ (dv3 : String → Int) (emb3 : List (List ℝ)) (arts3 : List Article),
        arts3.length = 3 → emb3.length = 3 →
        (∀ e1 ∈ emb3, ∀ e2 ∈ emb3, e1.length = e2.length) →
        (∃ v, simEntry emb3 0 1 = Except.ok v ∧ (0.85 : ℝ) ≤ v) →
        (∃ v, simEntry emb3 1 2 = Except.ok v ∧ (0.85 : ℝ) ≤ v) →
        ∃ res3 : DedupResult,
          deduplicateArticles dv3 emb3 arts3 = Except.ok res3
          ∧ res3.uniqueArticles.length = 1
          ∧ ∃ g, res3.duplicateGroups = [g] ∧ g.length = 3) := by
  refine ⟨?_, ?_, ?_⟩
  · intro dv2 emb2 arts2 hle
    unfold deduplicateArticles
    rw [if_pos hle]
  · obtain ⟨root, U, D, hok, hUeq, hDeq, hchar⟩ :=
      dedupArticles_spec dateValue embeddings articles hn hd h2
    exact ⟨root, U, D, hok, hchar, hUeq, hDeq⟩
  · intro dv3 emb3 arts3 hl3 he3 hd3 hs01 hs12
    obtain ⟨root, U, D, hok, hUeq, hDeq, hchar⟩ :=
      dedupArticles_spec dv3 emb3 arts3 (by omega) hd3 (by omega)
    obtain ⟨v01, hv01, hv01le⟩ := hs01
    obtain ⟨v12, hv12, hv12le⟩ := hs12
    have h01 : root 0 = root 1 :=
      (hchar 0 1 (by omega) (by omega)).mpr
        (Relation.EqvGen.rel 0 1
          ⟨by omega, by omega, by omega, v01, hv01, hv01le⟩)
    have h12 : root 1 = root 2 :=
      (hchar 1 2 (by omega) (by omega)).mpr
        (Relation.EqvGen.rel 1 2
          ⟨by omega, by omega, by omega, v12, hv12, hv12le⟩)
    rw [hl3] at hUeq hDeq
    have hr3 : (List.range 3).map root = [root 0, root 1, root 2] := rfl
    have hK : natFirsts ((List.range 3).map root) = [root 0] := by
      rw [hr3, ← h01, ← h01.trans h12]
      rw [show ([root 0, root 0, root 0] : List Nat)
          = root 0 :: [root 0, root 0] from rfl, natFirsts_cons]
      have hfe : ([root 0, root 0] : List Nat).filter
          (fun y => y ≠ root 0) = [] := by
        simp
      rw [hfe]
      rfl
    have hmem3 : (List.range 3).filter (fun i => root i == root 0)
        = [0, 1, 2] := by
      have : (List.range 3) = [0, 1, 2] := rfl
      rw [this]
      rw [List.filter_cons, List.filter_cons, List.filter_cons]
      rw [if_pos (by simp), if_pos (by simp [← h01]),
        if_pos (by simp [← h01.trans h12])]
      rfl
    rw [hK, List.map_cons, List.map_nil] at hUeq hDeq
    rw [hmem3] at hUeq hDeq
    set g3 := ([0, 1, 2] : List Nat).map
      (fun i => arts3.getD i defaultArticle) with hg3
    have hg3len : g3.length = 3 := rfl
    have hne1 : ¬g3.length = 1 := by rw [hg3len]; omega
    rw [List.flatMap_cons, List.flatMap_nil, if_neg hne1] at hUeq
    rw [List.filterMap_cons] at hDeq
    rw [if_neg hne1] at hDeq
    dsimp only [List.filterMap_nil] at hDeq
    refine ⟨_, hok, ?_, ?_⟩
    · dsimp only
      rw [hUeq, List.append_nil]
      rw [List.length_take, List.length_insertionSort, hg3len]
      omega
    · dsimp only
      exact ⟨_, hDeq, by rw [List.length_insertionSort, hg3len]⟩

theorem cosine_concrete (x1 x2 y1 y2 n1 n2 d : ℝ)
    (h1 : 0 + x1 * x1 + x2 * x2 = n1 ^ 2) (hn1 : 0 < n1)
    (h2 : 0 + y1 * y1 + y2 * y2 = n2 ^ 2) (hn2 : 0 < n2)
    (hdot : 0 + x1 * y1 + x2 * y2 = d) :
    cosineSimilarity [x1, x2] [y1, y2] = Except.ok (d / (n1 * n2)) := by
  rw [cosineSimilarity, if_neg (by norm_num)]
  dsimp only [dotProd, List.zip, List.zipWith, List.foldl]
  rw [h1, h2, Real.sqrt_sq hn1.le, Real.sqrt_sq hn2.le, hdot]
  rw [if_neg]
  push_neg
  exact ⟨ne_of_gt hn1, ne_of_gt hn2⟩

/-- Witness for C6 at three concrete articles with Pythagorean embeddings
whose consecutive cosines exceed the threshold. -/
theorem C6_dedup_connected_components_witness :
    ∃ res3 : DedupResult,
      deduplicateArticles (fun _ => 0) [[(24 : ℝ), 7], [20, 15], [15, 20]]
          [defaultArticle, defaultArticle, defaultArticle] = Except.ok res3
        ∧ res3.uniqueArticles.length = 1
        ∧ ∃ g, res3.duplicateGroups = [g] ∧ g.length = 3 := by
  have hdims : ∀ e1 ∈ [[(24 : ℝ), 7], [20, 15], [15, 20]],
      ∀ e2 ∈ [[(24 : ℝ), 7], [20, 15], [15, 20]], e1.length = e2.length := by
    intro e1 h1 e2 h2
    simp only [List.mem_cons, List.not_mem_nil, or_false] at h1 h2
    rcases h1 with rfl | rfl | rfl <;> rcases h2 with rfl | rfl | rfl <;> rfl
  have hc01 : cosineSimilarity [(24 : ℝ), 7] [(20 : ℝ), 15]
      = Except.ok (585 / (25 * 25)) :=
    cosine_concrete 24 7 20 15 25 25 585 (by norm_num) (by norm_num)
      (by norm_num) (by norm_num) (by norm_num)
  have hc12 : cosineSimilarity [(20 : ℝ), 15] [(15 : ℝ), 20]
      = Except.ok (600 / (25 * 25)) :=
    cosine_concrete 20 15 15 20 25 25 600 (by norm_num) (by norm_num)
      (by norm_num) (by norm_num) (by norm_num)
  exact (C6_dedup_connected_components (fun _ => 0)
      [[(24 : ℝ), 7], [20, 15], [15, 20]]
      [defaultArticle, defaultArticle, defaultArticle] rfl hdims
      (by simp)).2.2
    (fun _ => 0) [[(24 : ℝ), 7], [20, 15], [15, 20]]
    [defaultArticle, defaultArticle, defaultArticle] rfl rfl hdims
    ⟨585 / (25 * 25),
      by rw [simEntry, if_neg (by omega), if_neg (by omega)]; exact hc01,
      by norm_num⟩
    ⟨600 / (25 * 25),
      by rw [simEntry, if_neg (by omega), if_neg (by omega)]; exact hc12,
      by norm_num⟩

/-- Witness for C10 at two concrete articles with identical embeddings. -/
theorem C10_dedup_accounting_witness :
    ∃ res : DedupResult,
      deduplicateArticles (fun _ => 0) [[(1 : ℝ)], [1]]
          [defaultArticle, defaultArticle] = Except.ok res
      ∧ res.totalArticles = ([defaultArticle, defaultArticle] : List Article).length
      ∧ res.removedCount = res.totalArticles - res.uniqueArticles.length
      ∧ (∀ g ∈ res.duplicateGroups, 2 ≤ g.length
          ∧ ∃ a, g.head? = some a ∧ a ∈ res.uniqueArticles)
      ∧ ([defaultArticle, defaultArticle] : List Article).Perm
          (res.uniqueArticles
            ++ (res.duplicateGroups.map (fun g => g.tail)).flatten) :=
  C10_dedup_accounting (fun _ => 0) [[(1 : ℝ)], [1]]
    [defaultArticle, defaultArticle] rfl
    (by intro e1 h1 e2 h2
        simp only [List.mem_cons, List.not_mem_nil, or_false] at h1 h2
        rcases h1 with rfl | rfl <;> rcases h2 with rfl | rfl <;> rfl)

end NewsAgg
